import Mathlib

/-!
# Verification of the search-query core of `src/libs/SearchUtils.ts`

This file is a shallow embedding, in Lean 4, of the query-canonicalisation,
filter-flattening, result-section-building and sorting logic of
`src/libs/SearchUtils.ts`, together with theorems settling the specification
claims about that code.

Modelling conventions:
* JavaScript strings are Lean `String`s; JS string comparison (`<`, `>`,
  `localeCompare` on the ASCII strings involved) is modelled by lexicographic
  comparison of the underlying character lists (`lexCmp`).
* JS `Array.prototype.sort(cmp)` is required by ES2019 to be stable; it is
  modelled by stable insertion sort (`jsSort`), keyed on `cmp(a, b) <= 0`,
  which matches the binary-insertion behaviour of the engines used by the app
  on the comparators appearing in this file.
* In-place mutation of a caller-supplied array (JS `sort` sorts in place) is
  modelled by explicit state passing: such functions return both the returned
  array and the state of the caller's array after the call (`JSCall`).
* `undefined`-able record fields become `Option`; JS truthiness of a possibly
  absent string (`x ? a : b`) is modelled by testing `x` against
  `none`/`some ""`.
* Values that live outside `src/` (CONST literals, `UserUtils.hashText`, the
  PEG search parser, small formatting helpers) are modelled from the spec;
  each such definition carries a doc comment starting `Modelled from the
  spec:`.
-/

/-! ## Lexicographic string comparison (JS string relational operators) -/

/-- Three-way lexicographic comparison of character lists by code point.
This models JavaScript's relational comparison of strings (`<`, `>`), which is
lexicographic on code units; the two agree on all strings handled here. -/
def lexCmp : List Char → List Char → Ordering
  | [], [] => .eq
  | [], _ :: _ => .lt
  | _ :: _, [] => .gt
  | a :: as, b :: bs =>
    if a < b then .lt else if b < a then .gt else lexCmp as bs

/-- JS `a > b` on strings. -/
def strGt (a b : String) : Bool := decide (lexCmp a.data b.data = .gt)

/-- JS `a < b` on strings. -/
def strLtB (a b : String) : Bool := decide (lexCmp a.data b.data = .lt)

/-- The non-strict order `a <= b` induced by `lexCmp`, as a `Prop`. -/
def strLe (a b : String) : Prop := lexCmp a.data b.data ≠ .gt

instance : DecidableRel strLe := fun a b => by
  unfold strLe; infer_instance

theorem lexCmp_eq_iff : ∀ {x y : List Char}, lexCmp x y = .eq ↔ x = y := by
  intro x
  induction x with
  | nil => intro y; cases y <;> simp [lexCmp]
  | cons a as ih =>
    intro y
    cases y with
    | nil => simp [lexCmp]
    | cons b bs =>
      by_cases hab : a < b
      · simp [lexCmp, hab]
        intro h; exact absurd (h ▸ hab) (lt_irrefl b)
      · by_cases hba : b < a
        · simp [lexCmp, hab, hba]
          intro h; exact absurd (h ▸ hba) (lt_irrefl b)
        · have hEq : a = b := le_antisymm (not_lt.mp hba) (not_lt.mp hab)
          simp [lexCmp, hab, hba, hEq, ih]

theorem lexCmp_swap : ∀ {x y : List Char},
    lexCmp y x = (lexCmp x y).swap := by
  intro x
  induction x with
  | nil => intro y; cases y <;> simp [lexCmp, Ordering.swap]
  | cons a as ih =>
    intro y
    cases y with
    | nil => simp [lexCmp, Ordering.swap]
    | cons b bs =>
      by_cases hab : a < b
      · have hba : ¬ b < a := fun h => absurd (lt_trans hab h) (lt_irrefl a)
        simp [lexCmp, hab, hba, Ordering.swap]
      · by_cases hba : b < a
        · simp [lexCmp, hab, hba, Ordering.swap]
        · simp [lexCmp, hab, hba, ih]

theorem lexCmp_cons (a b : Char) (as bs : List Char) :
    lexCmp (a :: as) (b :: bs) =
      if a < b then .lt else if b < a then .gt else lexCmp as bs := rfl

theorem lexCmp_trans_le : ∀ {x y z : List Char},
    lexCmp x y ≠ .gt → lexCmp y z ≠ .gt → lexCmp x z ≠ .gt := by
  intro x
  induction x with
  | nil =>
    intro y z _ _
    cases z <;> simp [lexCmp]
  | cons a as ih =>
    intro y z hxy hyz
    cases y with
    | nil => simp [lexCmp] at hxy
    | cons b bs =>
      cases z with
      | nil => simp [lexCmp] at hyz
      | cons c cs =>
        by_cases hab : a < b
        · by_cases hbc : b < c
          · have hac : a < c := lt_trans hab hbc
            rw [lexCmp_cons, if_pos hac]
            simp
          · by_cases hcb : c < b
            · rw [lexCmp_cons, if_neg hbc, if_pos hcb] at hyz
              exact absurd rfl hyz
            · have hbc' : b = c := le_antisymm (not_lt.mp hcb) (not_lt.mp hbc)
              subst hbc'
              have hba : ¬ b < a := fun h => absurd (lt_trans hab h) (lt_irrefl a)
              rw [lexCmp_cons, if_pos hab]
              simp
        · by_cases hba : b < a
          · rw [lexCmp_cons, if_neg hab, if_pos hba] at hxy
            exact absurd rfl hxy
          · have hab' : a = b := le_antisymm (not_lt.mp hba) (not_lt.mp hab)
            subst hab'
            rw [lexCmp_cons, if_neg hab, if_neg hba] at hxy
            by_cases hac : a < c
            · rw [lexCmp_cons, if_pos hac]
              simp
            · by_cases hca : c < a
              · rw [lexCmp_cons, if_neg hac, if_pos hca] at hyz
                exact absurd rfl hyz
              · rw [lexCmp_cons, if_neg hac, if_neg hca] at hyz ⊢
                exact ih hxy hyz

theorem strLe_total : ∀ a b : String, strLe a b ∨ strLe b a := by
  intro a b
  unfold strLe
  rcases h : lexCmp a.data b.data with _ | _ | _
  · left; simp [h]
  · left; simp [h]
  · right
    rw [lexCmp_swap (x := a.data) (y := b.data), h]
    simp [Ordering.swap]

theorem strLe_trans : ∀ {a b c : String}, strLe a b → strLe b c → strLe a c :=
  fun h1 h2 => lexCmp_trans_le h1 h2

theorem strLe_antisymm : ∀ {a b : String}, strLe a b → strLe b a → a = b := by
  intro a b h1 h2
  unfold strLe at h1 h2
  rw [lexCmp_swap (x := a.data) (y := b.data)] at h2
  rcases h : lexCmp a.data b.data with _ | _ | _
  · rw [h] at h2; simp [Ordering.swap] at h2
  · exact String.ext (lexCmp_eq_iff.mp h)
  · exact absurd h h1

/-! ## The JS array sort model -/

/-- JS `Array.prototype.sort(cmp)`, modelled as a stable insertion sort that
puts `a` before `b` whenever `cmp a b ≤ 0`. -/
def jsSort {α : Type} (cmp : α → α → Int) (l : List α) : List α :=
  List.insertionSort (fun a b => cmp a b ≤ 0) l

/-- Result of calling a JS function that may mutate its array argument in
place: `returned` is the function's return value, `argAfter` is the caller's
array after the call. -/
structure JSCall (α : Type) where
  returned : α
  argAfter : α
  deriving Repr, DecidableEq

/-! ## CONST values used by `SearchUtils.ts`

`CONST.ts` is not part of `src/`; the literals below are modelled from the
spec (§6 fixed enumerations, §4.5 sentinels). -/

/-- Modelled from the spec: `CONST.SEARCH.SYNTAX_ROOT_KEYS`, in the output
order of §4.3 (type, status, policyID, sortBy, sortOrder). -/
def rootKeysList : List String := ["type", "status", "policyID", "sortBy", "sortOrder"]

/-- Modelled from the spec: `CONST.SEARCH.SYNTAX_FILTER_KEYS`, in the fixed
enumeration order of §6. -/
def filterKeysList : List String :=
  ["amount", "date", "category", "tag", "merchant", "description", "reportID",
   "from", "to", "in", "cardID", "taxRate", "currency", "keyword", "expenseType"]

/-- Modelled from the spec: `CONST.TRANSACTION.PARTIAL_TRANSACTION_MERCHANT`,
the placeholder merchant of a partially-created transaction. -/
def merchantSentinelA : String := "(none)"

/-- Modelled from the spec: `CONST.TRANSACTION.DEFAULT_MERCHANT`, the default
new-transaction placeholder merchant. -/
def merchantSentinelB : String := "Expense"

/-- Modelled from the spec: the `report_` collection key prefix
(`ONYXKEYS.COLLECTION.REPORT`). -/
def reportKeyStart : String := "report_"

/-- Modelled from the spec: the `transaction_` collection key prefix
(`ONYXKEYS.COLLECTION.TRANSACTION`). -/
def transactionKeyStart : String := "transactions_"

/-- Modelled from the spec: the `reportActions_` collection key prefix
(`ONYXKEYS.COLLECTION.REPORT_ACTIONS`). -/
def reportActionsKeyStart : String := "reportActions_"

/-- `String.startsWith`, recomputed on character lists so that `decide` can
evaluate it. -/
def startsWithL : List Char → List Char → Bool
  | _, [] => true
  | [], _ :: _ => false
  | a :: as, b :: bs => a == b && startsWithL as bs

/-- `key.startsWith(prefixString)` of JS. -/
def jsStartsWith (key pre : String) : Bool := startsWithL key.data pre.data

/-- `isReportEntry` (SearchUtils.ts line 102). -/
def isReportEntry (key : String) : Bool := jsStartsWith key reportKeyStart

/-- `isTransactionEntry` (SearchUtils.ts line 106). -/
def isTransactionEntry (key : String) : Bool := jsStartsWith key transactionKeyStart

/-- `isReportActionEntry` (SearchUtils.ts line 110). -/
def isReportActionEntry (key : String) : Bool := jsStartsWith key reportActionsKeyStart

/-! ## Query filters and the canonical hash -/

/-- `QueryFilter` (one constraint instance): an operator name
(`eq`/`neq`/`lt`/`lte`/`gt`/`gte`) and a value.  The parser produces values as
strings; numeric values are represented by their string form. -/
structure QueryFilter where
  operator : String
  value : String
  deriving Repr, DecidableEq

/-- `QueryFilters`: the flattened filters, a mapping from filter key to the
ordered list of its constraints.  Modelled as an association list in key
insertion order (a JS object with string keys iterates in insertion order). -/
abbrev QueryFilters : Type := List (String × List QueryFilter)

/-- Association-list lookup used for `filters[key]`. -/
def qfLookup (fl : QueryFilters) (k : String) : Option (List QueryFilter) :=
  (fl.find? (fun p => p.1 == k)).map Prod.snd

/-- Filter AST argument/node shape (`ASTNode` of `@components/Search/types`):
`left` is a sub-node or a key literal, `right` is a sub-node, a scalar value or
an array of values; a node bundles them with an operator name.  Leaves have no
operator (modelled by the `str`/`arr` constructors). -/
inductive ASTArg where
  | str (s : String)
  | arr (vs : List String)
  | node (operator : String) (left : ASTArg) (right : ASTArg)
  deriving Repr, DecidableEq

/-- `SearchQueryJSON` minus the derived fields (`flatFilters`, `hash`,
`inputQuery`) — the shape returned by the parser. -/
structure RawQuery where
  type : String
  status : String
  sortBy : String
  sortOrder : String
  policyID : Option String
  filters : Option ASTArg
  deriving Repr, DecidableEq

/-- `SearchQueryJSON` (see `@components/Search/types`): root keys, the filter
AST is carried separately where needed, plus the derived fields. -/
structure SearchQueryJSON where
  type : String
  status : String
  sortBy : String
  sortOrder : String
  policyID : Option String
  filters : Option ASTArg
  flatFilters : QueryFilters
  inputQuery : String
  hash : Nat
  deriving Repr, DecidableEq

/-- `sanitizeString` (SearchUtils.ts line 501): character whitelist
`[A-Za-z0-9_@./#&+\-\\';,"]`. -/
def isSanitizeAllowed (c : Char) : Bool :=
  (('A' ≤ c && c ≤ 'Z') || ('a' ≤ c && c ≤ 'z') || ('0' ≤ c && c ≤ '9')) ||
  c ∈ ['_', '@', '.', '/', '#', '&', '+', '-', '\\', Char.ofNat 39, ';', ',', Char.ofNat 34]

/-- `sanitizeString` (SearchUtils.ts line 501): a value containing any
character outside the whitelist is wrapped in double quotes, verbatim. -/
def sanitizeString (str : String) : String :=
  if str.data.any (fun c => !isSanitizeAllowed c) then "\"" ++ str ++ "\"" else str

/-- `operatorToSignMap` (SearchUtils.ts line 51).  A JS lookup of an unmapped
operator yields `undefined`, which stringifies to `"undefined"` in the
template literal. -/
def operatorToSign (op : String) : String :=
  if op = "eq" then ":"
  else if op = "lt" then "<"
  else if op = "lte" then "<="
  else if op = "gt" then ">"
  else if op = "gte" then ">="
  else if op = "neq" then "!="
  else if op = "and" then ","
  else if op = "or" then " "
  else "undefined"

/-- One step of the `queryFilters.forEach` loop in `buildFilterString`
(SearchUtils.ts line 809): `prev` is the previous filter when `index != 0`. -/
def buildFilterStringStep (filterName delim : String)
    (prev : Option QueryFilter) (qf : QueryFilter) : String :=
  match prev with
  | some p =>
    if (qf.operator = "eq" && p.operator = "eq") ||
        (qf.operator = "neq" && p.operator = "neq") then
      delim ++ sanitizeString qf.value
    else if filterName = "keyword" then
      delim ++ sanitizeString qf.value
    else
      " " ++ filterName ++ operatorToSign qf.operator ++ sanitizeString qf.value
  | none =>
    if filterName = "keyword" then
      delim ++ sanitizeString qf.value
    else
      " " ++ filterName ++ operatorToSign qf.operator ++ sanitizeString qf.value

/-- Tail of `buildFilterString`: renders `queryFilters` knowing the previous
element (`none` at index 0). -/
def buildFilterStringGo (filterName delim : String) :
    Option QueryFilter → List QueryFilter → String
  | _, [] => ""
  | prev, qf :: rest =>
    buildFilterStringStep filterName delim prev qf ++
      buildFilterStringGo filterName delim (some qf) rest

/-- `buildFilterString` (SearchUtils.ts line 809). -/
def buildFilterString (filterName : String) (queryFilters : List QueryFilter) : String :=
  buildFilterStringGo filterName (if filterName = "keyword" then " " else ",") none queryFilters

/-- Modelled from the spec: `UserUtils.hashText` (not under `src/`), a
length-bounded rolling string hash reduced modulo `2^32`, then modulo the
requested range. -/
def hashText (text : String) (range : Nat) : Nat :=
  (text.data.foldl (fun h c => (h * 31 + c.toNat) % 4294967296) 0) % range

/-- The comparator passed to `filterValues?.sort` in `getQueryHash`
(SearchUtils.ts line 423): `1` when `queryFilter1.value > queryFilter2.value`,
otherwise `-1`; it never returns `0`. -/
def hashValueCmp (a b : QueryFilter) : Int :=
  if strGt a.value b.value then 1 else -1

/-- The in-place `sort` of a filter-value array performed by `getQueryHash`. -/
def sortFilterValues (l : List QueryFilter) : List QueryFilter :=
  jsSort hashValueCmp l

/-- `Object.keys(query.flatFilters).sort()` of `getQueryHash`: default JS sort
compares strings lexicographically. -/
def sortKeys (ks : List String) : List String :=
  List.insertionSort strLe ks

/-- The root-key part of the canonical ordered string built by `getQueryHash`
(SearchUtils.ts lines 410–417): `policyID` first when present (truthy), then
`type`, `status`, `sortBy`, `sortOrder`. -/
def orderedQueryBase (query : SearchQueryJSON) : String :=
  (match query.policyID with
   | some pid => if pid ≠ "" then "policyID:" ++ pid ++ " " else ""
   | none => "") ++
  "type:" ++ query.type ++
  " status:" ++ query.status ++
  " sortBy:" ++ query.sortBy ++
  " sortOrder:" ++ query.sortOrder

/-- One filter key's contribution inside the `forEach` of `getQueryHash`. -/
def orderedQueryStep (fl : QueryFilters) (acc key : String) : String :=
  acc ++ " " ++ buildFilterString key (sortFilterValues ((qfLookup fl key).getD []))

/-- The canonical ordered string built by `getQueryHash`
(SearchUtils.ts lines 410–430): root keys, then the filter keys in sorted
order, each with its constraint values sorted by `hashValueCmp`. -/
def orderedQueryOf (query : SearchQueryJSON) : String :=
  (sortKeys (query.flatFilters.map Prod.fst)).foldl
    (orderedQueryStep query.flatFilters) (orderedQueryBase query)

/-- `getQueryHash` (SearchUtils.ts line 409). -/
def getQueryHash (query : SearchQueryJSON) : Nat :=
  hashText (orderedQueryOf query) (2 ^ 32)

/-- The in-place mutation `getQueryHash` performs on `query.flatFilters`: each
key's value array is sorted by `hashValueCmp`. -/
def sortFlatFilters (fl : QueryFilters) : QueryFilters :=
  fl.map (fun p => (p.1, sortFilterValues p.2))

/-! ## Sorting lemmas for the hash canonicalisation -/

theorem hashValueCmp_le_iff (a b : QueryFilter) :
    hashValueCmp a b ≤ 0 ↔ strLe a.value b.value := by
  unfold hashValueCmp strGt strLe
  by_cases h : lexCmp a.value.data b.value.data = Ordering.gt
  · rw [if_pos (by simpa using h)]
    constructor
    · intro hle; exact absurd hle (by decide)
    · intro hne; exact absurd h hne
  · rw [if_neg (by simpa using h)]
    constructor
    · intro _; exact h
    · intro _; decide

theorem sortKeys_perm_eq {l1 l2 : List String} (h : l1.Perm l2) :
    sortKeys l1 = sortKeys l2 := by
  haveI : IsTotal String strLe := ⟨strLe_total⟩
  haveI : IsTrans String strLe := ⟨fun _ _ _ => strLe_trans⟩
  haveI : IsAntisymm String strLe := ⟨fun _ _ => strLe_antisymm⟩
  unfold sortKeys
  refine List.eq_of_perm_of_sorted (r := strLe) ?_ ?_ ?_
  · exact ((List.perm_insertionSort strLe l1).trans h).trans
      (List.perm_insertionSort strLe l2).symm
  · exact List.sorted_insertionSort strLe l1
  · exact List.sorted_insertionSort strLe l2

theorem sortFilterValues_sorted (l : List QueryFilter) :
    (sortFilterValues l).Pairwise (fun a b => strLe a.value b.value) := by
  haveI : IsTotal QueryFilter (fun a b : QueryFilter => hashValueCmp a b ≤ 0) := by
    refine ⟨fun a b => ?_⟩
    rcases strLe_total a.value b.value with h | h
    · exact Or.inl ((hashValueCmp_le_iff a b).mpr h)
    · exact Or.inr ((hashValueCmp_le_iff b a).mpr h)
  haveI : IsTrans QueryFilter (fun a b : QueryFilter => hashValueCmp a b ≤ 0) := by
    refine ⟨fun a b c h1 h2 => ?_⟩
    exact (hashValueCmp_le_iff a c).mpr
      (strLe_trans ((hashValueCmp_le_iff a b).mp h1) ((hashValueCmp_le_iff b c).mp h2))
  have h := List.sorted_insertionSort (fun a b : QueryFilter => hashValueCmp a b ≤ 0) l
  exact List.Pairwise.imp (fun hab => (hashValueCmp_le_iff _ _).mp hab) h

theorem sortFilterValues_perm (l : List QueryFilter) :
    (sortFilterValues l).Perm l := by
  unfold sortFilterValues jsSort
  exact List.perm_insertionSort _ l

/-- Two permuted constraint lists whose values are pairwise distinct sort to
the same list under the `getQueryHash` value comparator. -/
theorem sortFilterValues_perm_eq {l1 l2 : List QueryFilter} (h : l1.Perm l2)
    (hnd : (l1.map QueryFilter.value).Nodup) :
    sortFilterValues l1 = sortFilterValues l2 := by
  haveI : IsAntisymm QueryFilter
      (fun a b => strLe a.value b.value ∧ a.value ≠ b.value) := by
    refine ⟨fun a b hab hba => ?_⟩
    exact absurd (strLe_antisymm hab.1 hba.1) hab.2
  have hp1 : (sortFilterValues l1).Perm l1 := sortFilterValues_perm l1
  have hp2 : (sortFilterValues l2).Perm l2 := sortFilterValues_perm l2
  have hndp1 : ((sortFilterValues l1).map QueryFilter.value).Nodup :=
    (hp1.map QueryFilter.value).nodup_iff.mpr hnd
  have hnd2 : (l2.map QueryFilter.value).Nodup :=
    (h.map QueryFilter.value).nodup_iff.mp hnd
  have hndp2 : ((sortFilterValues l2).map QueryFilter.value).Nodup :=
    (hp2.map QueryFilter.value).nodup_iff.mpr hnd2
  have hne1 : (sortFilterValues l1).Pairwise (fun a b => a.value ≠ b.value) :=
    List.pairwise_map.mp hndp1
  have hne2 : (sortFilterValues l2).Pairwise (fun a b => a.value ≠ b.value) :=
    List.pairwise_map.mp hndp2
  refine List.eq_of_perm_of_sorted
    (r := fun a b => strLe a.value b.value ∧ a.value ≠ b.value)
    ((hp1.trans h).trans hp2.symm) ?_ ?_
  · exact (sortFilterValues_sorted l1).and hne1
  · exact (sortFilterValues_sorted l2).and hne2

theorem qfLookup_eq_none_iff (fl : QueryFilters) (k : String) :
    qfLookup fl k = none ↔ ∀ p ∈ fl, p.1 ≠ k := by
  unfold qfLookup
  rw [Option.map_eq_none']
  rw [List.find?_eq_none]
  constructor
  · intro h p hp
    simpa using h p hp
  · intro h p hp
    simpa using h p hp

theorem qfLookup_eq_some_mem {fl : QueryFilters} {k : String} {l : List QueryFilter}
    (h : qfLookup fl k = some l) : ∃ p ∈ fl, p.1 = k ∧ p.2 = l := by
  unfold qfLookup at h
  rcases Option.map_eq_some'.mp h with ⟨p, hf, hpl⟩
  have hmem := List.mem_of_find?_eq_some hf
  have hpred := List.find?_some hf
  exact ⟨p, hmem, by simpa using hpred, hpl⟩

/-- Key-wise permuted filter maps with per-key distinct values have pointwise
equal sorted lookups. -/
theorem sorted_lookup_eq
    {fl1 fl2 : QueryFilters}
    (hKeys : (fl1.map Prod.fst).Perm (fl2.map Prod.fst))
    (hVals : ∀ p ∈ fl1, ∀ r ∈ fl2, p.1 = r.1 → p.2.Perm r.2)
    (hDistinct : ∀ p ∈ fl1, (p.2.map QueryFilter.value).Nodup)
    (k : String) :
    sortFilterValues ((qfLookup fl1 k).getD []) =
      sortFilterValues ((qfLookup fl2 k).getD []) := by
  cases h1 : qfLookup fl1 k with
  | none =>
    have hnone1 := (qfLookup_eq_none_iff fl1 k).mp h1
    have hno2 : ∀ r ∈ fl2, r.1 ≠ k := by
      intro r hr hrk
      have hmem2 : k ∈ fl2.map Prod.fst := List.mem_map.mpr ⟨r, hr, hrk⟩
      have hmem1 : k ∈ fl1.map Prod.fst := hKeys.mem_iff.mpr hmem2
      rcases List.mem_map.mp hmem1 with ⟨p, hp, hpk⟩
      exact hnone1 p hp hpk
    rw [(qfLookup_eq_none_iff fl2 k).mpr hno2]
  | some l1 =>
    rcases qfLookup_eq_some_mem h1 with ⟨p, hp, hpk, hpl⟩
    have hmem1 : k ∈ fl1.map Prod.fst := List.mem_map.mpr ⟨p, hp, hpk⟩
    have hmem2 : k ∈ fl2.map Prod.fst := hKeys.mem_iff.mp hmem1
    cases h2 : qfLookup fl2 k with
    | none =>
      have hnone2 := (qfLookup_eq_none_iff fl2 k).mp h2
      rcases List.mem_map.mp hmem2 with ⟨r, hr, hrk⟩
      exact absurd hrk (hnone2 r hr)
    | some l2 =>
      rcases qfLookup_eq_some_mem h2 with ⟨r, hr, hrk, hrl⟩
      have hperm : l1.Perm l2 := by
        have := hVals p hp r hr (hpk.trans hrk.symm)
        rwa [hpl, hrl] at this
      have hnd : (l1.map QueryFilter.value).Nodup := by
        have := hDistinct p hp
        rwa [hpl] at this
      simpa using sortFilterValues_perm_eq hperm hnd

/-! ## Claim C1 -/

/-- Query used in the C1 counterexample: two `date` constraints with equal
values but different operators, in the two possible insertion orders. -/
def c1CounterQueryA : SearchQueryJSON :=
  { type := "expense", status := "all", sortBy := "date", sortOrder := "desc"
    policyID := none, filters := none
    flatFilters := [("date", [⟨"gt", "2024-01-01"⟩, ⟨"lt", "2024-01-01"⟩])]
    inputQuery := "", hash := 0 }

/-- The key-wise permutation of `c1CounterQueryA`. -/
def c1CounterQueryB : SearchQueryJSON :=
  { type := "expense", status := "all", sortBy := "date", sortOrder := "desc"
    policyID := none, filters := none
    flatFilters := [("date", [⟨"lt", "2024-01-01"⟩, ⟨"gt", "2024-01-01"⟩])]
    inputQuery := "", hash := 0 }

/-- C1, counterexample: `c1CounterQueryA` and `c1CounterQueryB` agree on all
root keys and their `flatFilters` are permutations of each other (same single
key `date`, same two values, different insertion order), yet `getQueryHash`
maps them to different numbers.  The value-sort comparator never returns `0`,
so two constraints with equal values but different operators keep their
insertion order, which feeds two different canonical strings to the hash. -/
theorem c1_hash_not_perm_invariant :
    c1CounterQueryA.type = c1CounterQueryB.type ∧
    c1CounterQueryA.status = c1CounterQueryB.status ∧
    c1CounterQueryA.sortBy = c1CounterQueryB.sortBy ∧
    c1CounterQueryA.sortOrder = c1CounterQueryB.sortOrder ∧
    c1CounterQueryA.policyID = c1CounterQueryB.policyID ∧
    (c1CounterQueryA.flatFilters.map Prod.fst).Perm
      (c1CounterQueryB.flatFilters.map Prod.fst) ∧
    (∀ p ∈ c1CounterQueryA.flatFilters, ∀ r ∈ c1CounterQueryB.flatFilters,
      p.1 = r.1 → p.2.Perm r.2) ∧
    getQueryHash c1CounterQueryA ≠ getQueryHash c1CounterQueryB := by
  refine ⟨rfl, rfl, rfl, rfl, rfl, ?_, ?_, ?_⟩
  · decide
  · decide
  · set_option maxRecDepth 8000 in decide

/-- C1, amended: for two `SearchQueryJSON` values with the same root keys
(`type`/`status`/`sortBy`/`sortOrder`/`policyID`) whose `flatFilters` are
permutations of each other (same keys, and for each key the same constraint
list up to order), `getQueryHash` returns the same number, **provided that
within each filter key the constraint values are pairwise distinct** (the
amendment forced by the counterexample: equal values under one key keep their
insertion order because the sort comparator never returns `0`). -/
theorem c1_hash_perm_invariant_of_distinct
    (q1 q2 : SearchQueryJSON)
    (hType : q1.type = q2.type) (hStatus : q1.status = q2.status)
    (hSortBy : q1.sortBy = q2.sortBy) (hSortOrder : q1.sortOrder = q2.sortOrder)
    (hPolicy : q1.policyID = q2.policyID)
    (hKeys : (q1.flatFilters.map Prod.fst).Perm (q2.flatFilters.map Prod.fst))
    (hVals : ∀ p ∈ q1.flatFilters, ∀ r ∈ q2.flatFilters, p.1 = r.1 → p.2.Perm r.2)
    (hDistinct : ∀ p ∈ q1.flatFilters, (p.2.map QueryFilter.value).Nodup) :
    getQueryHash q1 = getQueryHash q2 := by
  unfold getQueryHash
  suffices h : orderedQueryOf q1 = orderedQueryOf q2 by rw [h]
  unfold orderedQueryOf
  have hbase : orderedQueryBase q1 = orderedQueryBase q2 := by
    unfold orderedQueryBase
    rw [hType, hStatus, hSortBy, hSortOrder, hPolicy]
  have hkeys : sortKeys (q1.flatFilters.map Prod.fst) =
      sortKeys (q2.flatFilters.map Prod.fst) := sortKeys_perm_eq hKeys
  have hstep : orderedQueryStep q1.flatFilters = orderedQueryStep q2.flatFilters := by
    funext acc key
    unfold orderedQueryStep
    rw [sorted_lookup_eq hKeys hVals hDistinct key]
  rw [hbase, hkeys, hstep]

/-- Witness for C1's amended theorem: a concrete pair of key- and value-
permuted queries with distinct values per key hashes identically. -/
theorem c1_hash_perm_invariant_of_distinct_witness :
    getQueryHash
      { type := "expense", status := "all", sortBy := "date", sortOrder := "desc"
        policyID := some "p1", filters := none
        flatFilters := [("category", [⟨"eq", "A"⟩, ⟨"eq", "B"⟩]),
                        ("tag", [⟨"eq", "t"⟩])]
        inputQuery := "", hash := 0 } =
    getQueryHash
      { type := "expense", status := "all", sortBy := "date", sortOrder := "desc"
        policyID := some "p1", filters := none
        flatFilters := [("tag", [⟨"eq", "t"⟩]),
                        ("category", [⟨"eq", "B"⟩, ⟨"eq", "A"⟩])]
        inputQuery := "", hash := 0 } :=
  c1_hash_perm_invariant_of_distinct _ _ rfl rfl rfl rfl rfl
    (by decide) (by decide) (by decide)

/-! ## The filter AST walker (`getFilters`) -/

/-- The effect of `if (!filters[nodeKey]) filters[nodeKey] = []` followed by
pushing `qfs` onto `filters[nodeKey]`: create the key at the end of the map if
absent (JS object key insertion order), then append. -/
def pushAll (fl : QueryFilters) (k : String) (qfs : List QueryFilter) : QueryFilters :=
  if fl.any (fun p => p.1 == k) then
    fl.map (fun p => if p.1 == k then (p.1, p.2 ++ qfs) else p)
  else fl ++ [(k, qfs)]

/-- The recursive `traverse` of `getFilters`, here `traverseAST`, (SearchUtils.ts lines 517–554),
with the captured mutable `filters` object threaded as an accumulator.
A node with a falsy operator returns immediately; object-valued `left` and
non-array object-valued `right` are traversed first (left before right); the
node then contributes constraints only when `left` is a recognised filter-key
literal: one per element of an array `right` (same operator), or a single one
for a scalar `right`.  (A node-valued `right` under a key literal never occurs
in parser output and contributes nothing.) -/
def traverseAST : ASTArg → QueryFilters → QueryFilters
  | .str _, acc => acc
  | .arr _, acc => acc
  | .node op l r, acc =>
    if op = "" then acc
    else
      let acc1 := match l with
        | .node o2 l2 r2 => traverseAST (.node o2 l2 r2) acc
        | _ => acc
      let acc2 := match r with
        | .node o2 l2 r2 => traverseAST (.node o2 l2 r2) acc1
        | _ => acc1
      match l with
      | .str k =>
        if k ∈ filterKeysList then
          match r with
          | .arr vs => pushAll acc2 k (vs.map fun v => ⟨op, v⟩)
          | .str v => pushAll acc2 k [⟨op, v⟩]
          | .node _ _ _ => acc2
        else acc2
      | _ => acc2

/-- `getFilters` (SearchUtils.ts line 513): flatten the filter AST (if any)
into the key → constraint-list map. -/
def getFilters (filters : Option ASTArg) : QueryFilters :=
  match filters with
  | some f => traverseAST f []
  | none => []

/-! ## Claim C6 -/

/-- The concrete tree of the C6 example: `category:A,B date:2024-01-01`
as parsed — an `and` combinator over an array-right `category` leaf and a
scalar-right `date` leaf. -/
def c6Tree : ASTArg :=
  .node "and"
    (.node "eq" (.str "category") (.arr ["A", "B"]))
    (.node "eq" (.str "date") (.str "2024-01-01"))

/-- C6: a node whose `left` is a recognised filter-key literal and whose
`right` is an array contributes, in whatever accumulator state it is reached,
exactly one `QueryFilter` per array element under that key — each with the
node's operator and that element as value; and on the concrete tree containing
`category:A,B` the flattened filters hold exactly two entries for key
`category`, both `eq`, with values `A` and `B`. -/
theorem c6_array_right_one_filter_per_element :
    (∀ (op k : String) (vs : List String) (acc : QueryFilters),
      op ≠ "" → k ∈ filterKeysList →
      traverseAST (.node op (.str k) (.arr vs)) acc =
        pushAll acc k (vs.map fun v => ⟨op, v⟩)) ∧
    qfLookup (getFilters (some c6Tree)) "category" = some [⟨"eq", "A"⟩, ⟨"eq", "B"⟩] := by
  constructor
  · intro op k vs acc hop hk
    show (if op = "" then acc
          else if k ∈ filterKeysList then pushAll acc k (vs.map fun v => ⟨op, v⟩)
          else acc) = pushAll acc k (vs.map fun v => ⟨op, v⟩)
    rw [if_neg hop, if_pos hk]
  · decide

/-- Witness for C6: the general statement applied to the `category:A,B` node
itself, starting from an empty accumulator. -/
theorem c6_array_right_one_filter_per_element_witness :
    traverseAST (.node "eq" (.str "category") (.arr ["A", "B"])) [] =
      pushAll [] "category" [⟨"eq", "A"⟩, ⟨"eq", "B"⟩] :=
  c6_array_right_one_filter_per_element.1 "eq" "category" ["A", "B"] []
    (by decide) (by decide)

/-! ## Results payload model -/

/-- `SearchPersonalDetails` (`@src/types/onyx/SearchResults`). -/
structure SearchPersonalDetails where
  accountID : Int
  avatar : String
  displayName : Option String
  login : Option String
  deriving Repr, DecidableEq

/-- `emptyPersonalDetails` (SearchUtils.ts line 62).  Modelled from the spec:
`CONST.REPORT.OWNER_ACCOUNT_ID_FAKE` is the fake owner account id `0`. -/
def emptyPersonalDetails : SearchPersonalDetails :=
  { accountID := 0, avatar := "", displayName := none, login := none }

/-- `SearchTransaction`: the transaction record fields this module reads. -/
structure SearchTransaction where
  transactionID : String
  reportID : String
  accountID : Int
  managerID : Option Int
  created : String
  modifiedCreated : Option String
  merchant : Option String
  modifiedMerchant : Option String
  reportType : Option String
  amount : Int
  category : Option String
  tag : Option String
  comment : Option String
  deriving Repr, DecidableEq

/-- `SearchReport`: the report record fields this module reads. -/
structure SearchReport where
  reportID : String
  reportName : Option String
  type : Option String
  total : Option Int
  currency : Option String
  accountID : Option Int
  managerID : Option Int
  action : Option String
  deriving Repr, DecidableEq

/-- A report action record (fields this module reads). -/
structure ReportAction where
  reportActionID : String
  accountID : Int
  created : String
  isDeleted : Bool
  deriving Repr, DecidableEq

/-- One record of the results payload, keyed by an entity-prefixed string. -/
inductive DataEntry where
  | transaction (t : SearchTransaction)
  | report (r : SearchReport)
  | reportActions (acts : List ReportAction)
  deriving Repr, DecidableEq

/-- `OnyxTypes.SearchResults['data']`: entity-keyed records in iteration
order, plus the `personalDetailsList` side table (one key of the same JS
object, held apart here; its key matches none of the entity prefixes, so the
prefix-dispatched loops skip it). -/
structure SearchResultsData where
  entries : List (String × DataEntry)
  personalDetailsList : List (Int × SearchPersonalDetails)
  deriving Repr, DecidableEq

/-- `data.personalDetailsList?.[id]`. -/
def pdLookup (pd : List (Int × SearchPersonalDetails)) (id : Int) :
    Option SearchPersonalDetails :=
  (pd.find? (fun p => p.1 == id)).map Prod.snd

/-- `search` metadata (`columnsToShow` flags). -/
structure SearchMetadata where
  shouldShowCategoryColumn : Bool
  shouldShowTagColumn : Bool
  shouldShowTaxColumn : Bool
  deriving Repr, DecidableEq

/-- Modelled from the spec: `TransactionUtils.getMerchant` — the
`modifiedMerchant` when truthy, else the stored `merchant`, else the empty
string.  Line 118 of SearchUtils.ts computes the same expression inline. -/
def getMerchant (t : SearchTransaction) : String :=
  match t.modifiedMerchant with
  | some m => if m ≠ "" then m else t.merchant.getD ""
  | none => t.merchant.getD ""

/-- `getShouldShowMerchant` (SearchUtils.ts line 114): true iff some
transaction entry's merchant is non-empty and differs from both placeholder
sentinels. -/
def getShouldShowMerchant (data : SearchResultsData) : Bool :=
  data.entries.any (fun p =>
    if isTransactionEntry p.1 then
      match p.2 with
      | .transaction item =>
        let merchant := getMerchant item
        merchant != "" && merchant != merchantSentinelA && merchant != merchantSentinelB
      | _ => false
    else false)

/-- Modelled from the spec: the current calendar year, fixed for determinism
(only the derived boolean display flag depends on it). -/
def currentYear : Nat := 2026

/-- The year encoded by the first four characters of a fixed-width ISO-like
date string. -/
def yearOfDate (d : String) : Nat :=
  match d.data with
  | a :: b :: c :: e :: _ =>
    (a.toNat - 48) * 1000 + (b.toNat - 48) * 100 + (c.toNat - 48) * 10 + (e.toNat - 48)
  | _ => 0

/-- Modelled from the spec: `DateUtils.doesDateBelongToAPastYear`. -/
def doesDateBelongToAPastYear (d : String) : Bool := yearOfDate d < currentYear

/-- The effective created date: `modifiedCreated` when truthy, else `created`
(SearchUtils.ts line 83; also models `TransactionUtils.getCreated`). -/
def effectiveDate (t : SearchTransaction) : String :=
  match t.modifiedCreated with
  | some d => if d ≠ "" then d else t.created
  | none => t.created

/-- The payload branch of `shouldShowYear` (SearchUtils.ts lines 157–176). -/
def shouldShowYearData (data : SearchResultsData) : Bool :=
  data.entries.any (fun p =>
    if isTransactionEntry p.1 then
      match p.2 with
      | .transaction t => doesDateBelongToAPastYear (effectiveDate t)
      | _ => false
    else if isReportActionEntry p.1 then
      match p.2 with
      | .reportActions acts => acts.any (fun a => doesDateBelongToAPastYear a.created)
      | _ => false
    else false)

/-! ## List items and section builders -/

/-- `TransactionListItemType`: a transaction enriched with resolved
identities, formatted fields and display flags. -/
structure TransactionListItem where
  transactionID : String
  reportID : String
  created : String
  modifiedCreated : Option String
  merchant : Option String
  modifiedMerchant : Option String
  category : Option String
  tag : Option String
  comment : Option String
  amount : Int
  transactionType : Option String
  action : Option String
  fromDetails : Option SearchPersonalDetails
  toDetails : Option SearchPersonalDetails
  formattedFrom : String
  formattedTo : String
  formattedTotal : Option Int
  formattedMerchant : String
  date : String
  shouldShowMerchant : Bool
  shouldShowCategory : Bool
  shouldShowTag : Bool
  shouldShowTax : Bool
  keyForList : String
  shouldShowYear : Bool
  deriving Repr, DecidableEq

/-- `from?.displayName ?? from?.login ?? ''`. -/
def formatUserName (p : Option SearchPersonalDetails) : String :=
  match p with
  | some d => d.displayName.getD (d.login.getD "")
  | none => ""

/-- Modelled from the spec: `TransactionUtils.getAmount(transaction,
isExpenseReport)`; the claims do not depend on its formula, so it is the
transaction's stored amount. -/
def getAmount (t : SearchTransaction) (_isExpenseReport : Bool) : Int := t.amount

/-- `formattedMerchant` of `getTransactionItemCommonFormattedProperties`
(SearchUtils.ts line 85): the two placeholder merchants display as empty. -/
def formattedMerchantOf (t : SearchTransaction) : String :=
  let merchant := getMerchant t
  if merchant = merchantSentinelA || merchant = merchantSentinelB then "" else merchant

/-- `transactionItem.managerID ? data.personalDetailsList?.[managerID]
: emptyPersonalDetails` (JS number truthiness: `0` is falsy). -/
def resolveTo (data : SearchResultsData) (managerID : Option Int) :
    Option SearchPersonalDetails :=
  match managerID with
  | some m => if m ≠ 0 then pdLookup data.personalDetailsList m else some emptyPersonalDetails
  | none => some emptyPersonalDetails

/-- The transaction list item built by `getTransactionsSections` (lines
193–208) and, identically, inside `getReportSections` (lines 287–302), using
`getTransactionItemCommonFormattedProperties` (lines 73–94). -/
def buildTransactionListItem (data : SearchResultsData) (metadata : SearchMetadata)
    (merchantFlag pastYearFlag : Bool) (t : SearchTransaction) : TransactionListItem :=
  let fromD := pdLookup data.personalDetailsList t.accountID
  let toD := resolveTo data t.managerID
  { transactionID := t.transactionID
    reportID := t.reportID
    created := t.created
    modifiedCreated := t.modifiedCreated
    merchant := t.merchant
    modifiedMerchant := t.modifiedMerchant
    category := t.category
    tag := t.tag
    comment := t.comment
    amount := t.amount
    transactionType := none
    action := none
    fromDetails := fromD
    toDetails := toD
    formattedFrom := formatUserName fromD
    formattedTo := formatUserName toD
    formattedTotal := some (getAmount t (t.reportType = some "expense"))
    formattedMerchant := formattedMerchantOf t
    date := effectiveDate t
    shouldShowMerchant := merchantFlag
    shouldShowCategory := metadata.shouldShowCategoryColumn
    shouldShowTag := metadata.shouldShowTagColumn
    shouldShowTax := metadata.shouldShowTaxColumn
    keyForList := t.transactionID
    shouldShowYear := pastYearFlag }

/-- `getTransactionsSections` (SearchUtils.ts line 179). -/
def getTransactionsSections (data : SearchResultsData) (metadata : SearchMetadata) :
    List TransactionListItem :=
  let merchantFlag := getShouldShowMerchant data
  let pastYearFlag := shouldShowYearData data
  data.entries.filterMap (fun p =>
    if isTransactionEntry p.1 then
      match p.2 with
      | .transaction t => some (buildTransactionListItem data metadata merchantFlag pastYearFlag t)
      | _ => none
    else none)

/-- `ReportListItemType`: a report enriched with identities and its owned
transaction list items. -/
structure ReportListItem where
  reportID : String
  reportName : Option String
  type : Option String
  total : Option Int
  currency : Option String
  accountID : Option Int
  managerID : Option Int
  action : Option String
  keyForList : String
  fromDetails : Option SearchPersonalDetails
  toDetails : Option SearchPersonalDetails
  transactions : List TransactionListItem
  deriving Repr, DecidableEq

/-- Modelled from the spec: `Localize.translateLocal` on the IOU name
templates, rendered deterministically as `key|payer|amount`. -/
def translateIOUName (key payer amount : String) : String :=
  key ++ "|" ++ payer ++ "|" ++ amount

/-- Modelled from the spec: `CurrencyUtils.convertToDisplayString`. -/
def convertToDisplayString (total : Int) (currency : String) : String :=
  toString total ++ " " ++ currency

/-- `getIOUReportName` (SearchUtils.ts line 236).  Modelled from the spec:
`translateLocal('common.hidden')` renders as `"Hidden"`; the `view`/`paid`
action literals come from `CONST.SEARCH.ACTION_TYPES`. -/
def getIOUReportName (data : SearchResultsData) (r : SearchReport) : Option String :=
  let payer := resolveTo data r.managerID
  let payerName :=
    match payer with
    | some p => p.displayName.getD (p.login.getD "Hidden")
    | none => "Hidden"
  let formattedAmount := convertToDisplayString (r.total.getD 0) (r.currency.getD "USD")
  if r.action = some "view" then
    some (translateIOUName "iou.payerOwesAmount" payerName formattedAmount)
  else if r.action = some "paid" then
    some (translateIOUName "iou.payerPaidAmount" payerName formattedAmount)
  else r.reportName

/-- The group header built when `getReportSections` meets a report record
(SearchUtils.ts lines 264–277), preserving already-attached `transactions`. -/
def buildReportListItem (data : SearchResultsData) (transactions : List TransactionListItem)
    (r : SearchReport) : ReportListItem :=
  { reportID := r.reportID
    reportName := if r.type = some "iou" then getIOUReportName data r else r.reportName
    type := r.type
    total := r.total
    currency := r.currency
    accountID := r.accountID
    managerID := r.managerID
    action := r.action
    keyForList := r.reportID
    fromDetails := pdLookup data.personalDetailsList (r.accountID.getD (-1))
    toDetails := resolveTo data r.managerID
    transactions := transactions }

/-- The accumulator of `getReportSections`: `reportIDToTransactions`, a JS
object in key insertion order. -/
abbrev ReportGroups : Type := List (String × ReportListItem)

/-- Replace the value stored under `k` (present), keeping insertion order. -/
def groupsSet (gs : ReportGroups) (k : String) (item : ReportListItem) : ReportGroups :=
  gs.map (fun p => if p.1 == k then (p.1, item) else p)

/-- `reportIDToTransactions[reportKey]` lookup. -/
def qgLookup (gs : ReportGroups) (k : String) : Option ReportListItem :=
  (gs.find? (fun p => p.1 == k)).map Prod.snd

/-- One step of the `for key in data` loop of `getReportSections`
(SearchUtils.ts lines 263–309).  A report record rebuilds its group header,
preserving any transactions already attached (`?.transactions ?? []`), and
creates the group if absent.  A transaction record appends to its parent
group's `transactions` array when the group exists — and is otherwise
dropped: the `if/else if` chain has no branch for an absent group. -/
def reportSectionsStep (data : SearchResultsData) (metadata : SearchMetadata)
    (merchantFlag pastYearFlag : Bool) (gs : ReportGroups) (p : String × DataEntry) :
    ReportGroups :=
  if isReportEntry p.1 then
    match p.2 with
    | .report r =>
      let reportKey := reportKeyStart ++ r.reportID
      let transactions := ((qgLookup gs reportKey).map ReportListItem.transactions).getD []
      let item := buildReportListItem data transactions r
      if gs.any (fun q => q.1 == reportKey) then groupsSet gs reportKey item
      else gs ++ [(reportKey, item)]
    | _ => gs
  else if isTransactionEntry p.1 then
    match p.2 with
    | .transaction t =>
      let reportKey := reportKeyStart ++ t.reportID
      let txItem := buildTransactionListItem data metadata merchantFlag pastYearFlag t
      match qgLookup gs reportKey with
      | some item => groupsSet gs reportKey { item with transactions := item.transactions ++ [txItem] }
      | none => gs
    | _ => gs
  else gs

/-- `getReportSections` (SearchUtils.ts line 257): fold the payload in key
iteration order, then `Object.values`. -/
def getReportSections (data : SearchResultsData) (metadata : SearchMetadata) :
    List ReportListItem :=
  let merchantFlag := getShouldShowMerchant data
  let pastYearFlag := shouldShowYearData data
  (data.entries.foldl (reportSectionsStep data metadata merchantFlag pastYearFlag) []).map Prod.snd

/-! ## Claim C8 -/

/-- Pointwise characterisation of the `some` predicate inside
`getShouldShowMerchant`. -/
theorem shouldShowMerchant_pred_iff (p : String × DataEntry) :
    ((if isTransactionEntry p.1 then
        match p.2 with
        | .transaction item =>
          let merchant := getMerchant item
          merchant != "" && merchant != merchantSentinelA && merchant != merchantSentinelB
        | _ => false
      else false) = true) ↔
      (isTransactionEntry p.1 = true ∧
        ∃ t, p.2 = DataEntry.transaction t ∧
          getMerchant t ≠ "" ∧ getMerchant t ≠ merchantSentinelA ∧
          getMerchant t ≠ merchantSentinelB) := by
  by_cases hk : isTransactionEntry p.1
  · rw [if_pos hk]
    cases he : p.2 with
    | transaction t =>
      simp only [Bool.and_eq_true, bne_iff_ne]
      constructor
      · rintro ⟨⟨h1, h2⟩, h3⟩
        exact ⟨hk, t, rfl, h1, h2, h3⟩
      · rintro ⟨-, t', ht', h1, h2, h3⟩
        cases ht'
        exact ⟨⟨h1, h2⟩, h3⟩
    | report r =>
      simp only [Bool.false_eq_true, false_iff]
      rintro ⟨-, t, ht, -⟩
      exact DataEntry.noConfusion ht
    | reportActions acts =>
      simp only [Bool.false_eq_true, false_iff]
      rintro ⟨-, t, ht, -⟩
      exact DataEntry.noConfusion ht
  · rw [if_neg hk]
    simp only [Bool.false_eq_true, false_iff]
    rintro ⟨h, -⟩
    exact absurd h hk

/-- C8: `getShouldShowMerchant` is true iff at least one transaction entry's
merchant — `modifiedMerchant` taking precedence — is non-empty and differs
from both placeholder sentinel merchants; and the flag is computed once per
payload: every row built by `getTransactionsSections` carries that same
global flag. -/
theorem c8_should_show_merchant_iff (data : SearchResultsData) (metadata : SearchMetadata) :
    (getShouldShowMerchant data = true ↔
      ∃ p ∈ data.entries, isTransactionEntry p.1 = true ∧
        ∃ t, p.2 = DataEntry.transaction t ∧
          getMerchant t ≠ "" ∧ getMerchant t ≠ merchantSentinelA ∧
          getMerchant t ≠ merchantSentinelB) ∧
    (∀ item ∈ getTransactionsSections data metadata,
      item.shouldShowMerchant = getShouldShowMerchant data) := by
  constructor
  · unfold getShouldShowMerchant
    rw [List.any_eq_true]
    constructor
    · rintro ⟨p, hp, hpred⟩
      exact ⟨p, hp, (shouldShowMerchant_pred_iff p).mp hpred⟩
    · rintro ⟨p, hp, hgood⟩
      exact ⟨p, hp, (shouldShowMerchant_pred_iff p).mpr hgood⟩
  · intro item hitem
    unfold getTransactionsSections at hitem
    rcases List.mem_filterMap.mp hitem with ⟨p, -, hsome⟩
    by_cases hk : isTransactionEntry p.1
    · rw [if_pos hk] at hsome
      cases hpe : p.2 with
      | transaction t =>
        rw [hpe] at hsome
        cases hsome
        rfl
      | report r => rw [hpe] at hsome; cases hsome
      | reportActions acts => rw [hpe] at hsome; cases hsome
    · rw [if_neg hk] at hsome
      cases hsome

/-- The transaction of the C8 witness whose merchant is a real name. -/
def c8Tx1 : SearchTransaction :=
  { transactionID := "1", reportID := "7", accountID := 1, managerID := none
    created := "2026-01-01", modifiedCreated := none
    merchant := some "Coffee Shop", modifiedMerchant := none
    reportType := none, amount := 100, category := none, tag := none, comment := none }

/-- The C8 witness payload: merchants `["", "Coffee Shop"]`. -/
def c8Data : SearchResultsData :=
  { entries :=
      [("transactions_0", .transaction { c8Tx1 with transactionID := "0", merchant := some "" }),
       ("transactions_1", .transaction c8Tx1)]
    personalDetailsList := [] }

/-- Witness for C8: on the concrete payload with merchants
`["", "Coffee Shop"]`, the iff yields a true flag. -/
theorem c8_should_show_merchant_iff_witness : getShouldShowMerchant c8Data = true :=
  (c8_should_show_merchant_iff c8Data ⟨true, true, true⟩).1.mpr
    ⟨("transactions_1", .transaction c8Tx1), by decide,
      by decide, c8Tx1, rfl, by decide, by decide, by decide⟩

/-! ## Claim C3 -/

theorem strAppend_left_cancel {s a b : String} (h : s ++ a = s ++ b) : a = b := by
  apply String.ext
  have hd : (s ++ a).data = (s ++ b).data := by rw [h]
  rw [String.data_append, String.data_append] at hd
  exact List.append_cancel_left hd

theorem qgLookup_cons (q : String × ReportListItem) (gs : ReportGroups) (k : String) :
    qgLookup (q :: gs) k = if q.1 = k then some q.2 else qgLookup gs k := by
  by_cases hq : q.1 = k
  · rw [if_pos hq]
    unfold qgLookup
    rw [List.find?_cons_of_pos _ (by simpa using hq)]
    rfl
  · rw [if_neg hq]
    unfold qgLookup
    rw [List.find?_cons_of_neg _ (by simpa using hq)]

theorem groupsSet_cons (q : String × ReportListItem) (gs : ReportGroups)
    (k : String) (item : ReportListItem) :
    groupsSet (q :: gs) k item =
      (if q.1 = k then (q.1, item) else q) :: groupsSet gs k item := by
  unfold groupsSet
  rw [List.map_cons]
  by_cases hq : q.1 = k
  · simp [hq]
  · simp [hq]

theorem qgLookup_groupsSet_self (gs : ReportGroups) (k : String) (item : ReportListItem)
    (h : (qgLookup gs k).isSome) : qgLookup (groupsSet gs k item) k = some item := by
  induction gs with
  | nil => simp [qgLookup] at h
  | cons q gs ih =>
    by_cases hq : q.1 = k
    · rw [groupsSet_cons, if_pos hq, qgLookup_cons]
      simp [hq]
    · rw [qgLookup_cons, if_neg hq] at h
      rw [groupsSet_cons, if_neg hq, qgLookup_cons, if_neg hq]
      exact ih h

theorem qgLookup_groupsSet_ne (gs : ReportGroups) (k k' : String) (item : ReportListItem)
    (h : k ≠ k') : qgLookup (groupsSet gs k item) k' = qgLookup gs k' := by
  induction gs with
  | nil => rfl
  | cons q gs ih =>
    by_cases hq : q.1 = k
    · have hq2 : ¬ q.1 = k' := fun hc => h (hq ▸ hc ▸ rfl)
      rw [groupsSet_cons, if_pos hq, qgLookup_cons, qgLookup_cons, if_neg hq2]
      have : ¬ (q.1, item).1 = k' := hq2
      rw [if_neg this]
      exact ih
    · rw [groupsSet_cons, if_neg hq, qgLookup_cons, qgLookup_cons]
      by_cases hq2 : q.1 = k'
      · rw [if_pos hq2, if_pos hq2]
      · rw [if_neg hq2, if_neg hq2]
        exact ih

theorem qgLookup_append_left (gs tail : ReportGroups) (k : String)
    (h : (qgLookup gs k).isSome) : qgLookup (gs ++ tail) k = qgLookup gs k := by
  induction gs with
  | nil => simp [qgLookup] at h
  | cons q gs ih =>
    rw [List.cons_append, qgLookup_cons, qgLookup_cons]
    by_cases hq : q.1 = k
    · rw [if_pos hq, if_pos hq]
    · rw [qgLookup_cons, if_neg hq] at h
      rw [if_neg hq, if_neg hq]
      exact ih h

theorem qgLookup_append_self (gs : ReportGroups) (k : String) (item : ReportListItem)
    (h : qgLookup gs k = none) : qgLookup (gs ++ [(k, item)]) k = some item := by
  induction gs with
  | nil => simp [qgLookup, List.find?]
  | cons q gs ih =>
    rw [qgLookup_cons] at h
    by_cases hq : q.1 = k
    · rw [if_pos hq] at h; cases h
    · rw [if_neg hq] at h
      rw [List.cons_append, qgLookup_cons, if_neg hq]
      exact ih h

theorem qgLookup_append_ne (gs : ReportGroups) (k' : String) (item : ReportListItem)
    (k : String) (h : k' ≠ k) : qgLookup (gs ++ [(k', item)]) k = qgLookup gs k := by
  induction gs with
  | nil =>
    show qgLookup [(k', item)] k = none
    rw [qgLookup_cons, if_neg h]
    rfl
  | cons q gs ih =>
    rw [List.cons_append, qgLookup_cons, qgLookup_cons]
    by_cases hq : q.1 = k
    · rw [if_pos hq, if_pos hq]
    · rw [if_neg hq, if_neg hq]
      exact ih

theorem groups_any_iff_isSome (gs : ReportGroups) (k : String) :
    gs.any (fun q => q.1 == k) = true ↔ (qgLookup gs k).isSome = true := by
  induction gs with
  | nil => simp [qgLookup]
  | cons q gs ih =>
    rw [List.any_cons, qgLookup_cons]
    by_cases hq : q.1 = k
    · simp [hq]
    · have hq' : (q.1 == k) = false := by simpa using hq
      rw [if_neg hq, hq']
      simpa using ih

/-- The transactions of the payload that belong to report `rid` and are
processed by the transaction branch of `getReportSections`, in encounter
order. -/
def ridTransactionsL (l : List (String × DataEntry)) (rid : String) : List SearchTransaction :=
  l.filterMap (fun p =>
    if isReportEntry p.1 then none
    else if isTransactionEntry p.1 then
      match p.2 with
      | .transaction t => if t.reportID = rid then some t else none
      | _ => none
    else none)

/-- `ridTransactionsL` over a whole payload. -/
def ridTransactions (data : SearchResultsData) (rid : String) : List SearchTransaction :=
  ridTransactionsL data.entries rid

theorem step_report (data : SearchResultsData) (metadata : SearchMetadata)
    (mF yF : Bool) (gs : ReportGroups) (k : String) (r : SearchReport)
    (hk : isReportEntry k = true) :
    reportSectionsStep data metadata mF yF gs (k, .report r) =
      (if gs.any (fun q => q.1 == reportKeyStart ++ r.reportID) then
        groupsSet gs (reportKeyStart ++ r.reportID)
          (buildReportListItem data
            (((qgLookup gs (reportKeyStart ++ r.reportID)).map ReportListItem.transactions).getD []) r)
      else gs ++ [(reportKeyStart ++ r.reportID,
        buildReportListItem data
          (((qgLookup gs (reportKeyStart ++ r.reportID)).map ReportListItem.transactions).getD []) r)]) := by
  unfold reportSectionsStep
  rw [if_pos hk]

theorem step_transaction (data : SearchResultsData) (metadata : SearchMetadata)
    (mF yF : Bool) (gs : ReportGroups) (k : String) (t : SearchTransaction)
    (hk1 : ¬ isReportEntry k = true) (hk2 : isTransactionEntry k = true) :
    reportSectionsStep data metadata mF yF gs (k, .transaction t) =
      (match qgLookup gs (reportKeyStart ++ t.reportID) with
       | some item => groupsSet gs (reportKeyStart ++ t.reportID)
           { item with transactions :=
               item.transactions ++ [buildTransactionListItem data metadata mF yF t] }
       | none => gs) := by
  unfold reportSectionsStep
  rw [if_neg hk1, if_pos hk2]

theorem step_report_key_mismatch (data : SearchResultsData) (metadata : SearchMetadata)
    (mF yF : Bool) (gs : ReportGroups) (k : String) (e : DataEntry)
    (hk : isReportEntry k = true) (he : ∀ r, e ≠ .report r) :
    reportSectionsStep data metadata mF yF gs (k, e) = gs := by
  unfold reportSectionsStep
  rw [if_pos hk]
  cases e with
  | report r => exact absurd rfl (he r)
  | transaction t => rfl
  | reportActions acts => rfl

theorem step_transaction_key_mismatch (data : SearchResultsData) (metadata : SearchMetadata)
    (mF yF : Bool) (gs : ReportGroups) (k : String) (e : DataEntry)
    (hk1 : ¬ isReportEntry k = true) (hk2 : isTransactionEntry k = true)
    (he : ∀ t, e ≠ .transaction t) :
    reportSectionsStep data metadata mF yF gs (k, e) = gs := by
  unfold reportSectionsStep
  rw [if_neg hk1, if_pos hk2]
  cases e with
  | report r => rfl
  | transaction t => exact absurd rfl (he t)
  | reportActions acts => rfl

theorem step_skip (data : SearchResultsData) (metadata : SearchMetadata)
    (mF yF : Bool) (gs : ReportGroups) (k : String) (e : DataEntry)
    (hk1 : ¬ isReportEntry k = true) (hk2 : ¬ isTransactionEntry k = true) :
    reportSectionsStep data metadata mF yF gs (k, e) = gs := by
  unfold reportSectionsStep
  rw [if_neg hk1, if_neg hk2]

/-- Once the group for `rid` exists, folding further payload entries appends
exactly the `rid` transactions encountered, in encounter order, to the
group's transaction list (report re-entries rebuild the header but preserve
the transactions). -/
theorem foldl_step_transactions (data : SearchResultsData) (metadata : SearchMetadata)
    (mF yF : Bool) (rid : String) :
    ∀ (l : List (String × DataEntry)) (gs : ReportGroups) (item : ReportListItem),
      qgLookup gs (reportKeyStart ++ rid) = some item →
      item.reportID = rid →
      ∃ item',
        qgLookup (l.foldl (reportSectionsStep data metadata mF yF) gs)
            (reportKeyStart ++ rid) = some item' ∧
        item'.reportID = rid ∧
        item'.transactions = item.transactions ++
          (ridTransactionsL l rid).map (buildTransactionListItem data metadata mF yF) := by
  intro l
  induction l with
  | nil =>
    intro gs item h hid
    exact ⟨item, h, hid, by simp [ridTransactionsL]⟩
  | cons p l ih =>
    intro gs item h hid
    obtain ⟨k, e⟩ := p
    rw [List.foldl_cons]
    by_cases hR : isReportEntry k = true
    · have hskip : ridTransactionsL ((k, e) :: l) rid = ridTransactionsL l rid := by
        unfold ridTransactionsL
        rw [List.filterMap_cons]
        simp [hR]
      rw [hskip]
      cases e with
      | report r =>
        rw [step_report data metadata mF yF gs k r hR]
        by_cases hkey : reportKeyStart ++ r.reportID = reportKeyStart ++ rid
        · have hridr : r.reportID = rid := strAppend_left_cancel hkey
          have hsome : (qgLookup gs (reportKeyStart ++ r.reportID)).isSome := by
            rw [hkey, h]; rfl
          have hany : gs.any (fun q => q.1 == reportKeyStart ++ r.reportID) = true :=
            (groups_any_iff_isSome gs _).mpr hsome
          rw [if_pos hany]
          have htrans :
              (((qgLookup gs (reportKeyStart ++ r.reportID)).map
                 ReportListItem.transactions).getD []) = item.transactions := by
            rw [hkey, h]; rfl
          have hlk : qgLookup
              (groupsSet gs (reportKeyStart ++ r.reportID)
                (buildReportListItem data
                  (((qgLookup gs (reportKeyStart ++ r.reportID)).map
                     ReportListItem.transactions).getD []) r))
              (reportKeyStart ++ rid) = some (buildReportListItem data
                  (((qgLookup gs (reportKeyStart ++ r.reportID)).map
                     ReportListItem.transactions).getD []) r) := by
            rw [← hkey]
            exact qgLookup_groupsSet_self gs _ _ hsome
          obtain ⟨item', h1, h2, h3⟩ := ih _ _ hlk hridr
          refine ⟨item', h1, h2, ?_⟩
          rw [h3]
          show (((qgLookup gs (reportKeyStart ++ r.reportID)).map
                 ReportListItem.transactions).getD []) ++ _ = _
          rw [htrans]
        · by_cases hany : gs.any (fun q => q.1 == reportKeyStart ++ r.reportID) = true
          · rw [if_pos hany]
            have hpres :
                qgLookup (groupsSet gs (reportKeyStart ++ r.reportID)
                    (buildReportListItem data
                      (((qgLookup gs (reportKeyStart ++ r.reportID)).map
                         ReportListItem.transactions).getD []) r))
                  (reportKeyStart ++ rid) = some item := by
              rw [qgLookup_groupsSet_ne _ _ _ _ hkey]
              exact h
            exact ih _ item hpres hid
          · rw [if_neg hany]
            have hpres :
                qgLookup (gs ++ [(reportKeyStart ++ r.reportID,
                    buildReportListItem data
                      (((qgLookup gs (reportKeyStart ++ r.reportID)).map
                         ReportListItem.transactions).getD []) r)])
                  (reportKeyStart ++ rid) = some item := by
              rw [qgLookup_append_ne _ _ _ _ hkey]
              exact h
            exact ih _ item hpres hid
      | transaction t =>
        rw [step_report_key_mismatch data metadata mF yF gs k _ hR
          (fun r hr => DataEntry.noConfusion hr)]
        exact ih gs item h hid
      | reportActions acts =>
        rw [step_report_key_mismatch data metadata mF yF gs k _ hR
          (fun r hr => DataEntry.noConfusion hr)]
        exact ih gs item h hid
    · by_cases hT : isTransactionEntry k = true
      · cases e with
        | transaction t =>
          rw [step_transaction data metadata mF yF gs k t hR hT]
          by_cases hrid : t.reportID = rid
          · have hkey : reportKeyStart ++ t.reportID = reportKeyStart ++ rid := by rw [hrid]
            have hhead : ridTransactionsL ((k, .transaction t) :: l) rid =
                t :: ridTransactionsL l rid := by
              unfold ridTransactionsL
              rw [List.filterMap_cons]
              simp [hR, hT, hrid]
            rw [hhead, hkey, h]
            have hsome : (qgLookup gs (reportKeyStart ++ rid)).isSome := by rw [h]; rfl
            have hlk : qgLookup
                (groupsSet gs (reportKeyStart ++ rid)
                  { item with transactions :=
                      item.transactions ++ [buildTransactionListItem data metadata mF yF t] })
                (reportKeyStart ++ rid) = some
                  { item with transactions :=
                      item.transactions ++ [buildTransactionListItem data metadata mF yF t] } :=
              qgLookup_groupsSet_self gs _ _ hsome
            obtain ⟨item', h1, h2, h3⟩ := ih _ _ hlk hid
            refine ⟨item', h1, h2, ?_⟩
            rw [h3]
            show (item.transactions ++ [buildTransactionListItem data metadata mF yF t]) ++ _ = _
            rw [List.append_assoc, List.singleton_append, List.map_cons]
          · have hkeyne : reportKeyStart ++ t.reportID ≠ reportKeyStart ++ rid :=
              fun hc => hrid (strAppend_left_cancel hc)
            have hhead : ridTransactionsL ((k, .transaction t) :: l) rid =
                ridTransactionsL l rid := by
              unfold ridTransactionsL
              rw [List.filterMap_cons]
              simp [hR, hT, hrid]
            rw [hhead]
            cases hl : qgLookup gs (reportKeyStart ++ t.reportID) with
            | none => exact ih gs item h hid
            | some it2 =>
              have hpres : qgLookup (groupsSet gs (reportKeyStart ++ t.reportID)
                  { it2 with transactions :=
                      it2.transactions ++ [buildTransactionListItem data metadata mF yF t] })
                  (reportKeyStart ++ rid) = some item := by
                rw [qgLookup_groupsSet_ne _ _ _ _ hkeyne]
                exact h
              exact ih _ item hpres hid
        | report r =>
          rw [step_transaction_key_mismatch data metadata mF yF gs k _ hR hT
            (fun t ht => DataEntry.noConfusion ht)]
          have hhead : ridTransactionsL ((k, .report r) :: l) rid = ridTransactionsL l rid := by
            unfold ridTransactionsL
            rw [List.filterMap_cons]
            simp [hR, hT]
          rw [hhead]
          exact ih gs item h hid
        | reportActions acts =>
          rw [step_transaction_key_mismatch data metadata mF yF gs k _ hR hT
            (fun t ht => DataEntry.noConfusion ht)]
          have hhead : ridTransactionsL ((k, .reportActions acts) :: l) rid =
              ridTransactionsL l rid := by
            unfold ridTransactionsL
            rw [List.filterMap_cons]
            simp [hR, hT]
          rw [hhead]
          exact ih gs item h hid
      · rw [step_skip data metadata mF yF gs k e hR hT]
        have hhead : ridTransactionsL ((k, e) :: l) rid = ridTransactionsL l rid := by
          unfold ridTransactionsL
          rw [List.filterMap_cons]
          simp [hR, hT]
        rw [hhead]
        exact ih gs item h hid

/-- Before the report record for `rid` has been seen (and in the absence of
`rid` transactions), the accumulated group for `rid` — if it exists at all —
has an empty transaction list. -/
theorem foldl_step_empty_prefix (data : SearchResultsData) (metadata : SearchMetadata)
    (mF yF : Bool) (rid : String) :
    ∀ (l : List (String × DataEntry)) (gs : ReportGroups),
      (∀ p ∈ l, isTransactionEntry p.1 = true →
        ∀ t, p.2 = DataEntry.transaction t → t.reportID ≠ rid) →
      ((qgLookup gs (reportKeyStart ++ rid)).map ReportListItem.transactions).getD [] = [] →
      ((qgLookup (l.foldl (reportSectionsStep data metadata mF yF) gs)
          (reportKeyStart ++ rid)).map ReportListItem.transactions).getD [] = [] := by
  intro l
  induction l with
  | nil => intro gs _ hinv; exact hinv
  | cons p l ih =>
    intro gs hpre hinv
    obtain ⟨k, e⟩ := p
    have hpre' : ∀ p ∈ l, isTransactionEntry p.1 = true →
        ∀ t, p.2 = DataEntry.transaction t → t.reportID ≠ rid :=
      fun p hp => hpre p (List.mem_cons_of_mem _ hp)
    rw [List.foldl_cons]
    by_cases hR : isReportEntry k = true
    · cases e with
      | report r =>
        rw [step_report data metadata mF yF gs k r hR]
        by_cases hkey : reportKeyStart ++ r.reportID = reportKeyStart ++ rid
        · have hnewtrans :
              (((qgLookup gs (reportKeyStart ++ r.reportID)).map
                 ReportListItem.transactions).getD []) = [] := by
            rw [hkey]; exact hinv
          by_cases hany : gs.any (fun q => q.1 == reportKeyStart ++ r.reportID) = true
          · rw [if_pos hany]
            refine ih _ hpre' ?_
            have hsome : (qgLookup gs (reportKeyStart ++ r.reportID)).isSome :=
              (groups_any_iff_isSome _ _).mp hany
            have hlk := qgLookup_groupsSet_self gs (reportKeyStart ++ r.reportID)
              (buildReportListItem data
                (((qgLookup gs (reportKeyStart ++ r.reportID)).map
                   ReportListItem.transactions).getD []) r) hsome
            rw [← hkey]
            rw [hlk]
            exact hnewtrans
          · rw [if_neg hany]
            refine ih _ hpre' ?_
            have hnone : qgLookup gs (reportKeyStart ++ r.reportID) = none := by
              rcases h : qgLookup gs (reportKeyStart ++ r.reportID) with _ | it
              · rfl
              · exact absurd ((groups_any_iff_isSome _ _).mpr (by rw [h]; rfl)) hany
            have hlk := qgLookup_append_self gs (reportKeyStart ++ r.reportID)
              (buildReportListItem data
                (((qgLookup gs (reportKeyStart ++ r.reportID)).map
                   ReportListItem.transactions).getD []) r) hnone
            rw [← hkey, hlk]
            exact hnewtrans
        · by_cases hany : gs.any (fun q => q.1 == reportKeyStart ++ r.reportID) = true
          · rw [if_pos hany]
            refine ih _ hpre' ?_
            rw [qgLookup_groupsSet_ne _ _ _ _ hkey]
            exact hinv
          · rw [if_neg hany]
            refine ih _ hpre' ?_
            rw [qgLookup_append_ne _ _ _ _ hkey]
            exact hinv
      | transaction t =>
        rw [step_report_key_mismatch data metadata mF yF gs k _ hR
          (fun r hr => DataEntry.noConfusion hr)]
        exact ih gs hpre' hinv
      | reportActions acts =>
        rw [step_report_key_mismatch data metadata mF yF gs k _ hR
          (fun r hr => DataEntry.noConfusion hr)]
        exact ih gs hpre' hinv
    · by_cases hT : isTransactionEntry k = true
      · cases e with
        | transaction t =>
          rw [step_transaction data metadata mF yF gs k t hR hT]
          have hrid : t.reportID ≠ rid :=
            hpre (k, .transaction t) (List.mem_cons_self _ _) hT t rfl
          have hkeyne : reportKeyStart ++ t.reportID ≠ reportKeyStart ++ rid :=
            fun hc => hrid (strAppend_left_cancel hc)
          cases hl : qgLookup gs (reportKeyStart ++ t.reportID) with
          | none => exact ih gs hpre' hinv
          | some it2 =>
            refine ih _ hpre' ?_
            rw [qgLookup_groupsSet_ne _ _ _ _ hkeyne]
            exact hinv
        | report r =>
          rw [step_transaction_key_mismatch data metadata mF yF gs k _ hR hT
            (fun t ht => DataEntry.noConfusion ht)]
          exact ih gs hpre' hinv
        | reportActions acts =>
          rw [step_transaction_key_mismatch data metadata mF yF gs k _ hR hT
            (fun t ht => DataEntry.noConfusion ht)]
          exact ih gs hpre' hinv
      · rw [step_skip data metadata mF yF gs k e hR hT]
        exact ih gs hpre' hinv

theorem ridTransactionsL_eq_nil {l : List (String × DataEntry)} {rid : String}
    (hpre : ∀ p ∈ l, isTransactionEntry p.1 = true →
      ∀ t, p.2 = DataEntry.transaction t → t.reportID ≠ rid) :
    ridTransactionsL l rid = [] := by
  induction l with
  | nil => rfl
  | cons p l ih =>
    obtain ⟨k, e⟩ := p
    have htail : ridTransactionsL l rid = [] :=
      ih (fun p hp => hpre p (List.mem_cons_of_mem _ hp))
    have hstep : ridTransactionsL ((k, e) :: l) rid = ridTransactionsL l rid := by
      unfold ridTransactionsL
      rw [List.filterMap_cons]
      by_cases hR : isReportEntry k = true
      · simp [hR]
      · by_cases hT : isTransactionEntry k = true
        · cases e with
          | transaction t =>
            have hrid : t.reportID ≠ rid :=
              hpre (k, .transaction t) (List.mem_cons_self _ _) hT t rfl
            simp [hR, hT, hrid]
          | report r => simp [hR, hT]
          | reportActions acts => simp [hR, hT]
        · simp [hR, hT]
    rw [hstep]
    exact htail

theorem mem_of_qgLookup (gs : ReportGroups) (k : String) (item : ReportListItem)
    (h : qgLookup gs k = some item) : item ∈ gs.map Prod.snd := by
  unfold qgLookup at h
  rcases Option.map_eq_some'.mp h with ⟨p, hf, hp2⟩
  exact hp2 ▸ List.mem_map.mpr ⟨p, List.mem_of_find?_eq_some hf, rfl⟩

/-- C3, amended: `getReportSections` does depend on result-key iteration
order — transactions seen before their parent report record are dropped.  For
every payload in which a report record for `rid` appears **before** every
transaction of `rid`, the final `ReportListItem` for that report exists and
contains exactly the report's transactions, in encounter order. -/
theorem c3_report_groups_transactions
    (data : SearchResultsData) (metadata : SearchMetadata)
    (rid k0 : String) (r0 : SearchReport) (l1 l2 : List (String × DataEntry))
    (hsplit : data.entries = l1 ++ (k0, DataEntry.report r0) :: l2)
    (hk0 : isReportEntry k0 = true)
    (hr0 : r0.reportID = rid)
    (hpre : ∀ p ∈ l1, isTransactionEntry p.1 = true →
      ∀ t, p.2 = DataEntry.transaction t → t.reportID ≠ rid) :
    ∃ item ∈ getReportSections data metadata,
      item.reportID = rid ∧
      item.transactions = (ridTransactions data rid).map
        (buildTransactionListItem data metadata (getShouldShowMerchant data)
          (shouldShowYearData data)) := by
  have hsections : getReportSections data metadata =
      (data.entries.foldl (reportSectionsStep data metadata (getShouldShowMerchant data)
        (shouldShowYearData data)) []).map Prod.snd := rfl
  have hridtr : ridTransactions data rid = ridTransactionsL l2 rid := by
    unfold ridTransactions
    rw [hsplit]
    unfold ridTransactionsL
    rw [List.filterMap_append, List.filterMap_cons]
    have h1 : ridTransactionsL l1 rid = [] := ridTransactionsL_eq_nil hpre
    unfold ridTransactionsL at h1
    rw [h1]
    simp [hk0]
  rw [hsections, hridtr, hsplit, List.foldl_append, List.foldl_cons]
  set mF := getShouldShowMerchant data
  set yF := shouldShowYearData data
  set gs1 := l1.foldl (reportSectionsStep data metadata mF yF) [] with hgs1
  have hinv1 : ((qgLookup gs1 (reportKeyStart ++ rid)).map
      ReportListItem.transactions).getD [] = [] := by
    rw [hgs1]
    exact foldl_step_empty_prefix data metadata mF yF rid l1 [] hpre rfl
  rw [step_report data metadata mF yF gs1 k0 r0 hk0]
  have hkey : reportKeyStart ++ r0.reportID = reportKeyStart ++ rid := by rw [hr0]
  have hnewtrans : (((qgLookup gs1 (reportKeyStart ++ r0.reportID)).map
      ReportListItem.transactions).getD []) = [] := by
    rw [hkey]; exact hinv1
  by_cases hany : gs1.any (fun q => q.1 == reportKeyStart ++ r0.reportID) = true
  · rw [if_pos hany]
    have hsome : (qgLookup gs1 (reportKeyStart ++ r0.reportID)).isSome :=
      (groups_any_iff_isSome _ _).mp hany
    have hlk : qgLookup (groupsSet gs1 (reportKeyStart ++ r0.reportID)
        (buildReportListItem data
          (((qgLookup gs1 (reportKeyStart ++ r0.reportID)).map
             ReportListItem.transactions).getD []) r0))
        (reportKeyStart ++ rid) = some (buildReportListItem data
          (((qgLookup gs1 (reportKeyStart ++ r0.reportID)).map
             ReportListItem.transactions).getD []) r0) := by
      rw [← hkey]
      exact qgLookup_groupsSet_self _ _ _ hsome
    obtain ⟨item', h1, h2, h3⟩ :=
      foldl_step_transactions data metadata mF yF rid l2 _ _ hlk hr0
    refine ⟨item', mem_of_qgLookup _ _ _ h1, h2, ?_⟩
    rw [h3]
    show (((qgLookup gs1 (reportKeyStart ++ r0.reportID)).map
       ReportListItem.transactions).getD []) ++ _ = _
    rw [hnewtrans, List.nil_append]
  · rw [if_neg hany]
    have hnone : qgLookup gs1 (reportKeyStart ++ r0.reportID) = none := by
      rcases h : qgLookup gs1 (reportKeyStart ++ r0.reportID) with _ | it
      · rfl
      · exact absurd ((groups_any_iff_isSome _ _).mpr (by rw [h]; rfl)) hany
    have hlk : qgLookup (gs1 ++ [(reportKeyStart ++ r0.reportID,
        buildReportListItem data
          (((qgLookup gs1 (reportKeyStart ++ r0.reportID)).map
             ReportListItem.transactions).getD []) r0)])
        (reportKeyStart ++ rid) = some (buildReportListItem data
          (((qgLookup gs1 (reportKeyStart ++ r0.reportID)).map
             ReportListItem.transactions).getD []) r0) := by
      rw [← hkey]
      exact qgLookup_append_self _ _ _ hnone
    obtain ⟨item', h1, h2, h3⟩ :=
      foldl_step_transactions data metadata mF yF rid l2 _ _ hlk hr0
    refine ⟨item', mem_of_qgLookup _ _ _ h1, h2, ?_⟩
    rw [h3]
    show (((qgLookup gs1 (reportKeyStart ++ r0.reportID)).map
       ReportListItem.transactions).getD []) ++ _ = _
    rw [hnewtrans, List.nil_append]

/-- The transaction of the C3 example (parent report `7`). -/
def c3Tx : SearchTransaction :=
  { transactionID := "t1", reportID := "7", accountID := 1, managerID := none
    created := "2026-02-02", modifiedCreated := none
    merchant := none, modifiedMerchant := none
    reportType := none, amount := 5, category := none, tag := none, comment := none }

/-- The report record of the C3 example. -/
def c3Report : SearchReport :=
  { reportID := "7", reportName := some "Weekly", type := some "expense"
    total := some 5, currency := some "USD", accountID := some 1
    managerID := none, action := none }

/-- The C3 payload with the transaction record iterated before its parent
report record. -/
def c3Data : SearchResultsData :=
  { entries := [("transactions_t1", .transaction c3Tx), ("report_7", .report c3Report)]
    personalDetailsList := [] }

/-- The same records with the report record first. -/
def c3DataOrdered : SearchResultsData :=
  { entries := [("report_7", .report c3Report), ("transactions_t1", .transaction c3Tx)]
    personalDetailsList := [] }

/-- C3, counterexample: when the transaction record for report `7` is
encountered before the report record, the final `ReportListItem` for report
`7` has an **empty** transaction list — the transaction is dropped, because
the transaction branch of `getReportSections` only attaches a transaction
when its group already exists (the `if/else if` chain has no branch creating
the group). -/
theorem c3_transaction_before_report_dropped :
    (getReportSections c3Data ⟨false, false, false⟩).map
      (fun i => (i.reportID, i.transactions.map TransactionListItem.transactionID)) =
      [("7", [])] := by
  decide

/-- Witness for C3's amended theorem: with the report record first, the final
`ReportListItem` for report `7` holds exactly the report's transaction. -/
theorem c3_report_groups_transactions_witness :
    ∃ item ∈ getReportSections c3DataOrdered ⟨false, false, false⟩,
      item.reportID = "7" ∧
      item.transactions = (ridTransactions c3DataOrdered "7").map
        (buildTransactionListItem c3DataOrdered ⟨false, false, false⟩
          (getShouldShowMerchant c3DataOrdered) (shouldShowYearData c3DataOrdered)) :=
  c3_report_groups_transactions c3DataOrdered ⟨false, false, false⟩ "7" "report_7" c3Report
    [] [("transactions_t1", .transaction c3Tx)] rfl (by decide) (by decide)
    (by intro p hp; cases hp)

/-! ## Sorting of list items -/

/-- `columnNamesToSortingProperty` (SearchUtils.ts lines 35–48): note
`taxAmount` and `receipt` map to `null`, and a JS lookup of any other column
name yields `undefined`; both are `none` here. -/
def columnNamesToSortingProperty (c : String) : Option String :=
  if c = "to" then some "formattedTo"
  else if c = "from" then some "formattedFrom"
  else if c = "date" then some "date"
  else if c = "tag" then some "tag"
  else if c = "merchant" then some "formattedMerchant"
  else if c = "total" then some "formattedTotal"
  else if c = "category" then some "category"
  else if c = "type" then some "transactionType"
  else if c = "action" then some "action"
  else if c = "description" then some "comment"
  else none

/-- A JS value read off a list item for sorting: a string, a number, or
`undefined`. -/
inductive SortVal where
  | str (s : String)
  | num (n : Int)
  | absent
  deriving Repr, DecidableEq

/-- `a[sortingProperty]`, with the `comment` special case
(`a.comment?.comment`, SearchUtils.ts line 356). -/
def getSortValue (item : TransactionListItem) (prop : String) : SortVal :=
  if prop = "comment" then
    match item.comment with | some s => .str s | none => .absent
  else if prop = "formattedTo" then .str item.formattedTo
  else if prop = "formattedFrom" then .str item.formattedFrom
  else if prop = "date" then .str item.date
  else if prop = "tag" then
    match item.tag with | some s => .str s | none => .absent
  else if prop = "formattedMerchant" then .str item.formattedMerchant
  else if prop = "formattedTotal" then
    match item.formattedTotal with | some n => .num n | none => .absent
  else if prop = "category" then
    match item.category with | some s => .str s | none => .absent
  else if prop = "transactionType" then
    match item.transactionType with | some s => .str s | none => .absent
  else if prop = "action" then
    match item.action with | some s => .str s | none => .absent
  else .absent

/-- `String.prototype.toLowerCase`. -/
def strToLower (s : String) : String := ⟨s.data.map Char.toLower⟩

/-- `localeCompare`, modelled as code-point comparison (the compared values
here are ASCII dates, names and categories). -/
def localeCompare (a b : String) : Int :=
  match lexCmp a.data b.data with
  | .lt => -1
  | .eq => 0
  | .gt => 1

/-- The comparator of `getSortedTransactionData` (SearchUtils.ts lines
355–372): `0` when either value is `undefined`; case-insensitive (on the
first argument only) locale comparison for strings; numeric subtraction for
numbers, with the direction flipped for descending order.  (A mixed
string/number pair cannot occur — both sides read the same property — and
compares as `0`.) -/
def transactionCompare (prop sortOrder : String) (a b : TransactionListItem) : Int :=
  match getSortValue a prop, getSortValue b prop with
  | .absent, _ => 0
  | .str _, .absent => 0
  | .num _, .absent => 0
  | .str sa, .str sb =>
    if sortOrder = "asc" then localeCompare (strToLower sa) sb
    else localeCompare (strToLower sb) sa
  | .num na, .num nb => if sortOrder = "asc" then na - nb else nb - na
  | .str _, .num _ => 0
  | .num _, .str _ => 0

/-- `getSortedTransactionData` (SearchUtils.ts line 344), as the resulting
array: no sorting without a truthy `sortBy`/`sortOrder` or without a mapped
sorting property. -/
def getSortedTransactionData (data : List TransactionListItem)
    (sortBy sortOrder : Option String) : List TransactionListItem :=
  match sortBy, sortOrder with
  | some sb, some so =>
    if sb = "" ∨ so = "" then data
    else
      match columnNamesToSortingProperty sb with
      | none => data
      | some prop => jsSort (transactionCompare prop so) data
  | _, _ => data

/-- `getSortedTransactionData` as a call: JS `Array.prototype.sort` sorts the
caller's array in place and returns that same array, so the caller's array
after the call equals the returned array. -/
def getSortedTransactionDataCall (data : List TransactionListItem)
    (sortBy sortOrder : Option String) : JSCall (List TransactionListItem) :=
  let r := getSortedTransactionData data sortBy sortOrder
  ⟨r, r⟩

/-- `getReportNewestTransactionDate` (SearchUtils.ts lines 375–377),
faithfully to JS operator precedence: the reducer condition is
`curr.modifiedCreated ?? (curr.created > (max?.created ?? ''))` — when
`modifiedCreated` is present the condition is that string's truthiness — and
the function returns the picked transaction's **`created`** field. -/
def getReportNewestTransactionDate (report : ReportListItem) : Option String :=
  match report.transactions with
  | [] => none
  | t0 :: _ =>
    let best := report.transactions.foldl
      (fun max curr =>
        if (match curr.modifiedCreated with
            | some m => m != ""
            | none => strGt curr.created max.created) = true
        then curr else max) t0
    some best.created

/-- The comparator of `getSortedReportData` (SearchUtils.ts lines 380–389):
`0` when either newest date is falsy (absent or empty), else descending
locale comparison (lower-casing the second report's date only). -/
def reportCompare (a b : ReportListItem) : Int :=
  match getReportNewestTransactionDate a, getReportNewestTransactionDate b with
  | some aN, some bN =>
    if aN = "" ∨ bN = "" then 0 else localeCompare (strToLower bN) aN
  | _, _ => 0

/-- `getSortedReportData` (SearchUtils.ts line 379), as the resulting
array. -/
def getSortedReportData (data : List ReportListItem) : List ReportListItem :=
  jsSort reportCompare data

/-- `getSortedReportData` as a call (in-place sort). -/
def getSortedReportDataCall (data : List ReportListItem) : JSCall (List ReportListItem) :=
  let r := getSortedReportData data
  ⟨r, r⟩

/-- `ReportActionListItemType`: a report action enriched for display. -/
structure ReportActionListItem where
  reportActionID : String
  accountID : Int
  created : Option String
  formattedFrom : String
  keyForList : String
  deriving Repr, DecidableEq

/-- The comparator of `getSortedReportActionData` (SearchUtils.ts lines
393–402). -/
def reportActionCompare (a b : ReportActionListItem) : Int :=
  match a.created, b.created with
  | some av, some bv => localeCompare (strToLower bv) av
  | _, _ => 0

/-- `getSortedReportActionData` (SearchUtils.ts line 392), as the resulting
array. -/
def getSortedReportActionData (data : List ReportActionListItem) :
    List ReportActionListItem :=
  jsSort reportActionCompare data

/-- `getSortedReportActionData` as a call (in-place sort). -/
def getSortedReportActionDataCall (data : List ReportActionListItem) :
    JSCall (List ReportActionListItem) :=
  let r := getSortedReportActionData data
  ⟨r, r⟩

theorem jsSort_perm {α : Type} (cmp : α → α → Int) (l : List α) :
    (jsSort cmp l).Perm l :=
  List.perm_insertionSort _ l

/-! ## Claim C4 -/

/-- A transaction list item with neutral display fields, for concrete
sorting examples. -/
def exTxItem : TransactionListItem :=
  { transactionID := "x", reportID := "r", created := "2024-01-01"
    modifiedCreated := none, merchant := none, modifiedMerchant := none
    category := none, tag := none, comment := none, amount := 0
    transactionType := none, action := none, fromDetails := none, toDetails := none
    formattedFrom := "", formattedTo := "", formattedTotal := none
    formattedMerchant := "", date := "2024-01-01", shouldShowMerchant := false
    shouldShowCategory := false, shouldShowTag := false, shouldShowTax := false
    keyForList := "x", shouldShowYear := false }

/-- A report list item with neutral header fields, for concrete sorting
examples. -/
def exReportItem : ReportListItem :=
  { reportID := "", reportName := none, type := none, total := none
    currency := none, accountID := none, managerID := none, action := none
    keyForList := "", fromDetails := none, toDetails := none, transactions := [] }

/-- C4's report A: its only transaction was created `2024-01-01` and edited to
`2024-12-31` (effective date `2024-12-31`). -/
def c4ReportA : ReportListItem :=
  { exReportItem with
    reportID := "A"
    transactions :=
      [{ exTxItem with created := "2024-01-01", modifiedCreated := some "2024-12-31" }] }

/-- C4's report B: its only transaction was created `2024-06-01` (effective
date `2024-06-01`). -/
def c4ReportB : ReportListItem :=
  { exReportItem with
    reportID := "B"
    transactions := [{ exTxItem with created := "2024-06-01" }] }

/-- C4: evaluation of the embedded code at the failing input.  The claim says
reports sort descending by the newest contained transaction's **effective**
date (`modifiedCreated` over `created`), which orders A (effective
`2024-12-31`) before B (effective `2024-06-01`).  The code instead parses
`curr.modifiedCreated ?? curr.created > (max?.created ?? '')` (the `??`/`>`
precedence slip) and returns the picked transaction's raw `created`, so A
sorts under `2024-01-01` and the result is `[B, A]`. -/
theorem c4_sort_key_is_raw_created_of_mispicked_transaction :
    getReportNewestTransactionDate c4ReportA = some "2024-01-01" ∧
    getReportNewestTransactionDate c4ReportB = some "2024-06-01" ∧
    (getSortedReportData [c4ReportA, c4ReportB]).map ReportListItem.reportID = ["B", "A"] := by
  refine ⟨by decide, by decide, by decide⟩

/-! ## Claim C7 -/

/-- Two report-action rows in ascending `created` order (descending sort will
reorder them). -/
def c7Actions : List ReportActionListItem :=
  [⟨"a1", 1, some "2026-01-01", "", "a1"⟩, ⟨"a2", 1, some "2026-05-01", "", "a2"⟩]

/-- C7, counterexample: `getSortedReportActionData` does **not** leave its
supplied input unchanged — JS `Array.prototype.sort` sorts the caller's array
in place, so after the call the caller's array is the reordered array. -/
theorem c7_sort_mutates_caller_array :
    (getSortedReportActionDataCall c7Actions).argAfter ≠ c7Actions := by
  decide

/-- C7, amended: the three sorting operations sort the caller-supplied array
in place and return that same array — the caller's array after the call
equals the returned array, which is a permutation of the supplied input
(equal to it whenever no sorting applies). -/
theorem c7_sorts_in_place_perm :
    (∀ (data : List TransactionListItem) (sortBy sortOrder : Option String),
      (getSortedTransactionDataCall data sortBy sortOrder).argAfter =
        (getSortedTransactionDataCall data sortBy sortOrder).returned ∧
      (getSortedTransactionDataCall data sortBy sortOrder).returned.Perm data) ∧
    (∀ data : List ReportListItem,
      (getSortedReportDataCall data).argAfter = (getSortedReportDataCall data).returned ∧
      (getSortedReportDataCall data).returned.Perm data) ∧
    (∀ data : List ReportActionListItem,
      (getSortedReportActionDataCall data).argAfter =
        (getSortedReportActionDataCall data).returned ∧
      (getSortedReportActionDataCall data).returned.Perm data) := by
  refine ⟨?_, ?_, ?_⟩
  · intro data sortBy sortOrder
    refine ⟨rfl, ?_⟩
    show (getSortedTransactionData data sortBy sortOrder).Perm data
    rcases sortBy with _ | sb
    · exact List.Perm.refl data
    · rcases sortOrder with _ | so
      · exact List.Perm.refl data
      · show (if sb = "" ∨ so = "" then data
              else match columnNamesToSortingProperty sb with
                   | none => data
                   | some prop => jsSort (transactionCompare prop so) data).Perm data
        by_cases hempty : sb = "" ∨ so = ""
        · rw [if_pos hempty]
        · rw [if_neg hempty]
          cases columnNamesToSortingProperty sb with
          | none => exact List.Perm.refl data
          | some prop => exact jsSort_perm _ data
  · intro data
    exact ⟨rfl, jsSort_perm _ data⟩
  · intro data
    exact ⟨rfl, jsSort_perm _ data⟩

/-! ## Claim C9 -/

theorem orderedInsert_front {α : Type} (r : α → α → Prop) [DecidableRel r]
    (u : α) (hu : ∀ x, r u x) :
    ∀ l : List α, List.orderedInsert r u l = u :: l := by
  intro l
  cases l with
  | nil => rfl
  | cons x t => simp [List.orderedInsert, hu x]

theorem orderedInsert_through {α : Type} (r : α → α → Prop) [DecidableRel r]
    (a u : α) (hau : r a u) :
    ∀ (X Y : List α), ∃ X',
      List.orderedInsert r a (X ++ u :: Y) = X' ++ u :: Y ∧ X'.Perm (a :: X) := by
  intro X
  induction X with
  | nil =>
    intro Y
    refine ⟨[a], ?_, List.Perm.refl _⟩
    simp [List.orderedInsert, hau]
  | cons x X ih =>
    intro Y
    by_cases hax : r a x
    · refine ⟨a :: x :: X, ?_, List.Perm.refl _⟩
      simp [List.orderedInsert, hax]
    · obtain ⟨X', hX', hperm⟩ := ih Y
      refine ⟨x :: X', ?_, (hperm.cons x).trans (List.Perm.swap a x X)⟩
      show List.orderedInsert r a ((x :: X) ++ u :: Y) = (x :: X') ++ u :: Y
      rw [List.cons_append]
      have hstep : List.orderedInsert r a (x :: (X ++ u :: Y)) =
          x :: List.orderedInsert r a (X ++ u :: Y) := by
        simp [List.orderedInsert, hax]
      rw [hstep, hX', List.cons_append]

/-- An element that ties (in both directions) with every other element keeps
its position between the elements originally before it and those originally
after it under stable insertion sort. -/
theorem insertionSort_universal_tie {α : Type} (r : α → α → Prop) [DecidableRel r]
    (u : α) (hu : ∀ x, r u x ∧ r x u) :
    ∀ (l1 l2 : List α), ∃ X Y,
      List.insertionSort r (l1 ++ u :: l2) = X ++ u :: Y ∧ X.Perm l1 ∧ Y.Perm l2 := by
  intro l1
  induction l1 with
  | nil =>
    intro l2
    refine ⟨[], List.insertionSort r l2, ?_, List.Perm.refl _, List.perm_insertionSort r l2⟩
    show List.orderedInsert r u (List.insertionSort r l2) = [] ++ u :: List.insertionSort r l2
    rw [orderedInsert_front r u (fun x => (hu x).1)]
    rfl
  | cons a l1 ih =>
    intro l2
    obtain ⟨X, Y, hXY, hpX, hpY⟩ := ih l2
    obtain ⟨X', hX', hperm⟩ := orderedInsert_through r a u (hu a).2 X Y
    refine ⟨X', Y, ?_, hperm.trans (hpX.cons a), hpY⟩
    show List.orderedInsert r a (List.insertionSort r (l1 ++ u :: l2)) = X' ++ u :: Y
    rw [hXY, hX']

theorem transactionCompare_undef_left {prop so : String} {u : TransactionListItem}
    (h : getSortValue u prop = .absent) (x : TransactionListItem) :
    transactionCompare prop so u x = 0 := by
  unfold transactionCompare
  rw [h]

theorem transactionCompare_undef_right {prop so : String} {u : TransactionListItem}
    (h : getSortValue u prop = .absent) (x : TransactionListItem) :
    transactionCompare prop so x u = 0 := by
  unfold transactionCompare
  rw [h]
  cases getSortValue x prop <;> rfl

/-- C9: (a) a sort column with no mapped sorting property returns the input
unchanged; (b) a row whose compared value is `undefined` compares `0` against
every other row and — the sort being stable — keeps its original position
relative to the rows before it and after it, instead of being pushed to one
end. -/
theorem c9_unmapped_unchanged_and_undefined_stable :
    (∀ (data : List TransactionListItem) (sb so : String),
      columnNamesToSortingProperty sb = none →
      getSortedTransactionData data (some sb) (some so) = data) ∧
    (∀ (sb so prop : String) (l1 l2 : List TransactionListItem)
        (u : TransactionListItem),
      sb ≠ "" → so ≠ "" →
      columnNamesToSortingProperty sb = some prop →
      getSortValue u prop = SortVal.absent →
      ∃ X Y, getSortedTransactionData (l1 ++ u :: l2) (some sb) (some so) =
          X ++ u :: Y ∧ X.Perm l1 ∧ Y.Perm l2) := by
  constructor
  · intro data sb so h
    show (if sb = "" ∨ so = "" then data
          else match columnNamesToSortingProperty sb with
               | none => data
               | some prop => jsSort (transactionCompare prop so) data) = data
    by_cases hempty : sb = "" ∨ so = ""
    · rw [if_pos hempty]
    · rw [if_neg hempty, h]
  · intro sb so prop l1 l2 u hsb hso hprop hundef
    have hne : ¬ (sb = "" ∨ so = "") := by
      rintro (h | h)
      · exact hsb h
      · exact hso h
    have hshape : getSortedTransactionData (l1 ++ u :: l2) (some sb) (some so) =
        jsSort (transactionCompare prop so) (l1 ++ u :: l2) := by
      show (if sb = "" ∨ so = "" then (l1 ++ u :: l2)
            else match columnNamesToSortingProperty sb with
                 | none => (l1 ++ u :: l2)
                 | some p => jsSort (transactionCompare p so) (l1 ++ u :: l2)) = _
      rw [if_neg hne, hprop]
    rw [hshape]
    exact insertionSort_universal_tie (fun a b => transactionCompare prop so a b ≤ 0) u
      (fun x =>
        ⟨by show transactionCompare prop so u x ≤ 0
            rw [transactionCompare_undef_left hundef x],
         by show transactionCompare prop so x u ≤ 0
            rw [transactionCompare_undef_right hundef x]⟩) l1 l2

/-- Witness for C9: the `receipt` column (no mapped property) leaves a
two-row list unchanged, and a row with `formattedTotal` undefined placed
between totals `500` and `-200` stays between the rows originally before and
after it when sorting by the `total` column ascending. -/
theorem c9_unmapped_unchanged_and_undefined_stable_witness :
    (getSortedTransactionData
        [{ exTxItem with formattedTotal := some 500 }, exTxItem]
        (some "receipt") (some "asc")) =
      [{ exTxItem with formattedTotal := some 500 }, exTxItem] ∧
    ∃ X Y, getSortedTransactionData
        ([{ exTxItem with formattedTotal := some 500 }] ++
          exTxItem :: [{ exTxItem with formattedTotal := some (-200) }])
        (some "total") (some "asc") = X ++ exTxItem :: Y ∧
      X.Perm [{ exTxItem with formattedTotal := some 500 }] ∧
      Y.Perm [{ exTxItem with formattedTotal := some (-200) }] :=
  ⟨c9_unmapped_unchanged_and_undefined_stable.1 _ "receipt" "asc" (by decide),
   c9_unmapped_unchanged_and_undefined_stable.2 "total" "asc" "formattedTotal"
     _ _ exTxItem (by decide) (by decide) (by decide) (by decide)⟩

/-! ## Claim C10 -/

/-- A card of `OnyxTypes.CardList` (fields this module reads). -/
structure Card where
  cardID : Nat
  bank : String
  deriving Repr, DecidableEq

/-- Modelled from the spec:
`PersonalDetailsUtils.getPersonalDetailByEmail(email)?.accountID`, as an
explicit email → account-id directory. -/
def emailToAccountID (pd : List (String × Int)) (email : String) : Option Int :=
  (pd.find? (fun p => p.1 == email)).map Prod.snd

/-- `findIDFromDisplayValue` (SearchUtils.ts lines 916–949): map display
values (logins, tax-rate names, bank names) back to IDs under the `from`/
`to`/`taxRate`/`cardID` filter keys; other keys pass through.  A node-valued
`right` cannot reach this function from parser output and passes through. -/
def findIDFromDisplayValue (pd : List (String × Int)) (cardList : List Card)
    (taxRates : List (String × List String)) (filterName : String)
    (filter : ASTArg) : ASTArg :=
  if filterName = "from" ∨ filterName = "to" then
    match filter with
    | .str email => .str (((emailToAccountID pd email).map toString).getD email)
    | .arr emails => .arr (emails.map (fun email =>
        ((emailToAccountID pd email).map toString).getD email))
    | .node o l r => .node o l r
  else if filterName = "taxRate" then
    match filter with
    | .str name =>
      .arr ((((taxRates.find? (fun p => p.1 == name)).map Prod.snd).getD [name]))
    | .arr names =>
      .arr ((names.map (fun name =>
        ((taxRates.find? (fun p => p.1 == name)).map Prod.snd).getD [name])).flatten)
    | .node o l r => .node o l r
  else if filterName = "cardID" then
    match filter with
    | .str bank =>
      let ids := (cardList.filter (fun c => c.bank == bank)).map (fun c => toString c.cardID)
      if ids.length > 0 then .arr ids else .str bank
    | .arr banks =>
      .arr ((banks.map (fun bank =>
        (cardList.filter (fun c => c.bank == bank)).map (fun c => toString c.cardID))).flatten)
    | .node o l r => .node o l r
  else filter

/-- The in-place `traverse` rewrite of `standardizeQueryJSON`
(SearchUtils.ts lines 957–972), as a pure tree transformation on the clone:
recurse into object-valued sides, then, when `left` is not an object, replace
`right` by the looked-up ID value. -/
def standardizeTraverse (pd : List (String × Int)) (cardList : List Card)
    (taxRates : List (String × List String)) : ASTArg → ASTArg
  | .str s => .str s
  | .arr vs => .arr vs
  | .node op l r =>
    if op = "" then .node op l r
    else
      let lNew := match l with
        | .node o2 l2 r2 => standardizeTraverse pd cardList taxRates (.node o2 l2 r2)
        | _ => l
      let rNew := match r with
        | .node o2 l2 r2 => standardizeTraverse pd cardList taxRates (.node o2 l2 r2)
        | _ => r
      match l with
      | .str k => .node op lNew (findIDFromDisplayValue pd cardList taxRates k rNew)
      | _ => .node op lNew rNew

/-- `lodash cloneDeep` on the filter AST: a structurally recursive deep
copy. -/
def cloneDeepAST : ASTArg → ASTArg
  | .str s => .str s
  | .arr vs => .arr (vs.map id)
  | .node op l r => .node op (cloneDeepAST l) (cloneDeepAST r)

theorem cloneDeepAST_eq : ∀ a : ASTArg, cloneDeepAST a = a := by
  intro a
  induction a with
  | str s => rfl
  | arr vs => simp [cloneDeepAST]
  | node op l r ihl ihr => simp [cloneDeepAST, ihl, ihr]

/-- `standardizeQueryJSON` (SearchUtils.ts line 954): deep-clone the query,
rewrite display values to IDs in the clone's filter AST in place, recompute
`flatFilters` from the rewritten AST, and return the clone.  Because the
rewrite mutates only the clone, the caller's query after the call
(`argAfter`) is the original, untouched value. -/
def standardizeQueryJSON (queryJSON : SearchQueryJSON) (pd : List (String × Int))
    (cardList : List Card) (taxRates : List (String × List String)) :
    JSCall SearchQueryJSON :=
  let standardQuery := { queryJSON with filters := queryJSON.filters.map cloneDeepAST }
  let rewritten := standardQuery.filters.map (standardizeTraverse pd cardList taxRates)
  let result := { standardQuery with filters := rewritten, flatFilters := getFilters rewritten }
  ⟨result, queryJSON⟩

/-- C10: `standardizeQueryJSON` leaves its input argument unchanged — the
deep clone taken before the rewrite means the caller's query after the call
is the original — while the returned query is a new derived structure: its
`filters` are the rewrite of a deep copy of the input's AST (the copy being
value-equal to the input's AST), and its `flatFilters` are recomputed from
the rewritten AST. -/
theorem c10_standardize_preserves_input (q : SearchQueryJSON)
    (pd : List (String × Int)) (cardList : List Card)
    (taxRates : List (String × List String)) :
    (standardizeQueryJSON q pd cardList taxRates).argAfter = q ∧
    (standardizeQueryJSON q pd cardList taxRates).returned.filters =
      q.filters.map (standardizeTraverse pd cardList taxRates) ∧
    (standardizeQueryJSON q pd cardList taxRates).returned.flatFilters =
      getFilters ((standardizeQueryJSON q pd cardList taxRates).returned.filters) ∧
    q.filters.map cloneDeepAST = q.filters := by
  refine ⟨rfl, ?_, rfl, ?_⟩
  · show (q.filters.map cloneDeepAST).map (standardizeTraverse pd cardList taxRates) = _
    cases q.filters with
    | none => rfl
    | some f => rw [Option.map_some', Option.map_some', cloneDeepAST_eq, Option.map_some']
  · cases q.filters with
    | none => rfl
    | some f => rw [Option.map_some', cloneDeepAST_eq]

/-! ## The search query parser

Modelled from the spec: the PEG grammar (`SearchParser/searchParser`) is a
dependency outside `src/`; §6 of the spec fixes the surface syntax
(space-separated `key<op>value` tokens, comma- or space-joined list values,
double-quoting for values with characters outside the sanitise whitelist) and
§4.2/4.3 fix the defaults the parser supplies (`type:expense`, `status:all`,
`sortBy:date`, `sortOrder:desc`). -/

/-- A character usable in a bare (unquoted) value or key: anything except the
whitespace, quote, list and operator delimiters. -/
def isBareChar (c : Char) : Bool :=
  !(c == ' ' || c == Char.ofNat 34 || c == ',' || c == ':' ||
    c == '<' || c == '>' || c == '!' || c == '=')

/-- A character usable in a root-key value: bare characters plus `,`
(`policyID` stores comma-separated ids as one value). -/
def isRootValChar (c : Char) : Bool := isBareChar c || c == ','

/-- Quote-aware word splitter: words are separated by (runs of) spaces that
occur outside double quotes; `none` on an unterminated quote.  `cur` is the
current word accumulated in reverse. -/
def splitWordsAux : List Char → Bool → List Char → Option (List (List Char))
  | [], true, _ => none
  | [], false, cur => some (if cur = [] then [] else [cur.reverse])
  | c :: rest, inQ, cur =>
    if c = ' ' && !inQ then
      match splitWordsAux rest false [] with
      | none => none
      | some ws => some (if cur = [] then ws else cur.reverse :: ws)
    else
      splitWordsAux rest (if c = Char.ofNat 34 then !inQ else inQ) (c :: cur)

/-- Split a query into words. -/
def splitWords (s : List Char) : Option (List (List Char)) := splitWordsAux s false []

/-- One parsed token of the query grammar. -/
inductive Token where
  | root (key value : String)
  | filt (key op : String) (vals : List String)
  | kw (v : String)
  deriving Repr, DecidableEq

/-- Lex a comparison operator sign into the operator name used in the AST. -/
def lexOp (l : List Char) : Option String × List Char :=
  match l with
  | [] => (none, l)
  | c :: rest =>
    if c = '<' then
      match rest with
      | c2 :: r2 => if c2 = '=' then (some "lte", r2) else (some "lt", rest)
      | [] => (some "lt", [])
    else if c = '>' then
      match rest with
      | c2 :: r2 => if c2 = '=' then (some "gte", r2) else (some "gt", rest)
      | [] => (some "gt", [])
    else if c = '!' then
      match rest with
      | c2 :: r2 => if c2 = '=' then (some "neq", r2) else (none, l)
      | [] => (none, l)
    else if c = ':' then (some "eq", rest)
    else (none, l)

/-- Lex one value atom: a non-empty double-quoted run of non-quote
characters, or a non-empty run of bare characters. -/
def parseAtom : List Char → Option (String × List Char)
  | [] => none
  | c :: rest =>
    if c = Char.ofNat 34 then
      let inner := rest.takeWhile (fun x => x != Char.ofNat 34)
      match rest.dropWhile (fun x => x != Char.ofNat 34) with
      | q :: r => if inner = [] then none else some (⟨inner⟩, r)
      | [] => none
    else
      let v := (c :: rest).takeWhile isBareChar
      if v = [] then none else some (⟨v⟩, (c :: rest).dropWhile isBareChar)

theorem dropWhile_length_le {α : Type} (p : α → Bool) :
    ∀ l : List α, (l.dropWhile p).length ≤ l.length := by
  intro l
  induction l with
  | nil => simp
  | cons c t ih =>
    rw [List.dropWhile_cons]
    by_cases h : p c = true
    · simp only [h, if_pos]
      simp only [List.length_cons]
      omega
    · simp only [h]
      simp

theorem parseAtom_cons (c : Char) (rest : List Char) :
    parseAtom (c :: rest) =
      if c = Char.ofNat 34 then
        (match rest.dropWhile (fun x => x != Char.ofNat 34) with
         | _ :: r =>
           if rest.takeWhile (fun x => x != Char.ofNat 34) = [] then none
           else some (⟨rest.takeWhile (fun x => x != Char.ofNat 34)⟩, r)
         | [] => none)
      else
        (if (c :: rest).takeWhile isBareChar = [] then none
         else some (⟨(c :: rest).takeWhile isBareChar⟩,
           (c :: rest).dropWhile isBareChar)) := rfl

theorem parseAtom_length {s : List Char} {v : String} {rest : List Char}
    (h : parseAtom s = some (v, rest)) : rest.length < s.length := by
  cases s with
  | nil => cases h
  | cons c s0 =>
    rw [parseAtom_cons] at h
    by_cases hc : c = Char.ofNat 34
    · rw [if_pos hc] at h
      cases hd : s0.dropWhile (fun x => x != Char.ofNat 34) with
      | nil => rw [hd] at h; cases h
      | cons q r =>
        rw [hd] at h
        dsimp only at h
        by_cases hi : s0.takeWhile (fun x => x != Char.ofNat 34) = []
        · rw [if_pos hi] at h; cases h
        · rw [if_neg hi] at h
          cases h
          have hlen : (q :: rest).length ≤ s0.length := by
            rw [← hd]
            exact dropWhile_length_le _ _
          simp only [List.length_cons] at hlen ⊢
          omega
    · rw [if_neg hc] at h
      by_cases hv : (c :: s0).takeWhile isBareChar = []
      · rw [if_pos hv] at h; cases h
      · rw [if_neg hv] at h
        cases h
        have hcb : isBareChar c = true := by
          by_contra hcb
          have : (c :: s0).takeWhile isBareChar = [] := by
            rw [List.takeWhile_cons]
            simp [Bool.not_eq_true] at hcb
            simp [hcb]
          exact hv this
        have : (c :: s0).dropWhile isBareChar = s0.dropWhile isBareChar := by
          rw [List.dropWhile_cons, hcb]
          simp
        rw [this]
        have := dropWhile_length_le isBareChar s0
        simp only [List.length_cons]
        omega

/-- Lex a comma-separated list of value atoms, consuming the whole input.
Structurally recursive on a fuel bound; any fuel above the input length gives
the same answer (`parseValueListGo_congr`). -/
def parseValueListGo : Nat → List Char → Option (List String)
  | 0, _ => none
  | fuel + 1, s =>
    match parseAtom s with
    | none => none
    | some (v, rest) =>
      if rest = [] then some [v]
      else if rest.head? = some ',' then
        match parseValueListGo fuel rest.tail with
        | some vs => some (v :: vs)
        | none => none
      else none

/-- Lex a comma-separated list of value atoms. -/
def parseValueList (s : List Char) : Option (List String) :=
  parseValueListGo (s.length + 1) s

theorem parseValueListGo_congr :
    ∀ (fuel1 : Nat) (s : List Char) (fuel2 : Nat), s.length < fuel1 → s.length < fuel2 →
      parseValueListGo fuel1 s = parseValueListGo fuel2 s := by
  intro fuel1
  induction fuel1 with
  | zero => intro s fuel2 h1 _; omega
  | succ n ih =>
    intro s fuel2 h1 h2
    cases fuel2 with
    | zero => omega
    | succ m =>
      show (match parseAtom s with
            | none => none
            | some (v, rest) =>
              if rest = [] then some [v]
              else if rest.head? = some ',' then
                match parseValueListGo n rest.tail with
                | some vs => some (v :: vs)
                | none => none
              else none) =
           (match parseAtom s with
            | none => none
            | some (v, rest) =>
              if rest = [] then some [v]
              else if rest.head? = some ',' then
                match parseValueListGo m rest.tail with
                | some vs => some (v :: vs)
                | none => none
              else none)
      cases ha : parseAtom s with
      | none => rfl
      | some p =>
        obtain ⟨v, rest⟩ := p
        have hlen := parseAtom_length ha
        dsimp only
        by_cases h0 : rest = []
        · rw [if_pos h0, if_pos h0]
        · rw [if_neg h0, if_neg h0]
          by_cases hhd : rest.head? = some ','
          · rw [if_pos hhd, if_pos hhd]
            have htl : rest.tail.length < n ∧ rest.tail.length < m := by
              have : rest.tail.length = rest.length - 1 := by
                cases rest with
                | nil => exact absurd rfl h0
                | cons c r => simp
              omega
            rw [ih rest.tail m htl.1 htl.2]
          · rw [if_neg hhd, if_neg hhd]

/-- Parse one word into a token: a root-key assignment, a filter constraint,
or a free-text keyword. -/
def parseWord (w : List Char) : Except String Token :=
  match w with
  | [] => .error "empty word"
  | c :: rest =>
    if c = Char.ofNat 34 then
      let inner := rest.takeWhile (fun x => x != Char.ofNat 34)
      match rest.dropWhile (fun x => x != Char.ofNat 34) with
      | [q] => if inner = [] then .error "empty quoted value" else .ok (.kw ⟨inner⟩)
      | _ => .error "malformed quoted word"
    else
      let key := w.takeWhile isBareChar
      let rest2 := w.dropWhile isBareChar
      if key = [] then .error "unexpected character"
      else
        match rest2 with
        | [] => .ok (.kw ⟨key⟩)
        | _ :: _ =>
          match lexOp rest2 with
          | (none, _) => .error "unexpected character after word"
          | (some op, rest4) =>
            let keyS : String := ⟨key⟩
            if keyS ∈ rootKeysList then
              if op = "eq" then
                let v := rest4.takeWhile isRootValChar
                if v ≠ [] ∧ rest4.dropWhile isRootValChar = [] then
                  .ok (.root keyS ⟨v⟩)
                else .error "malformed root value"
              else .error "root keys take only a colon"
            else if keyS ∈ filterKeysList then
              match parseValueList rest4 with
              | some vals => .ok (.filt keyS op vals)
              | none => .error "malformed value list"
            else .error "unknown key"

/-- AND-chain a new filter node onto the filters built so far
(left-associatively, so flattening visits tokens in textual order). -/
def chainAST (cur : Option ASTArg) (node : ASTArg) : ASTArg :=
  match cur with
  | none => node
  | some f => .node "and" f node

/-- Modelled from the spec: the parser's defaults (`type:expense status:all
sortBy:date sortOrder:desc`, no `policyID`, no filters). -/
def defaultRawQuery : RawQuery :=
  { type := "expense", status := "all", sortBy := "date", sortOrder := "desc"
    policyID := none, filters := none }

/-- Fold one token into the raw query: root assignments overwrite (last
wins); filter and keyword tokens append AST nodes. -/
def applyToken (acc : RawQuery) (t : Token) : RawQuery :=
  match t with
  | .root k v =>
    if k = "type" then { acc with type := v }
    else if k = "status" then { acc with status := v }
    else if k = "sortBy" then { acc with sortBy := v }
    else if k = "sortOrder" then { acc with sortOrder := v }
    else if k = "policyID" then { acc with policyID := some v }
    else acc
  | .filt k op vals =>
    { acc with filters := some (chainAST acc.filters
        (.node op (.str k) (match vals with | [v] => .str v | _ => .arr vals))) }
  | .kw v =>
    { acc with filters := some (chainAST acc.filters (.node "eq" (.str "keyword") (.str v))) }

/-- `searchParser.parse`, modelled from the spec; throwing is modelled by
`Except.error`. -/
def searchParse (query : String) : Except String RawQuery :=
  match splitWords query.data with
  | none => .error "unterminated quote"
  | some ws =>
    match ws.mapM parseWord with
    | .error e => .error e
    | .ok tokens => .ok (tokens.foldl applyToken defaultRawQuery)

/-- `buildSearchQueryJSON` (SearchUtils.ts line 563): parse, flatten the
filters, attach the input query, flat filters and hash; parse errors are
caught (and logged) and yield an absent result.  `getQueryHash` sorts each
flat-filter value array in place, so the returned JSON carries the sorted
arrays. -/
def buildSearchQueryJSON (query : String) : Option SearchQueryJSON :=
  match searchParse query with
  | .error _ => none
  | .ok r =>
    let flatFilters := getFilters r.filters
    let pre : SearchQueryJSON :=
      { type := r.type, status := r.status, sortBy := r.sortBy, sortOrder := r.sortOrder
        policyID := r.policyID, filters := r.filters, flatFilters := flatFilters
        inputQuery := query, hash := 0 }
    some { pre with flatFilters := sortFlatFilters flatFilters, hash := getQueryHash pre }

/-- `queryJSON?.[key]` for the root keys. -/
def rootValueOf (q : SearchQueryJSON) (key : String) : Option String :=
  if key = "type" then some q.type
  else if key = "status" then some q.status
  else if key = "sortBy" then some q.sortBy
  else if key = "sortOrder" then some q.sortOrder
  else if key = "policyID" then q.policyID
  else none

/-- `queryParts.join(' ')`. -/
def joinSpace : List String → String
  | [] => ""
  | [p] => p
  | p :: q :: rest => p ++ " " ++ joinSpace (q :: rest)

/-- `buildSearchQueryString` (SearchUtils.ts line 578): root keys in fixed
order, each emitted when its value (or, when the key is absent from the
query, the default query's value) is truthy; then, when a query is present,
the filter keys in their fixed enumeration order, each rendered by
`buildFilterString`. -/
def buildSearchQueryString (queryJSON : Option SearchQueryJSON) : String :=
  let defaultQueryJSON := buildSearchQueryJSON ""
  let rootParts : List String := rootKeysList.filterMap (fun key =>
    let existingFieldValue := match queryJSON with
      | some q => rootValueOf q key
      | none => none
    let queryFieldValue := match existingFieldValue with
      | some v => some v
      | none => defaultQueryJSON.bind (fun d => rootValueOf d key)
    match queryFieldValue with
    | some v => if v ≠ "" then some (key ++ ":" ++ v) else none
    | none => none)
  match queryJSON with
  | none => joinSpace rootParts
  | some q =>
    let filterParts : List String := filterKeysList.filterMap (fun filterKey =>
      match qfLookup q.flatFilters filterKey with
      | some queryFilter => some (buildFilterString filterKey queryFilter)
      | none => none)
    joinSpace (rootParts ++ filterParts)

/-- `normalizeQuery` (SearchUtils.ts line 452). -/
def normalizeQuery (query : String) : String :=
  buildSearchQueryString (buildSearchQueryJSON query)

/-! ## Claim C5 -/

/-- C5: `buildSearchQueryJSON` never propagates a parser failure — the absent
result is the only failure signal: it returns `none` exactly when the parser
fails (the `try/catch` absorbs the throw after logging), and for every
parseable string it returns a `SearchQueryJSON` carrying the input query. -/
theorem c5_build_json_absorbs_parse_failure (s : String) :
    (buildSearchQueryJSON s = none ↔ ∃ e, searchParse s = Except.error e) ∧
    (∀ r, searchParse s = Except.ok r → ∃ q, buildSearchQueryJSON s = some q ∧
      q.inputQuery = s) := by
  constructor
  · cases h : searchParse s with
    | error e =>
      simp only [buildSearchQueryJSON, h]
      exact ⟨fun _ => ⟨e, rfl⟩, fun _ => trivial⟩
    | ok r =>
      simp only [buildSearchQueryJSON, h]
      constructor
      · intro hc; cases hc
      · rintro ⟨e, he⟩; cases he
  · intro r hr
    simp only [buildSearchQueryJSON, hr]
    exact ⟨_, rfl, rfl⟩

/-- Witness for C5: the unterminated-quote string parses to an error and
yields an absent result; the empty string parses and yields a result. -/
theorem c5_build_json_absorbs_parse_failure_witness :
    buildSearchQueryJSON "\"" = none ∧ ∃ q, buildSearchQueryJSON "" = some q ∧
      q.inputQuery = "" :=
  ⟨(c5_build_json_absorbs_parse_failure "\"").1.mpr ⟨"unterminated quote", rfl⟩,
   (c5_build_json_absorbs_parse_failure "").2 defaultRawQuery rfl⟩

/-! ## Claim C2, counterexample -/

/-- C2, counterexample: the string `category:"b,a"` is syntactically valid,
but serialization is **not** a fixed point after one normalization pass.  The
quoted value `b,a` contains only whitelisted characters, so the first pass
prints it bare (`category:b,a`); re-parsing splits it at the comma into two
values, which the hash step then sorts, so the second pass prints
`category:a,b`. -/
theorem c2_not_fixed_point_after_one_pass :
    (searchParse "category:\"b,a\"").isOk = true ∧
    buildSearchQueryString (buildSearchQueryJSON
        (buildSearchQueryString (buildSearchQueryJSON "category:\"b,a\""))) ≠
      buildSearchQueryString (buildSearchQueryJSON "category:\"b,a\"") := by
  constructor
  · decide
  · set_option maxRecDepth 16000 in decide

/-! ## Claim C2, amended: generic list and scanning lemmas -/

theorem takeWhile_append_of_all {α : Type} (p : α → Bool) :
    ∀ (l1 l2 : List α), (∀ c ∈ l1, p c = true) →
      (l1 ++ l2).takeWhile p = l1 ++ l2.takeWhile p := by
  intro l1
  induction l1 with
  | nil => intro l2 _; rfl
  | cons c t ih =>
    intro l2 h
    rw [List.cons_append, List.takeWhile_cons, h c (List.mem_cons_self _ _)]
    rw [List.cons_append, ih l2 (fun x hx => h x (List.mem_cons_of_mem _ hx))]
    rw [if_pos rfl]

theorem dropWhile_append_of_all {α : Type} (p : α → Bool) :
    ∀ (l1 l2 : List α), (∀ c ∈ l1, p c = true) →
      (l1 ++ l2).dropWhile p = l2.dropWhile p := by
  intro l1
  induction l1 with
  | nil => intro l2 _; rfl
  | cons c t ih =>
    intro l2 h
    rw [List.cons_append, List.dropWhile_cons, h c (List.mem_cons_self _ _)]
    exact ih l2 (fun x hx => h x (List.mem_cons_of_mem _ hx))

theorem takeWhile_eq_self_of_all {α : Type} (p : α → Bool) :
    ∀ (l : List α), (∀ c ∈ l, p c = true) → l.takeWhile p = l := by
  intro l
  induction l with
  | nil => intro _; rfl
  | cons c t ih =>
    intro h
    rw [List.takeWhile_cons, h c (List.mem_cons_self _ _)]
    rw [ih (fun x hx => h x (List.mem_cons_of_mem _ hx))]
    rw [if_pos rfl]

theorem dropWhile_eq_nil_of_all {α : Type} (p : α → Bool) :
    ∀ (l : List α), (∀ c ∈ l, p c = true) → l.dropWhile p = [] := by
  intro l
  induction l with
  | nil => intro _; rfl
  | cons c t ih =>
    intro h
    rw [List.dropWhile_cons, h c (List.mem_cons_self _ _)]
    exact ih (fun x hx => h x (List.mem_cons_of_mem _ hx))

/-- Concatenation of a list of strings. -/
def concatStr : List String → String
  | [] => ""
  | p :: rest => p ++ concatStr rest

theorem concatStr_data : ∀ l : List String,
    (concatStr l).data = (l.map String.data).flatten := by
  intro l
  induction l with
  | nil => rfl
  | cons p rest ih =>
    show (p ++ concatStr rest).data = _
    rw [String.data_append, ih]
    rfl

theorem concatStr_append : ∀ l1 l2 : List String,
    concatStr (l1 ++ l2) = concatStr l1 ++ concatStr l2 := by
  intro l1
  induction l1 with
  | nil =>
    intro l2
    show concatStr l2 = "" ++ concatStr l2
    apply String.ext
    rw [String.data_append]
    rfl
  | cons p rest ih =>
    intro l2
    show p ++ concatStr (rest ++ l2) = (p ++ concatStr rest) ++ concatStr l2
    rw [ih, String.append_assoc]

theorem joinSpace_eq_concat : ∀ (p : String) (ps : List String),
    joinSpace (p :: ps) = p ++ concatStr (ps.map (fun w => " " ++ w)) := by
  intro p ps
  induction ps generalizing p with
  | nil =>
    show p = p ++ concatStr []
    apply String.ext
    rw [String.data_append]
    simp [concatStr]
  | cons q rest ih =>
    show p ++ " " ++ joinSpace (q :: rest) = _
    rw [ih q]
    show p ++ " " ++ (q ++ concatStr (rest.map (fun w => " " ++ w))) =
      p ++ (" " ++ q ++ concatStr (rest.map (fun w => " " ++ w)))
    apply String.ext
    simp only [String.data_append, List.append_assoc]

/-- Quote-state scan of a word: `none` if an unquoted space occurs, else the
final quote state. -/
def scanWord : List Char → Bool → Option Bool
  | [], st => some st
  | c :: rest, st =>
    if c = ' ' && !st then none
    else scanWord rest (if c = Char.ofNat 34 then !st else st)

theorem scanWord_append : ∀ (w1 w2 : List Char) (st st1 : Bool),
    scanWord w1 st = some st1 → scanWord (w1 ++ w2) st = scanWord w2 st1 := by
  intro w1
  induction w1 with
  | nil =>
    intro w2 st st1 h
    cases h
    rfl
  | cons c rest ih =>
    intro w2 st st1 h
    rw [List.cons_append]
    show (if c = ' ' && !st then none
          else scanWord (rest ++ w2) (if c = Char.ofNat 34 then !st else st)) = _
    unfold scanWord at h
    by_cases hc : (c = ' ' && !st) = true
    · rw [if_pos hc] at h; cases h
    · rw [if_neg hc] at h
      rw [if_neg hc]
      exact ih w2 _ st1 h

theorem scanWord_no_quote_space : ∀ (w : List Char) (st : Bool),
    (∀ c ∈ w, c ≠ Char.ofNat 34 ∧ c ≠ ' ') → scanWord w st = some st := by
  intro w
  induction w with
  | nil => intro st _; rfl
  | cons c rest ih =>
    intro st h
    obtain ⟨hq, hs⟩ := h c (List.mem_cons_self _ _)
    show (if c = ' ' && !st then none
          else scanWord rest (if c = Char.ofNat 34 then !st else st)) = some st
    rw [if_neg (by simp [hs]), if_neg hq]
    exact ih st (fun x hx => h x (List.mem_cons_of_mem _ hx))

theorem scanWord_all_quoted_state : ∀ (l : List Char), (∀ c ∈ l, c ≠ Char.ofNat 34) →
    scanWord l true = some true := by
  intro l
  induction l with
  | nil => intro _; rfl
  | cons c rest ih =>
    intro hl
    have hc := hl c (List.mem_cons_self _ _)
    show (if c = ' ' && !true then none
          else scanWord rest (if c = Char.ofNat 34 then !true else true)) = some true
    rw [if_neg (by simp), if_neg hc]
    exact ih (fun x hx => hl x (List.mem_cons_of_mem _ hx))

theorem scanWord_quoted (inner : List Char) (h : ∀ c ∈ inner, c ≠ Char.ofNat 34) :
    scanWord (Char.ofNat 34 :: (inner ++ [Char.ofNat 34])) false = some false := by
  show (if Char.ofNat 34 = ' ' && !false then none
        else scanWord (inner ++ [Char.ofNat 34])
          (if Char.ofNat 34 = Char.ofNat 34 then !false else false)) = some false
  rw [if_neg (by decide), if_pos rfl]
  show scanWord (inner ++ [Char.ofNat 34]) true = some false
  rw [scanWord_append inner [Char.ofNat 34] true true (scanWord_all_quoted_state inner h)]
  show (if Char.ofNat 34 = ' ' && !true then none
        else scanWord [] (if Char.ofNat 34 = Char.ofNat 34 then !true else true)) = some false
  rw [if_neg (by simp), if_pos rfl]
  rfl

/-! ## Claim C2, amended: the word splitter on space-joined word lists -/

/-- Space-joined concatenation of raw words (`words.join(' ')` at the
character level). -/
def interSpace : List (List Char) → List Char
  | [] => []
  | [w] => w
  | w :: w2 :: rest => w ++ ' ' :: interSpace (w2 :: rest)

/-- The words surviving the splitter: empty words (runs of separating spaces)
are dropped. -/
def dropEmpties : List (List Char) → List (List Char)
  | [] => []
  | w :: rest => if w = [] then dropEmpties rest else w :: dropEmpties rest

theorem dropEmpties_cons (w : List Char) (l : List (List Char)) :
    dropEmpties (w :: l) = if w = [] then dropEmpties l else w :: dropEmpties l := rfl

theorem joinSpace_data : ∀ ps : List String,
    (joinSpace ps).data = interSpace (ps.map String.data) := by
  intro ps
  induction ps with
  | nil => rfl
  | cons p rest ih =>
    cases rest with
    | nil => rfl
    | cons q r =>
      show (p ++ " " ++ joinSpace (q :: r)).data =
        p.data ++ ' ' :: interSpace ((q :: r).map String.data)
      rw [String.data_append, String.data_append, ih, List.append_assoc]
      rfl

theorem interSpace_append : ∀ (xs ys : List (List Char)), xs ≠ [] → ys ≠ [] →
    interSpace (xs ++ ys) = interSpace xs ++ ' ' :: interSpace ys := by
  intro xs
  induction xs with
  | nil => intro ys h _; exact absurd rfl h
  | cons w xt ih =>
    intro ys _ hys
    cases xt with
    | nil =>
      cases ys with
      | nil => exact absurd rfl hys
      | cons y yt => rfl
    | cons w2 xt2 =>
      show w ++ ' ' :: interSpace ((w2 :: xt2) ++ ys) =
        (w ++ ' ' :: interSpace (w2 :: xt2)) ++ ' ' :: interSpace ys
      rw [ih ys (by simp) hys]
      simp

theorem interSpace_flatten : ∀ wls : List (List (List Char)), (∀ wl ∈ wls, wl ≠ []) →
    interSpace (wls.map interSpace) = interSpace wls.flatten := by
  intro wls
  induction wls with
  | nil => intro _; rfl
  | cons wl rest ih =>
    intro h
    have hwl : wl ≠ [] := h wl (List.mem_cons_self _ _)
    cases rest with
    | nil =>
      show interSpace [interSpace wl] = interSpace (wl ++ [])
      rw [List.append_nil]
      rfl
    | cons wl2 rest2 =>
      have h2 : wl2 ≠ [] := h wl2 (by simp)
      have hfl : (wl2 :: rest2).flatten ≠ [] := by
        rw [List.flatten_cons]
        intro hc
        exact h2 (List.append_eq_nil.mp hc).1
      show interSpace wl ++ ' ' :: interSpace ((wl2 :: rest2).map interSpace) =
        interSpace ((wl :: wl2 :: rest2).flatten)
      rw [ih (fun x hx => h x (List.mem_cons_of_mem _ hx))]
      conv_rhs => rw [List.flatten_cons]
      rw [interSpace_append wl _ hwl hfl]

theorem splitWordsAux_cons (c : Char) (l : List Char) (inQ : Bool) (cur : List Char) :
    splitWordsAux (c :: l) inQ cur =
      if c = ' ' && !inQ then
        match splitWordsAux l false [] with
        | none => none
        | some ws => some (if cur = [] then ws else cur.reverse :: ws)
      else splitWordsAux l (if c = Char.ofNat 34 then !inQ else inQ) (c :: cur) := rfl

/-- Processing a chunk with no unquoted space: the chunk is accumulated in
reverse onto the current word and the quote state advances as `scanWord`. -/
theorem splitWordsAux_chunk : ∀ (w rest : List Char) (st st1 : Bool) (cur : List Char),
    scanWord w st = some st1 →
    splitWordsAux (w ++ rest) st cur = splitWordsAux rest st1 (w.reverse ++ cur) := by
  intro w
  induction w with
  | nil => intro rest st st1 cur h; cases h; rfl
  | cons c t ih =>
    intro rest st st1 cur h
    unfold scanWord at h
    by_cases hc : (c = ' ' && !st) = true
    · rw [if_pos hc] at h; cases h
    · rw [if_neg hc] at h
      rw [List.cons_append, splitWordsAux_cons, if_neg hc]
      rw [ih rest _ st1 (c :: cur) h]
      congr 1
      simp

/-- The splitter on a space-joined list of unquoted-space-free words: the
nonempty words, in order. -/
theorem splitWords_interSpace : ∀ items : List (List Char),
    (∀ w ∈ items, scanWord w false = some false) →
    splitWords (interSpace items) = some (dropEmpties items) := by
  intro items
  induction items with
  | nil => intro _; rfl
  | cons w rest ih =>
    intro h
    have hw := h w (List.mem_cons_self _ _)
    cases rest with
    | nil =>
      have hch := splitWordsAux_chunk w [] false false [] hw
      rw [List.append_nil] at hch
      show splitWordsAux w false [] = some (dropEmpties [w])
      rw [hch, List.append_nil]
      show some (if w.reverse = [] then [] else [w.reverse.reverse]) = some (dropEmpties [w])
      by_cases hw0 : w = []
      · subst hw0; rfl
      · rw [if_neg (by simpa using hw0), List.reverse_reverse]
        rw [dropEmpties_cons, if_neg hw0]
        rfl
    | cons w2 rest2 =>
      have ihh := ih (fun x hx => h x (List.mem_cons_of_mem _ hx))
      unfold splitWords at ihh
      show splitWordsAux (w ++ ' ' :: interSpace (w2 :: rest2)) false [] =
        some (dropEmpties (w :: w2 :: rest2))
      rw [splitWordsAux_chunk w (' ' :: interSpace (w2 :: rest2)) false false [] hw]
      rw [List.append_nil, splitWordsAux_cons, if_pos (by decide)]
      rw [ihh]
      show some (if w.reverse = [] then dropEmpties (w2 :: rest2)
          else w.reverse.reverse :: dropEmpties (w2 :: rest2)) =
        some (dropEmpties (w :: w2 :: rest2))
      by_cases hw0 : w = []
      · subst hw0
        rfl
      · rw [if_neg (by simpa using hw0), List.reverse_reverse]
        conv_rhs => rw [dropEmpties_cons, if_neg hw0]

/-! ## Claim C2, amended: character classes and word scanning -/

theorem bare_not_quote {c : Char} (h : isBareChar c = true) : c ≠ Char.ofNat 34 := by
  intro hc; rw [hc] at h; exact absurd h (by decide)

theorem bare_not_space {c : Char} (h : isBareChar c = true) : c ≠ ' ' := by
  intro hc; rw [hc] at h; exact absurd h (by decide)

theorem rootVal_not_quote {c : Char} (h : isRootValChar c = true) : c ≠ Char.ofNat 34 := by
  intro hc; rw [hc] at h; exact absurd h (by decide)

theorem rootVal_not_space {c : Char} (h : isRootValChar c = true) : c ≠ ' ' := by
  intro hc; rw [hc] at h; exact absurd h (by decide)

theorem allowed_not_space {c : Char} (h : isSanitizeAllowed c = true) : c ≠ ' ' :=
  fun hc => absurd (hc ▸ h) (by decide)

/-- A whitelisted character other than `"` and `,` is a bare-word character. -/
theorem isBareChar_of_allowed {c : Char} (h : isSanitizeAllowed c = true)
    (hq : c ≠ Char.ofNat 34) (hcm : c ≠ ',') : isBareChar c = true := by
  have hs : c ≠ ' ' := allowed_not_space h
  have h1 : c ≠ ':' := fun hc => absurd (hc ▸ h) (by decide)
  have h2 : c ≠ '<' := fun hc => absurd (hc ▸ h) (by decide)
  have h3 : c ≠ '>' := fun hc => absurd (hc ▸ h) (by decide)
  have h4 : c ≠ '!' := fun hc => absurd (hc ▸ h) (by decide)
  have h5 : c ≠ '=' := fun hc => absurd (hc ▸ h) (by decide)
  unfold isBareChar
  simp [hs, hq, hcm, h1, h2, h3, h4, h5]

theorem sanitizeString_bare {v : String}
    (h : v.data.any (fun c => !isSanitizeAllowed c) = false) : sanitizeString v = v := by
  unfold sanitizeString
  rw [if_neg (by simp [h])]

theorem sanitizeString_quoted {v : String}
    (h : v.data.any (fun c => !isSanitizeAllowed c) = true) :
    sanitizeString v = "\"" ++ v ++ "\"" := by
  unfold sanitizeString
  rw [if_pos h]

theorem quoted_data (v : String) :
    ("\"" ++ v ++ "\"").data = Char.ofNat 34 :: (v.data ++ [Char.ofNat 34]) := by
  rw [String.data_append, String.data_append]
  rfl

/-- A sanitised quote-free value scans without unquoted spaces, ending
unquoted. -/
theorem scanWord_sanitize {v : String} (hqv : ∀ c ∈ v.data, c ≠ Char.ofNat 34) :
    scanWord (sanitizeString v).data false = some false := by
  cases ha : v.data.any (fun c => !isSanitizeAllowed c) with
  | false =>
    rw [sanitizeString_bare ha]
    apply scanWord_no_quote_space
    intro c hc
    have hall : isSanitizeAllowed c = true := by
      have := List.any_eq_false.mp ha c hc
      simpa using this
    exact ⟨hqv c hc, allowed_not_space hall⟩
  | true =>
    rw [sanitizeString_quoted ha, quoted_data]
    exact scanWord_quoted v.data hqv

theorem scanWord_chunks : ∀ ls : List (List Char),
    (∀ c ∈ ls, scanWord c false = some false) → scanWord ls.flatten false = some false := by
  intro ls
  induction ls with
  | nil => intro _; rfl
  | cons c rest ih =>
    intro h
    rw [List.flatten_cons, scanWord_append c rest.flatten false false
      (h c (List.mem_cons_self _ _))]
    exact ih (fun x hx => h x (List.mem_cons_of_mem _ hx))

theorem scanWord_root_word {k v : String}
    (hk : ∀ c ∈ k.data, isBareChar c = true) (hv : ∀ c ∈ v.data, isRootValChar c = true) :
    scanWord (k ++ ":" ++ v).data false = some false := by
  apply scanWord_no_quote_space
  intro c hc
  rw [String.data_append, String.data_append] at hc
  rcases List.mem_append.mp hc with hc1 | hc2
  · rcases List.mem_append.mp hc1 with hck | hcc
    · exact ⟨bare_not_quote (hk c hck), bare_not_space (hk c hck)⟩
    · have hcol : c = ':' := by simpa using hcc
      subst hcol
      exact ⟨by decide, by decide⟩
  · exact ⟨rootVal_not_quote (hv c hc2), rootVal_not_space (hv c hc2)⟩

/-! ## Claim C2, amended: the rendered filter words -/

/-- `values.join(',')`. -/
def joinComma : List String → String
  | [] => ""
  | [v] => v
  | v :: w :: rest => v ++ "," ++ joinComma (w :: rest)

theorem joinComma_eq_concat : ∀ (p : String) (ps : List String),
    joinComma (p :: ps) = p ++ concatStr (ps.map (fun w => "," ++ w)) := by
  intro p ps
  induction ps generalizing p with
  | nil =>
    show p = p ++ concatStr []
    apply String.ext
    rw [String.data_append]
    simp [concatStr]
  | cons q rest ih =>
    show p ++ "," ++ joinComma (q :: rest) = _
    rw [ih q]
    show p ++ "," ++ (q ++ concatStr (rest.map (fun w => "," ++ w))) =
      p ++ ("," ++ q ++ concatStr (rest.map (fun w => "," ++ w)))
    apply String.ext
    simp only [String.data_append, List.append_assoc]

/-- One rendered word of `buildFilterString` for a non-`keyword` key: the key,
the operator sign, and the comma-joined sanitised values of one
same-operator run. -/
def runWord (fk o : String) (vs : List String) : String :=
  fk ++ operatorToSign o ++ joinComma (vs.map sanitizeString)

/-- The maximal same-operator runs the `forEach` of `buildFilterString` joins
into one word: consecutive constraints are merged only when they share an
`eq`/`neq` operator. -/
def runsOf : List QueryFilter → List (String × List String)
  | [] => []
  | f :: rest =>
    match runsOf rest with
    | [] => [(f.operator, [f.value])]
    | (o, vs) :: rs =>
      if f.operator = o ∧ (o = "eq" ∨ o = "neq") then (o, f.value :: vs) :: rs
      else (f.operator, [f.value]) :: (o, vs) :: rs

/-- The constraints described by a run list. -/
def flatRuns (rs : List (String × List String)) : List QueryFilter :=
  (rs.map (fun r => r.2.map (fun v => ⟨r.1, v⟩))).flatten

theorem runsOf_cons (f : QueryFilter) (rest : List QueryFilter) :
    runsOf (f :: rest) =
      match runsOf rest with
      | [] => [(f.operator, [f.value])]
      | (o, vs) :: rs =>
        if f.operator = o ∧ (o = "eq" ∨ o = "neq") then (o, f.value :: vs) :: rs
        else (f.operator, [f.value]) :: (o, vs) :: rs := rfl

theorem runsOf_cons_nil (f : QueryFilter) {rest : List QueryFilter}
    (hr : runsOf rest = []) : runsOf (f :: rest) = [(f.operator, [f.value])] := by
  rw [runsOf_cons, hr]

theorem runsOf_cons_cons (f : QueryFilter) {rest : List QueryFilter} {o : String}
    {vs : List String} {rs : List (String × List String)}
    (hr : runsOf rest = (o, vs) :: rs) :
    runsOf (f :: rest) =
      if f.operator = o ∧ (o = "eq" ∨ o = "neq") then (o, f.value :: vs) :: rs
      else (f.operator, [f.value]) :: (o, vs) :: rs := by
  rw [runsOf_cons, hr]

theorem runsOf_ne_nil : ∀ {l : List QueryFilter}, l ≠ [] → runsOf l ≠ [] := by
  intro l h
  cases l with
  | nil => exact absurd rfl h
  | cons f rest =>
    cases hr : runsOf rest with
    | nil => rw [runsOf_cons_nil f hr]; simp
    | cons r rs =>
      obtain ⟨o, vs⟩ := r
      rw [runsOf_cons_cons f hr]
      by_cases hc : f.operator = o ∧ (o = "eq" ∨ o = "neq")
      · rw [if_pos hc]; simp
      · rw [if_neg hc]; simp

/-- The runs flatten back to the original constraint list. -/
theorem flatRuns_runsOf : ∀ l : List QueryFilter, flatRuns (runsOf l) = l := by
  intro l
  induction l with
  | nil => rfl
  | cons f rest ih =>
    cases hr : runsOf rest with
    | nil =>
      have hrest : rest = [] := by
        by_contra hne
        exact runsOf_ne_nil hne hr
      subst hrest
      rw [runsOf_cons_nil f hr]
      show [(⟨f.operator, f.value⟩ : QueryFilter)] ++ [] = [f]
      simp
    | cons r rs =>
      obtain ⟨o, vs⟩ := r
      rw [hr] at ih
      rw [runsOf_cons_cons f hr]
      by_cases hc : f.operator = o ∧ (o = "eq" ∨ o = "neq")
      · rw [if_pos hc]
        show (⟨o, f.value⟩ : QueryFilter) :: (vs.map (fun v => ⟨o, v⟩) ++ flatRuns rs) =
          f :: rest
        have hf : (⟨o, f.value⟩ : QueryFilter) = f := by
          cases f with
          | mk fo fv => simp_all
        rw [hf]
        have hsame : vs.map (fun v => (⟨o, v⟩ : QueryFilter)) ++ flatRuns rs =
            flatRuns ((o, vs) :: rs) := rfl
        rw [hsame, ih]
      · rw [if_neg hc]
        show (⟨f.operator, f.value⟩ : QueryFilter) :: flatRuns ((o, vs) :: rs) = f :: rest
        rw [ih]

/-- Each run holds at least one value. -/
theorem runsOf_run_ne_nil : ∀ (l : List QueryFilter) (r : String × List String),
    r ∈ runsOf l → r.2 ≠ [] := by
  intro l
  induction l with
  | nil => intro r hr; cases hr
  | cons f rest ih =>
    intro r hr
    cases hrest : runsOf rest with
    | nil =>
      rw [runsOf_cons_nil f hrest] at hr
      rcases List.mem_singleton.mp hr with rfl
      simp
    | cons r0 rs =>
      obtain ⟨o, vs⟩ := r0
      rw [runsOf_cons_cons f hrest] at hr
      by_cases hc : f.operator = o ∧ (o = "eq" ∨ o = "neq")
      · rw [if_pos hc] at hr
        rcases List.mem_cons.mp hr with rfl | hmem
        · simp
        · exact ih r (hrest ▸ List.mem_cons_of_mem _ hmem)
      · rw [if_neg hc] at hr
        rcases List.mem_cons.mp hr with rfl | hmem
        · simp
        · exact ih r (hrest ▸ hmem)

/-- All run values come from the flattened constraints. -/
theorem runsOf_value_mem : ∀ (l : List QueryFilter) (r : String × List String),
    r ∈ runsOf l → ∀ v ∈ r.2, ∃ f ∈ l, f.value = v ∧ f.operator = r.1 := by
  intro l
  induction l with
  | nil => intro r hr; cases hr
  | cons f rest ih =>
    intro r hr v hv
    cases hrest : runsOf rest with
    | nil =>
      rw [runsOf_cons_nil f hrest] at hr
      rcases List.mem_singleton.mp hr with rfl
      rcases List.mem_singleton.mp hv with rfl
      exact ⟨f, List.mem_cons_self _ _, rfl, rfl⟩
    | cons r0 rs =>
      obtain ⟨o, vs⟩ := r0
      rw [runsOf_cons_cons f hrest] at hr
      by_cases hc : f.operator = o ∧ (o = "eq" ∨ o = "neq")
      · rw [if_pos hc] at hr
        rcases List.mem_cons.mp hr with rfl | hmem
        · rcases List.mem_cons.mp hv with rfl | hv2
          · exact ⟨f, List.mem_cons_self _ _, rfl, hc.1⟩
          · rcases ih (o, vs) (hrest ▸ List.mem_cons_self _ _) v hv2 with ⟨g, hg, hgv, hgo⟩
            exact ⟨g, List.mem_cons_of_mem _ hg, hgv, hgo⟩
        · rcases ih r (hrest ▸ List.mem_cons_of_mem _ hmem) v hv with ⟨g, hg, hgv, hgo⟩
          exact ⟨g, List.mem_cons_of_mem _ hg, hgv, hgo⟩
      · rw [if_neg hc] at hr
        rcases List.mem_cons.mp hr with rfl | hmem
        · rcases List.mem_singleton.mp hv with rfl
          exact ⟨f, List.mem_cons_self _ _, rfl, rfl⟩
        · rcases ih r (hrest ▸ hmem) v hv with ⟨g, hg, hgv, hgo⟩
          exact ⟨g, List.mem_cons_of_mem _ hg, hgv, hgo⟩

/-- Run operators come from the flattened constraints. -/
theorem runsOf_op_mem : ∀ (l : List QueryFilter) (r : String × List String),
    r ∈ runsOf l → ∃ f ∈ l, f.operator = r.1 := by
  intro l r hr
  cases hv : r.2 with
  | nil => exact absurd hv (runsOf_run_ne_nil l r hr)
  | cons v vt =>
    rcases runsOf_value_mem l r hr v (hv ▸ List.mem_cons_self _ _) with ⟨f, hf, _, hfo⟩
    exact ⟨f, hf, hfo⟩

theorem str_empty_append (s : String) : "" ++ s = s := by
  apply String.ext
  rw [String.data_append]
  rfl

theorem runsOf_chain : ∀ l : List QueryFilter,
    List.Chain' (fun r1 r2 => ¬(r1.1 = r2.1 ∧ (r2.1 = "eq" ∨ r2.1 = "neq"))) (runsOf l) := by
  intro l
  induction l with
  | nil => exact List.chain'_nil
  | cons f rest ih =>
    cases hr : runsOf rest with
    | nil => rw [runsOf_cons_nil f hr]; exact List.chain'_singleton _
    | cons r0 rs =>
      obtain ⟨o, vs⟩ := r0
      rw [hr] at ih
      rw [runsOf_cons_cons f hr]
      by_cases hc : f.operator = o ∧ (o = "eq" ∨ o = "neq")
      · rw [if_pos hc]
        cases rs with
        | nil => exact List.chain'_singleton _
        | cons r2 rs2 =>
          rcases List.chain'_cons.mp ih with ⟨hrel, hch⟩
          exact List.chain'_cons.mpr ⟨hrel, hch⟩
      · rw [if_neg hc]
        exact List.chain'_cons.mpr ⟨hc, ih⟩

theorem runsOf_non_eq_singleton : ∀ (l : List QueryFilter) (r : String × List String),
    r ∈ runsOf l → ¬(r.1 = "eq" ∨ r.1 = "neq") → ∃ v, r.2 = [v] := by
  intro l
  induction l with
  | nil => intro r hr; cases hr
  | cons f rest ih =>
    intro r hr hno
    cases hrest : runsOf rest with
    | nil =>
      rw [runsOf_cons_nil f hrest] at hr
      rcases List.mem_singleton.mp hr with rfl
      exact ⟨f.value, rfl⟩
    | cons r0 rs =>
      obtain ⟨o, vs⟩ := r0
      rw [runsOf_cons_cons f hrest] at hr
      by_cases hc : f.operator = o ∧ (o = "eq" ∨ o = "neq")
      · rw [if_pos hc] at hr
        rcases List.mem_cons.mp hr with rfl | hmem
        · exact absurd hc.2 hno
        · exact ih r (hrest ▸ List.mem_cons_of_mem _ hmem) hno
      · rw [if_neg hc] at hr
        rcases List.mem_cons.mp hr with rfl | hmem
        · exact ⟨f.value, rfl⟩
        · exact ih r (hrest ▸ hmem) hno

theorem bfsGo_cons (fk d : String) (prev : Option QueryFilter) (qf : QueryFilter)
    (rest : List QueryFilter) :
    buildFilterStringGo fk d prev (qf :: rest) =
      buildFilterStringStep fk d prev qf ++ buildFilterStringGo fk d (some qf) rest := rfl

theorem bfsStep_some (fk d : String) (p qf : QueryFilter) :
    buildFilterStringStep fk d (some p) qf =
      if (qf.operator = "eq" && p.operator = "eq") ||
          (qf.operator = "neq" && p.operator = "neq") then
        d ++ sanitizeString qf.value
      else if fk = "keyword" then d ++ sanitizeString qf.value
      else " " ++ fk ++ operatorToSign qf.operator ++ sanitizeString qf.value := rfl

theorem bfsStep_none (fk d : String) (qf : QueryFilter) :
    buildFilterStringStep fk d none qf =
      if fk = "keyword" then d ++ sanitizeString qf.value
      else " " ++ fk ++ operatorToSign qf.operator ++ sanitizeString qf.value := rfl

theorem bfsStep_op_only (fk d : String) (p p' : QueryFilter)
    (hop : p.operator = p'.operator) (qf : QueryFilter) :
    buildFilterStringStep fk d (some p) qf = buildFilterStringStep fk d (some p') qf := by
  rw [bfsStep_some, bfsStep_some, hop]

theorem bfsGo_prev_op (fk d : String) :
    ∀ (l : List QueryFilter) (p p' : QueryFilter), p.operator = p'.operator →
      buildFilterStringGo fk d (some p) l = buildFilterStringGo fk d (some p') l := by
  intro l
  induction l with
  | nil => intro p p' _; rfl
  | cons qf rest _ =>
    intro p p' h
    rw [bfsGo_cons, bfsGo_cons, bfsStep_op_only fk d p p' h qf]

/-- Within one `eq`/`neq` run, every further value is appended with the
delimiter. -/
theorem bfsGo_run (fk d : String) (o : String) (ho : o = "eq" ∨ o = "neq") :
    ∀ (vs : List String) (w : String) (rest : List QueryFilter),
    buildFilterStringGo fk d (some ⟨o, w⟩) (vs.map (fun v => ⟨o, v⟩) ++ rest) =
      concatStr (vs.map (fun v => d ++ sanitizeString v)) ++
        buildFilterStringGo fk d (some ⟨o, w⟩) rest := by
  intro vs
  induction vs with
  | nil =>
    intro w rest
    show buildFilterStringGo fk d (some ⟨o, w⟩) rest = "" ++ _
    rw [str_empty_append]
  | cons v vt ih =>
    intro w rest
    rw [List.map_cons, List.cons_append, bfsGo_cons]
    have hstep : buildFilterStringStep fk d (some ⟨o, w⟩) ⟨o, v⟩ =
        d ++ sanitizeString v := by
      rw [bfsStep_some]
      rcases ho with rfl | rfl
      · rw [if_pos (by simp)]
      · rw [if_pos (by simp)]
    rw [hstep, bfsGo_prev_op fk d _ ⟨o, v⟩ ⟨o, w⟩ rfl, ih w rest]
    apply String.ext
    simp only [List.map_cons, concatStr, String.data_append, List.append_assoc]

/-- At a run boundary the previous element does not trigger the append
branch, so rendering restarts as at index 0. -/
theorem bfsGo_fresh (fk d : String) (p f : QueryFilter) (rest : List QueryFilter)
    (hnc : ¬((f.operator = "eq" ∧ p.operator = "eq") ∨
      (f.operator = "neq" ∧ p.operator = "neq"))) :
    buildFilterStringGo fk d (some p) (f :: rest) =
      buildFilterStringGo fk d none (f :: rest) := by
  rw [bfsGo_cons, bfsGo_cons]
  congr 1
  rw [bfsStep_some, bfsStep_none,
    if_neg (by simp only [Bool.or_eq_true, Bool.and_eq_true, decide_eq_true_eq]; exact hnc)]

/-- `buildFilterString` for a non-`keyword` key renders exactly one
space-prefixed word per same-operator run. -/
theorem bfsGo_runs (fk : String) (hfk : fk ≠ "keyword") : ∀ rs : List (String × List String),
    (∀ r ∈ rs, r.2 ≠ []) →
    List.Chain' (fun r1 r2 => ¬(r1.1 = r2.1 ∧ (r2.1 = "eq" ∨ r2.1 = "neq"))) rs →
    (∀ r ∈ rs, ¬(r.1 = "eq" ∨ r.1 = "neq") → ∃ v, r.2 = [v]) →
    buildFilterStringGo fk "," none (flatRuns rs) =
      concatStr (rs.map (fun r => " " ++ runWord fk r.1 r.2)) := by
  intro rs
  induction rs with
  | nil => intro _ _ _; rfl
  | cons r0 rs' ih =>
    intro hne hch hsing
    obtain ⟨o, vs⟩ := r0
    have hvne : vs ≠ [] := hne (o, vs) (List.mem_cons_self _ _)
    cases vs with
    | nil => exact absurd rfl hvne
    | cons v vt =>
      have hfl : flatRuns ((o, v :: vt) :: rs') =
          (⟨o, v⟩ : QueryFilter) :: (vt.map (fun x => ⟨o, x⟩) ++ flatRuns rs') := rfl
      rw [hfl, bfsGo_cons]
      have hstep : buildFilterStringStep fk "," none ⟨o, v⟩ =
          " " ++ fk ++ operatorToSign o ++ sanitizeString v := by
        rw [bfsStep_none, if_neg hfk]
      have hbound : buildFilterStringGo fk "," (some ⟨o, v⟩) (flatRuns rs') =
          buildFilterStringGo fk "," none (flatRuns rs') := by
        cases hrs : rs' with
        | nil => rfl
        | cons r2 rs2 =>
          obtain ⟨o2, vs2⟩ := r2
          have hv2 : vs2 ≠ [] := by
            apply hne (o2, vs2)
            rw [hrs]
            exact List.mem_cons_of_mem _ (List.mem_cons_self _ _)
          cases vs2 with
          | nil => exact absurd rfl hv2
          | cons v2 vt2 =>
            have hfl2 : flatRuns ((o2, v2 :: vt2) :: rs2) =
                (⟨o2, v2⟩ : QueryFilter) :: (vt2.map (fun x => ⟨o2, x⟩) ++ flatRuns rs2) := rfl
            have hrel : ¬(o = o2 ∧ (o2 = "eq" ∨ o2 = "neq")) := by
              have := List.chain'_cons.mp (hrs ▸ hch)
              exact this.1
            rw [hfl2]
            apply bfsGo_fresh
            intro hcont
            rcases hcont with ⟨h1, h2⟩ | ⟨h1, h2⟩
            · exact hrel ⟨h2.trans h1.symm, Or.inl h1⟩
            · exact hrel ⟨h2.trans h1.symm, Or.inr h1⟩
      have hrest := ih (fun r hr => hne r (List.mem_cons_of_mem _ hr))
        (List.chain'_cons'.mp hch).2
        (fun r hr => hsing r (List.mem_cons_of_mem _ hr))
      by_cases ho : o = "eq" ∨ o = "neq"
      · rw [bfsGo_run fk "," o ho vt v (flatRuns rs'), hbound, hrest, hstep]
        show _ = " " ++ (fk ++ operatorToSign o ++ joinComma ((v :: vt).map sanitizeString)) ++
          concatStr (rs'.map (fun r => " " ++ runWord fk r.1 r.2))
        rw [List.map_cons, joinComma_eq_concat, List.map_map]
        apply String.ext
        simp only [String.data_append, List.append_assoc, Function.comp_def]
      · have hsg := hsing (o, v :: vt) (List.mem_cons_self _ _) ho
        rcases hsg with ⟨v0, hv0⟩
        have hvt : vt = [] := by
          cases vt with
          | nil => rfl
          | cons a b => simp at hv0
        subst hvt
        show buildFilterStringStep fk "," none ⟨o, v⟩ ++
            buildFilterStringGo fk "," (some ⟨o, v⟩) ([] ++ flatRuns rs') = _
        rw [List.nil_append, hbound, hrest, hstep]
        show _ = " " ++ (fk ++ operatorToSign o ++ joinComma [sanitizeString v]) ++
          concatStr (rs'.map (fun r => " " ++ runWord fk r.1 r.2))
        apply String.ext
        simp only [String.data_append, List.append_assoc, joinComma]

theorem bfs_runs (fk : String) (hfk : fk ≠ "keyword") (qfs : List QueryFilter) :
    buildFilterString fk qfs =
      concatStr ((runsOf qfs).map (fun r => " " ++ runWord fk r.1 r.2)) := by
  unfold buildFilterString
  rw [if_neg hfk]
  conv_lhs => rw [show qfs = flatRuns (runsOf qfs) from (flatRuns_runsOf qfs).symm]
  exact bfsGo_runs fk hfk (runsOf qfs) (runsOf_run_ne_nil qfs) (runsOf_chain qfs)
    (runsOf_non_eq_singleton qfs)

/-- `buildFilterString` for the `keyword` key renders one space-prefixed
sanitised value per constraint, regardless of operators. -/
theorem bfs_keyword_go : ∀ (qfs : List QueryFilter) (prev : Option QueryFilter),
    buildFilterStringGo "keyword" " " prev qfs =
      concatStr (qfs.map (fun f => " " ++ sanitizeString f.value)) := by
  intro qfs
  induction qfs with
  | nil => intro _; rfl
  | cons f rest ih =>
    intro prev
    rw [bfsGo_cons]
    have hstep : buildFilterStringStep "keyword" " " prev f =
        " " ++ sanitizeString f.value := by
      cases prev with
      | none => rw [bfsStep_none, if_pos rfl]
      | some p =>
        rw [bfsStep_some]
        by_cases hc : ((f.operator = "eq" && p.operator = "eq") ||
            (f.operator = "neq" && p.operator = "neq")) = true
        · rw [if_pos hc]
        · rw [if_neg hc, if_pos rfl]
    rw [hstep, ih (some f)]
    rfl

theorem bfs_keyword (qfs : List QueryFilter) :
    buildFilterString "keyword" qfs =
      concatStr (qfs.map (fun f => " " ++ sanitizeString f.value)) := by
  unfold buildFilterString
  rw [if_pos rfl]
  exact bfs_keyword_go qfs none

theorem scanWord_comma_chunk {l : List Char} (h : scanWord l false = some false) :
    scanWord (',' :: l) false = some false := by
  show (if ',' = ' ' && !false then none
        else scanWord l (if ',' = Char.ofNat 34 then !false else false)) = some false
  rw [if_neg (by decide), if_neg (by decide)]
  exact h

theorem scanWord_joinComma {vs : List String} (hvs : vs ≠ [])
    (h : ∀ v ∈ vs, scanWord v.data false = some false) :
    scanWord (joinComma vs).data false = some false := by
  cases vs with
  | nil => exact absurd rfl hvs
  | cons p ps =>
    rw [joinComma_eq_concat, String.data_append]
    rw [scanWord_append _ _ false false (h p (List.mem_cons_self _ _))]
    rw [concatStr_data, List.map_map]
    apply scanWord_chunks
    intro cdata hcd
    rcases List.mem_map.mp hcd with ⟨w, hw, rfl⟩
    show scanWord (("," ++ w).data) false = some false
    rw [String.data_append]
    exact scanWord_comma_chunk (h w (List.mem_cons_of_mem _ hw))

theorem scanWord_sign {o : String} (ho : o ∈ ["eq", "lt", "lte", "gt", "gte", "neq"]) :
    scanWord (operatorToSign o).data false = some false := by
  simp only [List.mem_cons, List.not_mem_nil, or_false] at ho
  rcases ho with rfl | rfl | rfl | rfl | rfl | rfl <;> decide

theorem scanWord_runWord {fk o : String} {vs : List String}
    (hfk : ∀ c ∈ fk.data, isBareChar c = true)
    (ho : o ∈ ["eq", "lt", "lte", "gt", "gte", "neq"])
    (hvs : vs ≠ [])
    (hq : ∀ v ∈ vs, ∀ c ∈ v.data, c ≠ Char.ofNat 34) :
    scanWord (runWord fk o vs).data false = some false := by
  unfold runWord
  rw [String.data_append, String.data_append, List.append_assoc]
  rw [scanWord_append fk.data _ false false (scanWord_no_quote_space _ _
    (fun c hc => ⟨bare_not_quote (hfk c hc), bare_not_space (hfk c hc)⟩))]
  rw [scanWord_append (operatorToSign o).data _ false false (scanWord_sign ho)]
  apply scanWord_joinComma
  · intro hnil
    exact hvs (List.map_eq_nil_iff.mp hnil)
  · intro v hv
    rcases List.mem_map.mp hv with ⟨v0, hv0, rfl⟩
    exact scanWord_sanitize (hq v0 hv0)

/-! ## Claim C2, amended: re-parsing the rendered words -/

theorem parseAtom_bare_chunk {vd : List Char} (hne : vd ≠ [])
    (hbare : ∀ c ∈ vd, isBareChar c = true)
    {r : List Char} (hr : r = [] ∨ r.head? = some ',') :
    parseAtom (vd ++ r) = some (⟨vd⟩, r) := by
  cases vd with
  | nil => exact absurd rfl hne
  | cons c t =>
    rw [List.cons_append, parseAtom_cons,
      if_neg (bare_not_quote (hbare c (List.mem_cons_self _ _)))]
    have htw : (c :: (t ++ r)).takeWhile isBareChar = c :: t := by
      rw [show c :: (t ++ r) = (c :: t) ++ r from rfl,
        takeWhile_append_of_all isBareChar (c :: t) r hbare]
      rcases hr with rfl | hr2
      · simp
      · cases r with
        | nil => simp
        | cons c2 r2 =>
          have hc2 : c2 = ',' := by simpa using hr2
          subst hc2
          rw [List.takeWhile_cons, if_neg (by decide)]
          exact List.append_nil _
    have hdw : (c :: (t ++ r)).dropWhile isBareChar = r := by
      rw [show c :: (t ++ r) = (c :: t) ++ r from rfl,
        dropWhile_append_of_all isBareChar (c :: t) r hbare]
      rcases hr with rfl | hr2
      · rfl
      · cases r with
        | nil => rfl
        | cons c2 r2 =>
          have hc2 : c2 = ',' := by simpa using hr2
          subst hc2
          rw [List.dropWhile_cons, if_neg (by decide)]
    rw [htw, hdw, if_neg (by simp)]

theorem parseAtom_quoted_chunk {vd : List Char} (hne : vd ≠ [])
    (hq : ∀ c ∈ vd, c ≠ Char.ofNat 34) (r : List Char) :
    parseAtom ((Char.ofNat 34 :: (vd ++ [Char.ofNat 34])) ++ r) = some (⟨vd⟩, r) := by
  rw [List.cons_append, parseAtom_cons, if_pos rfl]
  have hres : (vd ++ [Char.ofNat 34]) ++ r = vd ++ (Char.ofNat 34 :: r) := by simp
  rw [hres]
  have hdr : (vd ++ (Char.ofNat 34 :: r)).dropWhile (fun x => x != Char.ofNat 34) =
      Char.ofNat 34 :: r := by
    rw [dropWhile_append_of_all _ vd _ (fun c hc => by simpa using hq c hc)]
    rw [List.dropWhile_cons, if_neg (by simp)]
  rw [hdr]
  show (if (vd ++ (Char.ofNat 34 :: r)).takeWhile (fun x => x != Char.ofNat 34) = []
      then none
      else some ((⟨(vd ++ (Char.ofNat 34 :: r)).takeWhile
        (fun x => x != Char.ofNat 34)⟩ : String), r)) =
    some ((⟨vd⟩ : String), r)
  have htk : (vd ++ (Char.ofNat 34 :: r)).takeWhile (fun x => x != Char.ofNat 34) = vd := by
    rw [takeWhile_append_of_all _ vd _ (fun c hc => by simpa using hq c hc)]
    rw [List.takeWhile_cons, if_neg (by simp)]
    exact List.append_nil _
  rw [htk, if_neg hne]

theorem parseAtom_sanitized {v : String} (hne : v.data ≠ [])
    (hq : ∀ c ∈ v.data, c ≠ Char.ofNat 34) (hcm : ∀ c ∈ v.data, c ≠ ',')
    {r : List Char} (hr : r = [] ∨ r.head? = some ',') :
    parseAtom ((sanitizeString v).data ++ r) = some (v, r) := by
  cases ha : v.data.any (fun c => !isSanitizeAllowed c) with
  | false =>
    rw [sanitizeString_bare ha]
    have hbare : ∀ c ∈ v.data, isBareChar c = true := fun c hc =>
      isBareChar_of_allowed (by simpa using List.any_eq_false.mp ha c hc) (hq c hc) (hcm c hc)
    have h := parseAtom_bare_chunk hne hbare hr
    rwa [show (⟨v.data⟩ : String) = v from rfl] at h
  | true =>
    rw [sanitizeString_quoted ha, quoted_data]
    have h := parseAtom_quoted_chunk hne hq r
    rwa [show (⟨v.data⟩ : String) = v from rfl] at h

theorem parseValueListGo_succ (n : Nat) (s : List Char) :
    parseValueListGo (n + 1) s =
      match parseAtom s with
      | none => none
      | some (v, rest) =>
        if rest = [] then some [v]
        else if rest.head? = some ',' then
          match parseValueListGo n rest.tail with
          | some vs => some (v :: vs)
          | none => none
        else none := rfl

/-- A sanitised value with at least one character. -/
theorem sanitize_length_pos {v : String} (hne : v.data ≠ []) :
    1 ≤ (sanitizeString v).data.length := by
  cases ha : v.data.any (fun c => !isSanitizeAllowed c) with
  | false =>
    rw [sanitizeString_bare ha]
    exact List.length_pos.mpr hne
  | true =>
    rw [sanitizeString_quoted ha, quoted_data]
    simp

theorem parseValueListGo_sanitized : ∀ (vs : List String) (fuel : Nat),
    vs ≠ [] →
    (∀ v ∈ vs, v.data ≠ [] ∧ (∀ c ∈ v.data, c ≠ Char.ofNat 34) ∧
      (∀ c ∈ v.data, c ≠ ',')) →
    (joinComma (vs.map sanitizeString)).data.length < fuel →
    parseValueListGo fuel (joinComma (vs.map sanitizeString)).data = some vs := by
  intro vs
  induction vs with
  | nil => intro fuel h _ _; exact absurd rfl h
  | cons v vt ih =>
    intro fuel _ hwf hlen
    obtain ⟨hne, hq, hcm⟩ := hwf v (List.mem_cons_self _ _)
    cases fuel with
    | zero => exact absurd hlen (by omega)
    | succ n =>
      cases vt with
      | nil =>
        have hJ : (joinComma ([v].map sanitizeString)).data =
            (sanitizeString v).data ++ ([] : List Char) := (List.append_nil _).symm
        rw [parseValueListGo_succ, hJ, parseAtom_sanitized hne hq hcm (Or.inl rfl)]
        rfl
      | cons v2 vt2 =>
        have hJ : (joinComma ((v :: v2 :: vt2).map sanitizeString)).data =
            (sanitizeString v).data ++
              (',' :: (joinComma ((v2 :: vt2).map sanitizeString)).data) := by
          show (sanitizeString v ++ "," ++
            joinComma ((v2 :: vt2).map sanitizeString)).data = _
          rw [String.data_append, String.data_append, List.append_assoc]
          rfl
        have hsan := sanitize_length_pos hne
        have hlen2 : (joinComma ((v2 :: vt2).map sanitizeString)).data.length < n := by
          rw [hJ, List.length_append, List.length_cons] at hlen
          omega
        rw [parseValueListGo_succ, hJ, parseAtom_sanitized
          (r := ',' :: (joinComma ((v2 :: vt2).map sanitizeString)).data)
          hne hq hcm (Or.inr rfl)]
        show (if (',' :: (joinComma ((v2 :: vt2).map sanitizeString)).data) = []
            then some [v]
            else if (',' :: (joinComma ((v2 :: vt2).map sanitizeString)).data).head? =
                some ',' then
              match parseValueListGo n
                (',' :: (joinComma ((v2 :: vt2).map sanitizeString)).data).tail with
              | some vs => some (v :: vs)
              | none => none
            else none) = some (v :: v2 :: vt2)
        rw [if_neg (by simp),
          if_pos (show (',' :: (joinComma ((v2 :: vt2).map
            sanitizeString)).data).head? = some ',' from rfl)]
        rw [show (',' :: (joinComma ((v2 :: vt2).map sanitizeString)).data).tail =
          (joinComma ((v2 :: vt2).map sanitizeString)).data from rfl]
        rw [ih n (by simp) (fun x hx => hwf x (List.mem_cons_of_mem _ hx)) hlen2]

theorem parseValueList_sanitized {vs : List String} (hvs : vs ≠ [])
    (hwf : ∀ v ∈ vs, v.data ≠ [] ∧ (∀ c ∈ v.data, c ≠ Char.ofNat 34) ∧
      (∀ c ∈ v.data, c ≠ ',')) :
    parseValueList (joinComma (vs.map sanitizeString)).data = some vs :=
  parseValueListGo_sanitized vs _ hvs hwf (by omega)

theorem parseWord_cons (c : Char) (rest : List Char) :
    parseWord (c :: rest) =
      if c = Char.ofNat 34 then
        match rest.dropWhile (fun x => x != Char.ofNat 34) with
        | [_] =>
          if rest.takeWhile (fun x => x != Char.ofNat 34) = [] then
            .error "empty quoted value"
          else .ok (.kw ⟨rest.takeWhile (fun x => x != Char.ofNat 34)⟩)
        | _ => .error "malformed quoted word"
      else
        if (c :: rest).takeWhile isBareChar = [] then .error "unexpected character"
        else
          match (c :: rest).dropWhile isBareChar with
          | [] => .ok (.kw ⟨(c :: rest).takeWhile isBareChar⟩)
          | _ :: _ =>
            match lexOp ((c :: rest).dropWhile isBareChar) with
            | (none, _) => .error "unexpected character after word"
            | (some op, rest4) =>
              if (⟨(c :: rest).takeWhile isBareChar⟩ : String) ∈ rootKeysList then
                if op = "eq" then
                  if rest4.takeWhile isRootValChar ≠ [] ∧
                      rest4.dropWhile isRootValChar = [] then
                    .ok (.root ⟨(c :: rest).takeWhile isBareChar⟩
                      ⟨rest4.takeWhile isRootValChar⟩)
                  else .error "malformed root value"
                else .error "root keys take only a colon"
              else if (⟨(c :: rest).takeWhile isBareChar⟩ : String) ∈ filterKeysList then
                match parseValueList rest4 with
                | some vals => .ok (.filt ⟨(c :: rest).takeWhile isBareChar⟩ op vals)
                | none => .error "malformed value list"
              else .error "unknown key" := rfl

/-- A sanitised wf value re-parses as one keyword word. -/
theorem parseWord_sanitized_kw {v : String} (hne : v.data ≠ [])
    (hq : ∀ c ∈ v.data, c ≠ Char.ofNat 34) (hcm : ∀ c ∈ v.data, c ≠ ',') :
    parseWord (sanitizeString v).data = Except.ok (.kw v) := by
  cases ha : v.data.any (fun c => !isSanitizeAllowed c) with
  | false =>
    rw [sanitizeString_bare ha]
    have hbare : ∀ c ∈ v.data, isBareChar c = true := fun c hc =>
      isBareChar_of_allowed (by simpa using List.any_eq_false.mp ha c hc) (hq c hc) (hcm c hc)
    cases hv : v.data with
    | nil => exact absurd hv hne
    | cons c t =>
      have hbare' : ∀ x ∈ c :: t, isBareChar x = true := hv ▸ hbare
      rw [parseWord_cons, if_neg (bare_not_quote (hbare' c (List.mem_cons_self _ _)))]
      rw [takeWhile_eq_self_of_all isBareChar (c :: t) hbare']
      rw [if_neg (by simp)]
      rw [dropWhile_eq_nil_of_all isBareChar (c :: t) hbare']
      show Except.ok (Token.kw ⟨c :: t⟩) = Except.ok (Token.kw v)
      rw [← hv]
  | true =>
    rw [sanitizeString_quoted ha, quoted_data]
    rw [parseWord_cons, if_pos rfl]
    have hdr : (v.data ++ [Char.ofNat 34]).dropWhile (fun x => x != Char.ofNat 34) =
        [Char.ofNat 34] := by
      rw [dropWhile_append_of_all _ v.data _ (fun c hc => by simpa using hq c hc)]
      rw [List.dropWhile_cons, if_neg (by simp)]
    rw [hdr]
    have htk : (v.data ++ [Char.ofNat 34]).takeWhile (fun x => x != Char.ofNat 34) =
        v.data := by
      rw [takeWhile_append_of_all _ v.data _ (fun c hc => by simpa using hq c hc)]
      rw [List.takeWhile_cons, if_neg (by simp)]
      exact List.append_nil _
    show (if (v.data ++ [Char.ofNat 34]).takeWhile (fun x => x != Char.ofNat 34) = []
        then Except.error "empty quoted value"
        else Except.ok (Token.kw
          ⟨(v.data ++ [Char.ofNat 34]).takeWhile (fun x => x != Char.ofNat 34)⟩)) =
      Except.ok (Token.kw v)
    rw [htk, if_neg hne]

/-- A rendered root assignment re-parses as the same root token. -/
theorem parseWord_root {k v : String}
    (hkmem : k ∈ rootKeysList) (hkne : k.data ≠ [])
    (hkb : ∀ c ∈ k.data, isBareChar c = true)
    (hvne : v.data ≠ []) (hv : ∀ c ∈ v.data, isRootValChar c = true) :
    parseWord (k ++ ":" ++ v).data = Except.ok (.root k v) := by
  have hdata : (k ++ ":" ++ v).data = k.data ++ (':' :: v.data) := by
    rw [String.data_append, String.data_append, List.append_assoc]
    rfl
  cases hk : k.data with
  | nil => exact absurd hk hkne
  | cons c t =>
    have hkb' : ∀ x ∈ c :: t, isBareChar x = true := hk ▸ hkb
    rw [hdata, hk, List.cons_append, parseWord_cons,
      if_neg (bare_not_quote (hkb' c (List.mem_cons_self _ _)))]
    have htw : (c :: (t ++ (':' :: v.data))).takeWhile isBareChar = c :: t := by
      rw [show c :: (t ++ (':' :: v.data)) = (c :: t) ++ (':' :: v.data) from rfl,
        takeWhile_append_of_all isBareChar _ _ hkb', List.takeWhile_cons,
        if_neg (by decide)]
      exact List.append_nil _
    have hdw : (c :: (t ++ (':' :: v.data))).dropWhile isBareChar = ':' :: v.data := by
      rw [show c :: (t ++ (':' :: v.data)) = (c :: t) ++ (':' :: v.data) from rfl,
        dropWhile_append_of_all isBareChar _ _ hkb', List.dropWhile_cons,
        if_neg (by decide)]
    rw [htw, if_neg (by simp), hdw]
    have hlex : lexOp (':' :: v.data) = (some "eq", v.data) := by
      simp [lexOp]
    rw [hlex]
    have hkeq : (⟨c :: t⟩ : String) = k := by rw [← hk]
    rw [hkeq]
    show (if k ∈ rootKeysList then
        if "eq" = "eq" then
          if v.data.takeWhile isRootValChar ≠ [] ∧ v.data.dropWhile isRootValChar = [] then
            Except.ok (Token.root k ⟨v.data.takeWhile isRootValChar⟩)
          else Except.error "malformed root value"
        else Except.error "root keys take only a colon"
      else if k ∈ filterKeysList then
        match parseValueList v.data with
        | some vals => Except.ok (Token.filt k "eq" vals)
        | none => Except.error "malformed value list"
      else Except.error "unknown key") = Except.ok (Token.root k v)
    rw [if_pos hkmem, if_pos rfl,
      takeWhile_eq_self_of_all isRootValChar v.data hv,
      dropWhile_eq_nil_of_all isRootValChar v.data hv,
      if_pos ⟨hvne, rfl⟩]

theorem signHead {o : String} (ho : o ∈ ["eq", "lt", "lte", "gt", "gte", "neq"]) :
    ∃ sc srest, (operatorToSign o).data = sc :: srest ∧ isBareChar sc = false := by
  simp only [List.mem_cons, List.not_mem_nil, or_false] at ho
  rcases ho with rfl | rfl | rfl | rfl | rfl | rfl
  · exact ⟨':', [], by decide, by decide⟩
  · exact ⟨'<', [], by decide, by decide⟩
  · exact ⟨'<', ['='], by decide, by decide⟩
  · exact ⟨'>', [], by decide, by decide⟩
  · exact ⟨'>', ['='], by decide, by decide⟩
  · exact ⟨'!', ['='], by decide, by decide⟩

theorem lexOp_sign {o : String} (ho : o ∈ ["eq", "lt", "lte", "gt", "gte", "neq"])
    {hc : Char} {hrest : List Char} (hne : hc ≠ '=') :
    lexOp ((operatorToSign o).data ++ (hc :: hrest)) = (some o, hc :: hrest) := by
  simp only [List.mem_cons, List.not_mem_nil, or_false] at ho
  rcases ho with rfl | rfl | rfl | rfl | rfl | rfl
  · rfl
  · show (if hc = '=' then ((some "lte" : Option String), hrest)
        else (some "lt", hc :: hrest)) = (some "lt", hc :: hrest)
    rw [if_neg hne]
  · rfl
  · show (if hc = '=' then ((some "gte" : Option String), hrest)
        else (some "gt", hc :: hrest)) = (some "gt", hc :: hrest)
    rw [if_neg hne]
  · rfl
  · rfl

theorem joinComma_sanitized_head {vs : List String} (hvs : vs ≠ [])
    (hwf : ∀ v ∈ vs, v.data ≠ []) :
    ∃ hc hrest, (joinComma (vs.map sanitizeString)).data = hc :: hrest ∧ hc ≠ '=' := by
  cases vs with
  | nil => exact absurd rfl hvs
  | cons v vt =>
    have hne := hwf v (List.mem_cons_self _ _)
    have hJ : (joinComma ((v :: vt).map sanitizeString)).data =
        (sanitizeString v).data ++
          (concatStr ((vt.map sanitizeString).map (fun w => "," ++ w))).data := by
      rw [List.map_cons, joinComma_eq_concat, String.data_append]
    cases ha : v.data.any (fun c => !isSanitizeAllowed c) with
    | false =>
      cases hv : v.data with
      | nil => exact absurd hv hne
      | cons c t =>
        have hall : isSanitizeAllowed c = true := by
          have := List.any_eq_false.mp ha c (hv ▸ List.mem_cons_self _ _)
          simpa using this
        refine ⟨c, t ++ (concatStr ((vt.map sanitizeString).map
          (fun w => "," ++ w))).data, ?_, ?_⟩
        · rw [hJ, sanitizeString_bare ha, hv, List.cons_append]
        · intro hce
          rw [hce] at hall
          exact absurd hall (by decide)
    | true =>
      refine ⟨Char.ofNat 34, (v.data ++ [Char.ofNat 34]) ++
        (concatStr ((vt.map sanitizeString).map (fun w => "," ++ w))).data,
        ?_, by decide⟩
      rw [hJ, sanitizeString_quoted ha, quoted_data, List.cons_append]

/-- A rendered run word re-parses as one filter token carrying the same key,
operator and value list. -/
theorem parseWord_filt {fk o : String} {vs : List String}
    (hfkmem : fk ∈ filterKeysList) (hfknr : fk ∉ rootKeysList)
    (hfkne : fk.data ≠ []) (hfkb : ∀ c ∈ fk.data, isBareChar c = true)
    (ho : o ∈ ["eq", "lt", "lte", "gt", "gte", "neq"]) (hvs : vs ≠ [])
    (hwf : ∀ v ∈ vs, v.data ≠ [] ∧ (∀ c ∈ v.data, c ≠ Char.ofNat 34) ∧
      (∀ c ∈ v.data, c ≠ ',')) :
    parseWord (runWord fk o vs).data = Except.ok (.filt fk o vs) := by
  obtain ⟨sc, srest, hsign, hscb⟩ := signHead ho
  obtain ⟨hc0, hr0, hJeq, hcne⟩ :=
    joinComma_sanitized_head hvs (fun v hv => (hwf v hv).1)
  have hdata : (runWord fk o vs).data =
      fk.data ++ ((operatorToSign o).data ++ (joinComma (vs.map sanitizeString)).data) := by
    unfold runWord
    rw [String.data_append, String.data_append, List.append_assoc]
  cases hfk : fk.data with
  | nil => exact absurd hfk hfkne
  | cons c t =>
    have hfkb' : ∀ x ∈ c :: t, isBareChar x = true := hfk ▸ hfkb
    rw [hdata, hfk, List.cons_append, parseWord_cons,
      if_neg (bare_not_quote (hfkb' c (List.mem_cons_self _ _)))]
    have htw : (c :: (t ++ ((operatorToSign o).data ++
        (joinComma (vs.map sanitizeString)).data))).takeWhile isBareChar = c :: t := by
      rw [show c :: (t ++ ((operatorToSign o).data ++
            (joinComma (vs.map sanitizeString)).data)) =
          (c :: t) ++ ((operatorToSign o).data ++
            (joinComma (vs.map sanitizeString)).data) from rfl,
        takeWhile_append_of_all isBareChar _ _ hfkb', hsign,
        show ((sc :: srest) ++ (joinComma (vs.map sanitizeString)).data) =
          sc :: (srest ++ (joinComma (vs.map sanitizeString)).data) from rfl,
        List.takeWhile_cons, hscb, if_neg (by decide)]
      exact List.append_nil _
    have hdw : (c :: (t ++ ((operatorToSign o).data ++
        (joinComma (vs.map sanitizeString)).data))).dropWhile isBareChar =
        sc :: (srest ++ (joinComma (vs.map sanitizeString)).data) := by
      rw [show c :: (t ++ ((operatorToSign o).data ++
            (joinComma (vs.map sanitizeString)).data)) =
          (c :: t) ++ ((operatorToSign o).data ++
            (joinComma (vs.map sanitizeString)).data) from rfl,
        dropWhile_append_of_all isBareChar _ _ hfkb', hsign,
        show ((sc :: srest) ++ (joinComma (vs.map sanitizeString)).data) =
          sc :: (srest ++ (joinComma (vs.map sanitizeString)).data) from rfl,
        List.dropWhile_cons, hscb, if_neg (by decide)]
    rw [htw, if_neg (by simp), hdw]
    have hlex := @lexOp_sign o ho hc0 hr0 hcne
    rw [← hJeq] at hlex
    rw [hsign, List.cons_append] at hlex
    rw [hlex]
    have hkeq : (⟨c :: t⟩ : String) = fk := by rw [← hfk]
    rw [hkeq]
    show (if fk ∈ rootKeysList then
        if o = "eq" then
          if ((joinComma (vs.map sanitizeString)).data.takeWhile isRootValChar ≠ [] ∧
              (joinComma (vs.map sanitizeString)).data.dropWhile isRootValChar = []) then
            Except.ok (Token.root fk
              ⟨(joinComma (vs.map sanitizeString)).data.takeWhile isRootValChar⟩)
          else Except.error "malformed root value"
        else Except.error "root keys take only a colon"
      else if fk ∈ filterKeysList then
        match parseValueList (joinComma (vs.map sanitizeString)).data with
        | some vals => Except.ok (Token.filt fk o vals)
        | none => Except.error "malformed value list"
      else Except.error "unknown key") = Except.ok (Token.filt fk o vs)
    rw [if_neg hfknr, if_pos hfkmem, parseValueList_sanitized hvs hwf]

/-! ## Claim C2, amended: token lists and the query fold -/

theorem mapM_ok_cons {α β : Type} {f : α → Except String β} {w : α} {ws : List α}
    {t : β} {ts : List β} (hw : f w = .ok t) (hws : ws.mapM f = .ok ts) :
    (w :: ws).mapM f = .ok (t :: ts) := by
  rw [List.mapM_cons, hw, hws]
  rfl

theorem mapM_ok_append {α β : Type} {f : α → Except String β} :
    ∀ {ws1 : List α} {ts1 : List β} {ws2 : List α} {ts2 : List β},
    ws1.mapM f = .ok ts1 → ws2.mapM f = .ok ts2 →
    (ws1 ++ ws2).mapM f = .ok (ts1 ++ ts2) := by
  intro ws1
  induction ws1 with
  | nil =>
    intro ts1 ws2 ts2 h1 h2
    have h1' : Except.ok ([] : List β) = Except.ok ts1 := h1
    injection h1' with he
    subst he
    simpa using h2
  | cons w ws ih =>
    intro ts1 ws2 ts2 h1 h2
    rw [List.mapM_cons] at h1
    cases hw : f w with
    | error e =>
      rw [hw] at h1
      have h1' : (Except.error e : Except String (List β)) = Except.ok ts1 := h1
      cases h1'
    | ok t =>
      rw [hw] at h1
      cases hws : ws.mapM f with
      | error e =>
        rw [hws] at h1
        have h1' : (Except.error e : Except String (List β)) = Except.ok ts1 := h1
        cases h1'
      | ok ts' =>
        rw [hws] at h1
        have h1' : Except.ok (t :: ts') = Except.ok ts1 := h1
        injection h1' with he
        subst he
        rw [List.cons_append]
        exact mapM_ok_cons hw (ih hws h2)

theorem mapM_ok_map {α : Type} {g : α → List Char} {h : α → Token} :
    ∀ (l : List α), (∀ x ∈ l, parseWord (g x) = .ok (h x)) →
      (l.map g).mapM parseWord = .ok (l.map h) := by
  intro l
  induction l with
  | nil => intro _; rfl
  | cons x xs ih =>
    intro hx
    rw [List.map_cons, List.map_cons]
    exact mapM_ok_cons (hx x (List.mem_cons_self _ _))
      (ih (fun y hy => hx y (List.mem_cons_of_mem _ hy)))

/-- Non-root tokens (filters and keywords). -/
def filtTokenB : Token → Bool
  | .root _ _ => false
  | _ => true

/-- The AST node a filter/keyword token contributes. -/
def nodeOf : Token → ASTArg
  | .filt k o vs => .node o (.str k) (match vs with | [v] => .str v | _ => .arr vs)
  | .kw v => .node "eq" (.str "keyword") (.str v)
  | .root _ _ => .str ""

/-- The filter key a token's node registers under. -/
def keyOfTok : Token → String
  | .filt k _ _ => k
  | .kw _ => "keyword"
  | .root _ _ => ""

/-- The constraints a token's node pushes. -/
def qfsOfTok : Token → List QueryFilter
  | .filt _ o vs => vs.map (fun v => ⟨o, v⟩)
  | .kw v => [⟨"eq", v⟩]
  | .root _ _ => []

theorem applyToken_filt_or_kw {acc : RawQuery} {t : Token} (ht : filtTokenB t = true) :
    applyToken acc t = { acc with filters := some (chainAST acc.filters (nodeOf t)) } := by
  cases t with
  | root k v => cases ht
  | filt k o vs => rfl
  | kw v => rfl

theorem foldl_filt_tokens : ∀ (ts : List Token) (r : RawQuery),
    (∀ t ∈ ts, filtTokenB t = true) →
    ts.foldl applyToken r =
      { r with filters :=
          (ts.map nodeOf).foldl (fun c n => some (chainAST c n)) r.filters } := by
  intro ts
  induction ts with
  | nil => intro r _; rfl
  | cons t ts' ih =>
    intro r ht
    rw [List.foldl_cons, applyToken_filt_or_kw (ht t (List.mem_cons_self _ _))]
    rw [ih _ (fun x hx => ht x (List.mem_cons_of_mem _ hx))]
    rfl

theorem chainFold_some : ∀ (ns : List ASTArg) (a : ASTArg),
    ns.foldl (fun c n => some (chainAST c n)) (some a) =
      some (ns.foldl (fun x n => .node "and" x n) a) := by
  intro ns
  induction ns with
  | nil => intro a; rfl
  | cons n ns' ih =>
    intro a
    rw [List.foldl_cons, List.foldl_cons]
    exact ih (.node "and" a n)

theorem chainFold_none (n : ASTArg) (ns : List ASTArg) :
    (n :: ns).foldl (fun c m => some (chainAST c m)) none =
      some (ns.foldl (fun x m => .node "and" x m) n) := by
  rw [List.foldl_cons]
  exact chainFold_some ns n

/-- Node-shaped AST arguments. -/
def isNodeB : ASTArg → Bool
  | .node _ _ _ => true
  | _ => false

theorem trav_and {l r : ASTArg} (hl : isNodeB l = true) (hr2 : isNodeB r = true)
    (acc : QueryFilters) :
    traverseAST (.node "and" l r) acc = traverseAST r (traverseAST l acc) := by
  cases l with
  | str s => cases hl
  | arr v => cases hl
  | node o2 l2 r2 =>
    cases r with
    | str s => cases hr2
    | arr v => cases hr2
    | node o3 l3 r3 =>
      show (if "and" = "" then acc
        else traverseAST (.node o3 l3 r3) (traverseAST (.node o2 l2 r2) acc)) = _
      rw [if_neg (by decide)]

theorem trav_chain : ∀ (ns : List ASTArg) (n : ASTArg) (acc : QueryFilters),
    isNodeB n = true → (∀ m ∈ ns, isNodeB m = true) →
    traverseAST (ns.foldl (fun x m => .node "and" x m) n) acc =
      ns.foldl (fun A m => traverseAST m A) (traverseAST n acc) := by
  intro ns
  induction ns with
  | nil => intro n acc _ _; rfl
  | cons m ms ih =>
    intro n acc hn hm
    rw [List.foldl_cons, List.foldl_cons]
    rw [ih (.node "and" n m) acc rfl (fun x hx => hm x (List.mem_cons_of_mem _ hx))]
    rw [trav_and hn (hm m (List.mem_cons_self _ _)) acc]

theorem trav_nodeOf (t : Token) (acc : QueryFilters) (ht : filtTokenB t = true)
    (hk : keyOfTok t ∈ filterKeysList)
    (hop : ∀ k o vs, t = .filt k o vs → o ≠ "") :
    traverseAST (nodeOf t) acc = pushAll acc (keyOfTok t) (qfsOfTok t) := by
  cases t with
  | root k v => cases ht
  | kw v =>
    show (if "eq" = "" then acc
      else if "keyword" ∈ filterKeysList then
        pushAll acc "keyword" [⟨"eq", v⟩] else acc) = _
    rw [if_neg (by decide), if_pos (by decide)]
    rfl
  | filt k o vs =>
    have ho := hop k o vs rfl
    cases vs with
    | nil =>
      show (if o = "" then acc
        else if k ∈ filterKeysList then
          pushAll acc k (([] : List String).map (fun v => ⟨o, v⟩)) else acc) = _
      rw [if_neg ho, if_pos (show k ∈ filterKeysList from hk)]
      rfl
    | cons v vt =>
      cases vt with
      | nil =>
        show (if o = "" then acc
          else if k ∈ filterKeysList then pushAll acc k [⟨o, v⟩] else acc) = _
        rw [if_neg ho, if_pos (show k ∈ filterKeysList from hk)]
        rfl
      | cons v2 vt2 =>
        show (if o = "" then acc
          else if k ∈ filterKeysList then
            pushAll acc k ((v :: v2 :: vt2).map (fun x => ⟨o, x⟩)) else acc) = _
        rw [if_neg ho, if_pos (show k ∈ filterKeysList from hk)]
        rfl

theorem pushAll_absent {fl : QueryFilters} {k : String} (h : ∀ p ∈ fl, p.1 ≠ k)
    (qfs : List QueryFilter) : pushAll fl k qfs = fl ++ [(k, qfs)] := by
  unfold pushAll
  rw [if_neg (by
    simp only [List.any_eq_true, beq_iff_eq, not_exists, not_and]
    exact fun p hp => h p hp)]

theorem pushAll_last {pre : QueryFilters} {k : String} (h : ∀ p ∈ pre, p.1 ≠ k)
    (qfs more : List QueryFilter) :
    pushAll (pre ++ [(k, qfs)]) k more = pre ++ [(k, qfs ++ more)] := by
  unfold pushAll
  rw [if_pos (by
    simp only [List.any_eq_true, beq_iff_eq]
    exact ⟨(k, qfs), by simp, rfl⟩)]
  rw [List.map_append]
  have hpre : pre.map (fun p => if p.1 == k then (p.1, p.2 ++ more) else p) = pre := by
    conv_rhs => rw [← List.map_id pre]
    apply List.map_congr_left
    intro p hp
    rw [if_neg (by simpa using h p hp)]
    rfl
  rw [hpre]
  congr 1
  rw [List.map_cons]
  rw [if_pos (by simp)]
  rfl

/-- Folding the pushes of the `getFilters` walk. -/
def foldPush (fl : QueryFilters) (cs : List (String × List QueryFilter)) : QueryFilters :=
  cs.foldl (fun A c => pushAll A c.1 c.2) fl

theorem foldPush_block : ∀ (cs : List (List QueryFilter)) (pre : QueryFilters)
    (k : String) (qfs : List QueryFilter), (∀ p ∈ pre, p.1 ≠ k) →
    foldPush (pre ++ [(k, qfs)]) (cs.map (fun c => (k, c))) =
      pre ++ [(k, qfs ++ cs.flatten)] := by
  intro cs
  induction cs with
  | nil =>
    intro pre k qfs _
    show pre ++ [(k, qfs)] = pre ++ [(k, qfs ++ [].flatten)]
    rw [List.flatten_nil, List.append_nil]
  | cons c cs' ih =>
    intro pre k qfs h
    show foldPush (pushAll (pre ++ [(k, qfs)]) k c) (cs'.map (fun x => (k, x))) = _
    rw [pushAll_last h qfs c, ih pre k (qfs ++ c) h, List.flatten_cons, List.append_assoc]

theorem foldPush_groups : ∀ (blocks : List (String × List (List QueryFilter)))
    (fl : QueryFilters),
    (∀ b ∈ blocks, b.2 ≠ []) →
    (∀ b ∈ blocks, ∀ p ∈ fl, p.1 ≠ b.1) →
    (blocks.map Prod.fst).Nodup →
    foldPush fl ((blocks.map (fun b => b.2.map (fun c => (b.1, c)))).flatten) =
      fl ++ blocks.map (fun b => (b.1, b.2.flatten)) := by
  intro blocks
  induction blocks with
  | nil =>
    intro fl _ _ _
    show fl = fl ++ []
    rw [List.append_nil]
  | cons b bs ih =>
    intro fl hne hfresh hnd
    obtain ⟨k, cs⟩ := b
    cases cs with
    | nil => exact absurd rfl (hne (k, []) (List.mem_cons_self _ _))
    | cons c cs' =>
      show foldPush fl (((k, c) :: cs'.map (fun x => (k, x))) ++
        (bs.map (fun b => b.2.map (fun x => (b.1, x)))).flatten) = _
      unfold foldPush
      rw [List.foldl_append]
      have hfr : ∀ p ∈ fl, p.1 ≠ k := fun p hp =>
        hfresh (k, c :: cs') (List.mem_cons_self _ _) p hp
      have hstep : ((k, c) :: cs'.map (fun x => (k, x))).foldl
          (fun A q => pushAll A q.1 q.2) fl = fl ++ [(k, (c :: cs').flatten)] := by
        rw [List.foldl_cons]
        show foldPush (pushAll fl k c) (cs'.map (fun x => (k, x))) = _
        rw [pushAll_absent hfr c, foldPush_block cs' fl k c hfr, List.flatten_cons]
      rw [hstep]
      have hih := ih (fl ++ [(k, (c :: cs').flatten)])
        (fun x hx => hne x (List.mem_cons_of_mem _ hx))
        (fun x hx p hp => by
          rcases List.mem_append.mp hp with hp1 | hp2
          · exact hfresh x (List.mem_cons_of_mem _ hx) p hp1
          · have hpk : p.1 = k := by
              rcases List.mem_singleton.mp hp2 with rfl
              rfl
            rw [hpk]
            intro hkx
            have : x.1 ∈ bs.map Prod.fst := List.mem_map.mpr ⟨x, hx, rfl⟩
            rw [← hkx] at this
            exact (List.nodup_cons.mp hnd).1 this)
        (List.nodup_cons.mp hnd).2
      show foldPush (fl ++ [(k, (c :: cs').flatten)])
        ((bs.map (fun b => b.2.map (fun x => (b.1, x)))).flatten) = _
      rw [hih, List.append_assoc]
      rfl

theorem qfLookup_cons_self (k : String) (l : List QueryFilter) (fl : QueryFilters) :
    qfLookup ((k, l) :: fl) k = some l := by
  unfold qfLookup
  rw [List.find?_cons_of_pos _ (by simp)]
  rfl

theorem qfLookup_cons_ne {k k' : String} (hk : k' ≠ k) (l : List QueryFilter)
    (fl : QueryFilters) : qfLookup ((k', l) :: fl) k = qfLookup fl k := by
  unfold qfLookup
  rw [List.find?_cons_of_neg _ (by simpa using hk)]

/-! ## Claim C2, amended: per-key word and token blocks -/

/-- The operator names the parser can produce. -/
def opNames : List String := ["eq", "lt", "lte", "gt", "gte", "neq"]

/-- The words `buildFilterString` renders for one present filter key. -/
def wordsOfFilter (fk : String) (qfs : List QueryFilter) : List (List Char) :=
  if fk = "keyword" then qfs.map (fun f => (sanitizeString f.value).data)
  else (runsOf qfs).map (fun r => (runWord fk r.1 r.2).data)

/-- The tokens those words re-parse to. -/
def tokensOfFilter (fk : String) (qfs : List QueryFilter) : List Token :=
  if fk = "keyword" then qfs.map (fun f => .kw f.value)
  else (runsOf qfs).map (fun r => .filt fk r.1 r.2)

/-- The constraint pushes those tokens contribute. -/
def contribsOf (fk : String) (qfs : List QueryFilter) : List (List QueryFilter) :=
  (tokensOfFilter fk qfs).map qfsOfTok

theorem flatten_space_interSpace : ∀ ws : List (List Char),
    (ws.map (fun w => ' ' :: w)).flatten = interSpace ([] :: ws) := by
  intro ws
  induction ws with
  | nil => rfl
  | cons w ws' ih =>
    cases ws' with
    | nil => simp [interSpace]
    | cons w2 r =>
      rw [List.map_cons, List.flatten_cons]
      have ih' : ((w2 :: r).map (fun w => ' ' :: w)).flatten =
          ' ' :: interSpace (w2 :: r) := ih
      rw [ih']
      show ' ' :: (w ++ ' ' :: interSpace (w2 :: r)) = [] ++ ' ' :: interSpace (w :: w2 :: r)
      rfl

theorem part_data (fk : String) (qfs : List QueryFilter) :
    (buildFilterString fk qfs).data =
      ((wordsOfFilter fk qfs).map (fun w => ' ' :: w)).flatten := by
  by_cases hfk : fk = "keyword"
  · subst hfk
    rw [bfs_keyword, concatStr_data]
    unfold wordsOfFilter
    rw [if_pos rfl, List.map_map, List.map_map]
    congr 1
  · rw [bfs_runs fk hfk, concatStr_data]
    unfold wordsOfFilter
    rw [if_neg hfk, List.map_map, List.map_map]
    congr 1

theorem wordsOfFilter_scan {fk : String} {qfs : List QueryFilter}
    (hfkb : ∀ c ∈ fk.data, isBareChar c = true)
    (hops : ∀ f ∈ qfs, f.operator ∈ opNames)
    (hvals : ∀ f ∈ qfs, ∀ c ∈ f.value.data, c ≠ Char.ofNat 34) :
    ∀ w ∈ wordsOfFilter fk qfs, scanWord w false = some false := by
  intro w hw
  unfold wordsOfFilter at hw
  by_cases hfk : fk = "keyword"
  · rw [if_pos hfk] at hw
    rcases List.mem_map.mp hw with ⟨f, hf, rfl⟩
    exact scanWord_sanitize (hvals f hf)
  · rw [if_neg hfk] at hw
    rcases List.mem_map.mp hw with ⟨r, hr, rfl⟩
    apply scanWord_runWord hfkb
    · rcases runsOf_op_mem qfs r hr with ⟨f, hf, hfo⟩
      rw [← hfo]
      exact hops f hf
    · exact runsOf_run_ne_nil qfs r hr
    · intro v hv c hc
      rcases runsOf_value_mem qfs r hr v hv with ⟨f, hf, hfv, _⟩
      rw [← hfv] at hc
      exact hvals f hf c hc

theorem wordsOfFilter_ne_nil {fk : String} {qfs : List QueryFilter}
    (hfkne : fk.data ≠ [])
    (hvne : ∀ f ∈ qfs, f.value.data ≠ []) :
    ∀ w ∈ wordsOfFilter fk qfs, w ≠ [] := by
  intro w hw
  unfold wordsOfFilter at hw
  by_cases hfk : fk = "keyword"
  · rw [if_pos hfk] at hw
    rcases List.mem_map.mp hw with ⟨f, hf, rfl⟩
    intro h0
    have := sanitize_length_pos (hvne f hf)
    rw [h0] at this
    simp at this
  · rw [if_neg hfk] at hw
    rcases List.mem_map.mp hw with ⟨r, hr, rfl⟩
    intro h0
    have hd : (runWord fk r.1 r.2).data =
        fk.data ++ ((operatorToSign r.1).data ++
          (joinComma (r.2.map sanitizeString)).data) := by
      unfold runWord
      rw [String.data_append, String.data_append, List.append_assoc]
    rw [hd] at h0
    rcases List.append_eq_nil.mp h0 with ⟨h1, _⟩
    exact hfkne h1

theorem wordsOfFilter_mapM {fk : String} {qfs : List QueryFilter}
    (hfkmem : fk ∈ filterKeysList) (hfknr : fk ∉ rootKeysList)
    (hfkne : fk.data ≠ []) (hfkb : ∀ c ∈ fk.data, isBareChar c = true)
    (hops : ∀ f ∈ qfs, f.operator ∈ opNames)
    (hwf : ∀ f ∈ qfs, f.value.data ≠ [] ∧ (∀ c ∈ f.value.data, c ≠ Char.ofNat 34) ∧
      (∀ c ∈ f.value.data, c ≠ ',')) :
    (wordsOfFilter fk qfs).mapM parseWord = .ok (tokensOfFilter fk qfs) := by
  unfold wordsOfFilter tokensOfFilter
  by_cases hfk : fk = "keyword"
  · rw [if_pos hfk, if_pos hfk]
    apply mapM_ok_map
    intro f hf
    exact parseWord_sanitized_kw (hwf f hf).1 (hwf f hf).2.1 (hwf f hf).2.2
  · rw [if_neg hfk, if_neg hfk]
    apply mapM_ok_map
    intro r hr
    apply parseWord_filt hfkmem hfknr hfkne hfkb
    · rcases runsOf_op_mem qfs r hr with ⟨f, hf, hfo⟩
      rw [← hfo]
      exact hops f hf
    · exact runsOf_run_ne_nil qfs r hr
    · intro v hv
      rcases runsOf_value_mem qfs r hr v hv with ⟨f, hf, hfv, _⟩
      rw [← hfv]
      exact hwf f hf

theorem tokensOfFilter_filt {fk : String} {qfs : List QueryFilter} :
    ∀ t ∈ tokensOfFilter fk qfs, filtTokenB t = true := by
  intro t ht
  unfold tokensOfFilter at ht
  by_cases hfk : fk = "keyword"
  · rw [if_pos hfk] at ht
    rcases List.mem_map.mp ht with ⟨f, _, rfl⟩
    rfl
  · rw [if_neg hfk] at ht
    rcases List.mem_map.mp ht with ⟨r, _, rfl⟩
    rfl

theorem tokensOfFilter_key {fk : String} {qfs : List QueryFilter} :
    ∀ t ∈ tokensOfFilter fk qfs, keyOfTok t = fk := by
  intro t ht
  unfold tokensOfFilter at ht
  by_cases hfk : fk = "keyword"
  · rw [if_pos hfk] at ht
    rcases List.mem_map.mp ht with ⟨f, _, rfl⟩
    rw [hfk]
    rfl
  · rw [if_neg hfk] at ht
    rcases List.mem_map.mp ht with ⟨r, _, rfl⟩
    rfl

theorem tokensOfFilter_op {fk : String} {qfs : List QueryFilter}
    (hops : ∀ f ∈ qfs, f.operator ∈ opNames) :
    ∀ t ∈ tokensOfFilter fk qfs, ∀ k o vs, t = .filt k o vs → o ≠ "" := by
  intro t ht k o vs hteq
  unfold tokensOfFilter at ht
  by_cases hfk : fk = "keyword"
  · rw [if_pos hfk] at ht
    rcases List.mem_map.mp ht with ⟨f, _, rfl⟩
    cases hteq
  · rw [if_neg hfk] at ht
    rcases List.mem_map.mp ht with ⟨r, hr, rfl⟩
    cases hteq
    rcases runsOf_op_mem qfs r hr with ⟨f, hf, hfo⟩
    have := hops f hf
    rw [hfo] at this
    intro h0
    rw [h0] at this
    exact absurd this (by decide)

theorem tokensOfFilter_ne_nil {fk : String} {qfs : List QueryFilter} (hqfs : qfs ≠ []) :
    tokensOfFilter fk qfs ≠ [] := by
  unfold tokensOfFilter
  by_cases hfk : fk = "keyword"
  · rw [if_pos hfk]
    intro h0
    exact hqfs (List.map_eq_nil_iff.mp h0)
  · rw [if_neg hfk]
    intro h0
    exact runsOf_ne_nil hqfs (List.map_eq_nil_iff.mp h0)

theorem flatten_singletons {α β : Type} (g : α → β) :
    ∀ l : List α, ((l.map (fun x => [g x])).flatten = l.map g) := by
  intro l
  induction l with
  | nil => rfl
  | cons x xs ih =>
    rw [List.map_cons, List.flatten_cons, List.map_cons]
    rw [ih]
    rfl

/-- The constraints the re-parse of one key's words reconstructs: identical
for every key except `keyword`, whose print drops operators (re-reading them
as `eq`). -/
theorem contribs_flatten (fk : String) (qfs : List QueryFilter) :
    (contribsOf fk qfs).flatten =
      if fk = "keyword" then qfs.map (fun f => ⟨"eq", f.value⟩) else qfs := by
  unfold contribsOf tokensOfFilter
  by_cases hfk : fk = "keyword"
  · rw [if_pos hfk, if_pos hfk, List.map_map]
    exact flatten_singletons _ qfs
  · rw [if_neg hfk, if_neg hfk, List.map_map]
    show flatRuns (runsOf qfs) = qfs
    exact flatRuns_runsOf qfs

theorem sortFilterValues_of_sorted {l : List QueryFilter}
    (hs : l.Pairwise (fun a b => strLe a.value b.value)) : sortFilterValues l = l := by
  unfold sortFilterValues jsSort
  apply List.Sorted.insertionSort_eq
  exact hs.imp (fun h => (hashValueCmp_le_iff _ _).mpr h)

theorem qfLookup_sortFlatFilters : ∀ (X : QueryFilters) (k : String),
    qfLookup (sortFlatFilters X) k = (qfLookup X k).map sortFilterValues := by
  intro X
  induction X with
  | nil => intro k; rfl
  | cons p X' ih =>
    intro k
    obtain ⟨pk, pl⟩ := p
    show qfLookup ((pk, sortFilterValues pl) :: sortFlatFilters X') k = _
    by_cases hk : pk = k
    · subst hk
      rw [qfLookup_cons_self, qfLookup_cons_self]
      rfl
    · rw [qfLookup_cons_ne hk, qfLookup_cons_ne hk, ih]

theorem eqify_sorted {qfs : List QueryFilter}
    (hs : qfs.Pairwise (fun a b => strLe a.value b.value)) :
    (qfs.map (fun f => (⟨"eq", f.value⟩ : QueryFilter))).Pairwise
      (fun a b => strLe a.value b.value) := by
  rw [List.pairwise_map]
  exact hs.imp (fun h => h)

theorem bfs_keyword_eqify (qfs : List QueryFilter) :
    buildFilterString "keyword" (qfs.map (fun f => ⟨"eq", f.value⟩)) =
      buildFilterString "keyword" qfs := by
  rw [bfs_keyword, bfs_keyword, List.map_map]
  congr 1

theorem dropEmpties_append : ∀ l1 l2 : List (List Char),
    dropEmpties (l1 ++ l2) = dropEmpties l1 ++ dropEmpties l2 := by
  intro l1
  induction l1 with
  | nil => intro l2; rfl
  | cons w t ih =>
    intro l2
    rw [List.cons_append, dropEmpties_cons, dropEmpties_cons]
    by_cases hw : w = []
    · rw [if_pos hw, if_pos hw, ih]
    · rw [if_neg hw, if_neg hw, ih, List.cons_append]

theorem dropEmpties_of_ne : ∀ l : List (List Char), (∀ w ∈ l, w ≠ []) →
    dropEmpties l = l := by
  intro l
  induction l with
  | nil => intro _; rfl
  | cons w t ih =>
    intro h
    rw [dropEmpties_cons, if_neg (h w (List.mem_cons_self _ _))]
    rw [ih (fun x hx => h x (List.mem_cons_of_mem _ hx))]

theorem dropEmpties_flatten : ∀ bs : List (List (List Char)),
    dropEmpties bs.flatten = (bs.map dropEmpties).flatten := by
  intro bs
  induction bs with
  | nil => rfl
  | cons b bt ih =>
    rw [List.flatten_cons, dropEmpties_append, ih, List.map_cons, List.flatten_cons]

/-! ## Claim C2, amended: block-list conversions -/

theorem blocks_mem {FL : QueryFilters} {ks : List String} {b : String × List QueryFilter}
    (hb : b ∈ ks.filterMap (fun k => (qfLookup FL k).map (fun qfs => (k, qfs)))) :
    b.1 ∈ ks ∧ qfLookup FL b.1 = some b.2 := by
  rcases List.mem_filterMap.mp hb with ⟨k, hk, hmap⟩
  rcases Option.map_eq_some'.mp hmap with ⟨qfs, hq, hbeq⟩
  subst hbeq
  exact ⟨hk, hq⟩

theorem blocks_keys_sublist (FL : QueryFilters) : ∀ ks : List String,
    ((ks.filterMap (fun k => (qfLookup FL k).map (fun qfs => (k, qfs)))).map
      Prod.fst).Sublist ks := by
  intro ks
  induction ks with
  | nil => simp
  | cons k kt ih =>
    rw [List.filterMap_cons]
    cases hk : qfLookup FL k with
    | none => exact ih.cons k
    | some qfs =>
      show (k :: (kt.filterMap (fun k => (qfLookup FL k).map (fun qfs => (k, qfs)))).map
        Prod.fst).Sublist (k :: kt)
      exact ih.cons₂ k

theorem lookup_blocks (FL : QueryFilters) (g : String → List QueryFilter → List QueryFilter) :
    ∀ ks : List String, ks.Nodup → ∀ fk ∈ ks,
    qfLookup ((ks.filterMap (fun k => (qfLookup FL k).map (fun qfs => (k, qfs)))).map
      (fun b => (b.1, g b.1 b.2))) fk = (qfLookup FL fk).map (g fk) := by
  intro ks
  induction ks with
  | nil => intro _ fk h; cases h
  | cons k kt ih =>
    intro hnd fk hfk
    rw [List.filterMap_cons]
    cases hk : qfLookup FL k with
    | none =>
      rcases List.mem_cons.mp hfk with rfl | hfk2
      · rw [hk]
        apply (qfLookup_eq_none_iff _ _).mpr
        intro p hp
        rcases List.mem_map.mp hp with ⟨b, hb, rfl⟩
        have hbk := (blocks_mem hb).1
        intro heq
        exact (List.nodup_cons.mp hnd).1 (heq ▸ hbk)
      · exact ih (List.nodup_cons.mp hnd).2 fk hfk2
    | some qfs =>
      show qfLookup ((k, g k qfs) ::
        (kt.filterMap (fun k => (qfLookup FL k).map (fun qfs => (k, qfs)))).map
          (fun b => (b.1, g b.1 b.2))) fk = _
      rcases List.mem_cons.mp hfk with rfl | hfk2
      · rw [qfLookup_cons_self, hk]
        rfl
      · have hne : k ≠ fk := fun he => (List.nodup_cons.mp hnd).1 (he ▸ hfk2)
        rw [qfLookup_cons_ne hne]
        exact ih (List.nodup_cons.mp hnd).2 fk hfk2

theorem mapM_blocks (FL : QueryFilters) : ∀ ks : List String,
    (∀ fk ∈ ks, ∀ qfs, qfLookup FL fk = some qfs →
      (wordsOfFilter fk qfs).mapM parseWord = .ok (tokensOfFilter fk qfs)) →
    (((ks.filterMap (fun k => (qfLookup FL k).map (fun qfs => (k, qfs)))).map
        (fun b => wordsOfFilter b.1 b.2)).flatten).mapM parseWord =
      .ok (((ks.filterMap (fun k => (qfLookup FL k).map (fun qfs => (k, qfs)))).map
        (fun b => tokensOfFilter b.1 b.2)).flatten) := by
  intro ks
  induction ks with
  | nil => intro _; rfl
  | cons k kt ih =>
    intro h
    rw [List.filterMap_cons]
    cases hk : qfLookup FL k with
    | none => exact ih (fun fk hfk => h fk (List.mem_cons_of_mem _ hfk))
    | some qfs =>
      show (((wordsOfFilter k qfs ::
          (kt.filterMap (fun k => (qfLookup FL k).map (fun qfs => (k, qfs)))).map
            (fun b => wordsOfFilter b.1 b.2))).flatten).mapM parseWord =
        .ok ((tokensOfFilter k qfs ::
          (kt.filterMap (fun k => (qfLookup FL k).map (fun qfs => (k, qfs)))).map
            (fun b => tokensOfFilter b.1 b.2)).flatten)
      rw [List.flatten_cons, List.flatten_cons]
      exact mapM_ok_append (h k (List.mem_cons_self _ _) qfs hk)
        (ih (fun fk hfk => h fk (List.mem_cons_of_mem _ hfk)))

theorem tokensOfFilter_pairs (fk : String) (qfs : List QueryFilter) :
    (tokensOfFilter fk qfs).map (fun t => (keyOfTok t, qfsOfTok t)) =
      (contribsOf fk qfs).map (fun c => (fk, c)) := by
  unfold contribsOf
  rw [List.map_map]
  apply List.map_congr_left
  intro t ht
  show (keyOfTok t, qfsOfTok t) = (fk, qfsOfTok t)
  rw [tokensOfFilter_key t ht]

theorem nodeOf_isNode {t : Token} (ht : filtTokenB t = true) : isNodeB (nodeOf t) = true := by
  cases t with
  | root k v => cases ht
  | filt k o vs => rfl
  | kw v => rfl

theorem foldl_trav_push : ∀ (ts : List Token) (acc : QueryFilters),
    (∀ t ∈ ts, filtTokenB t = true) →
    (∀ t ∈ ts, keyOfTok t ∈ filterKeysList) →
    (∀ t ∈ ts, ∀ k o vs, t = .filt k o vs → o ≠ "") →
    ts.foldl (fun A t => traverseAST (nodeOf t) A) acc =
      ts.foldl (fun A t => pushAll A (keyOfTok t) (qfsOfTok t)) acc := by
  intro ts
  induction ts with
  | nil => intro acc _ _ _; rfl
  | cons t ts' ih =>
    intro acc hf hk hop
    rw [List.foldl_cons, List.foldl_cons,
      trav_nodeOf t acc (hf t (List.mem_cons_self _ _)) (hk t (List.mem_cons_self _ _))
        (hop t (List.mem_cons_self _ _))]
    exact ih _ (fun x hx => hf x (List.mem_cons_of_mem _ hx))
      (fun x hx => hk x (List.mem_cons_of_mem _ hx))
      (fun x hx => hop x (List.mem_cons_of_mem _ hx))

theorem getFilters_tokens (ftoks : List Token)
    (hf : ∀ t ∈ ftoks, filtTokenB t = true)
    (hk : ∀ t ∈ ftoks, keyOfTok t ∈ filterKeysList)
    (hop : ∀ t ∈ ftoks, ∀ k o vs, t = .filt k o vs → o ≠ "") :
    getFilters ((ftoks.map nodeOf).foldl (fun c n => some (chainAST c n)) none) =
      foldPush [] (ftoks.map (fun t => (keyOfTok t, qfsOfTok t))) := by
  cases ftoks with
  | nil => rfl
  | cons t ts =>
    rw [List.map_cons, chainFold_none]
    show traverseAST ((ts.map nodeOf).foldl (fun x m => ASTArg.node "and" x m) (nodeOf t)) [] = _
    rw [trav_chain (ts.map nodeOf) (nodeOf t) []
      (nodeOf_isNode (hf t (List.mem_cons_self _ _)))
      (fun m hm => by
        rcases List.mem_map.mp hm with ⟨x, hx, rfl⟩
        exact nodeOf_isNode (hf x (List.mem_cons_of_mem _ hx)))]
    rw [List.foldl_map]
    rw [trav_nodeOf t [] (hf t (List.mem_cons_self _ _)) (hk t (List.mem_cons_self _ _))
      (hop t (List.mem_cons_self _ _))]
    rw [foldl_trav_push ts _ (fun x hx => hf x (List.mem_cons_of_mem _ hx))
      (fun x hx => hk x (List.mem_cons_of_mem _ hx))
      (fun x hx => hop x (List.mem_cons_of_mem _ hx))]
    unfold foldPush
    rw [List.map_cons, List.foldl_cons, List.foldl_map]

theorem filterMap_congr_mem {α β : Type} {f g : α → Option β} :
    ∀ {l : List α}, (∀ a ∈ l, f a = g a) → l.filterMap f = l.filterMap g := by
  intro l
  induction l with
  | nil => intro _; rfl
  | cons a t ih =>
    intro h
    rw [List.filterMap_cons, List.filterMap_cons, h a (List.mem_cons_self _ _),
      ih (fun x hx => h x (List.mem_cons_of_mem _ hx))]

/-- One root part of `buildSearchQueryString`: the key's value (falling back
to the default query's) rendered when truthy. -/
def rootPartOf (q : SearchQueryJSON) (key : String) : Option String :=
  match (match rootValueOf q key with
         | some v => some v
         | none => (buildSearchQueryJSON "").bind (fun d => rootValueOf d key)) with
  | some v => if v ≠ "" then some (key ++ ":" ++ v) else none
  | none => none

theorem bsqs_match (q : SearchQueryJSON) :
    buildSearchQueryString (some q) =
      joinSpace (rootKeysList.filterMap (rootPartOf q) ++
      filterKeysList.filterMap (fun fk =>
        match qfLookup q.flatFilters fk with
        | some queryFilter => some (buildFilterString fk queryFilter)
        | none => none)) := rfl

theorem bsqs_some (q : SearchQueryJSON) :
    buildSearchQueryString (some q) =
      joinSpace (rootKeysList.filterMap (rootPartOf q) ++
      filterKeysList.filterMap (fun fk =>
        (qfLookup q.flatFilters fk).map (fun qfs => buildFilterString fk qfs))) := by
  have hF : filterKeysList.filterMap (fun fk =>
      match qfLookup q.flatFilters fk with
      | some queryFilter => some (buildFilterString fk queryFilter)
      | none => none) =
    filterKeysList.filterMap (fun fk =>
      (qfLookup q.flatFilters fk).map (fun qfs => buildFilterString fk qfs)) := by
    apply filterMap_congr_mem
    intro fk _
    cases qfLookup q.flatFilters fk with
    | none => rfl
    | some qfs => rfl
  rw [bsqs_match, hF]

theorem rootValueOf_congr {q1 q2 : SearchQueryJSON} (ht : q1.type = q2.type)
    (hs : q1.status = q2.status) (hb : q1.sortBy = q2.sortBy)
    (ho : q1.sortOrder = q2.sortOrder) (hp : q1.policyID = q2.policyID) (key : String) :
    rootValueOf q1 key = rootValueOf q2 key := by
  unfold rootValueOf
  rw [ht, hs, hb, ho, hp]

theorem map_pairs_blocks (FL : QueryFilters) (ks : List String) :
    (((ks.filterMap (fun k => (qfLookup FL k).map (fun qfs => (k, qfs)))).map
        (fun b => tokensOfFilter b.1 b.2)).flatten).map
          (fun t => (keyOfTok t, qfsOfTok t)) =
      ((ks.filterMap (fun k => (qfLookup FL k).map (fun qfs => (k, qfs)))).map
        (fun b => (contribsOf b.1 b.2).map (fun c => (b.1, c)))).flatten := by
  rw [List.map_flatten, List.map_map]
  congr 1
  apply List.map_congr_left
  intro b _
  exact tokensOfFilter_pairs b.1 b.2


/-- The round trip at the heart of the idempotence claim: re-parsing the
rendered string of a well-formed query and rendering again reproduces the
string. -/
theorem printParse_main (q : SearchQueryJSON) (rws : List (String × String)) (r0 : RawQuery)
    (hfold : ((rws.map (fun kv => Token.root kv.1 kv.2))).foldl applyToken defaultRawQuery = r0)
    (hrw : ∀ kv ∈ rws, kv.1 ∈ rootKeysList ∧ kv.1.data ≠ [] ∧
      (∀ c ∈ kv.1.data, isBareChar c = true) ∧ kv.2.data ≠ [] ∧
      (∀ c ∈ kv.2.data, isRootValChar c = true))
    (hr0f : r0.filters = none)
    (hr0t : r0.type = q.type) (hr0s : r0.status = q.status)
    (hr0b : r0.sortBy = q.sortBy) (hr0o : r0.sortOrder = q.sortOrder)
    (hr0p : r0.policyID = q.policyID)
    (hrp : rootKeysList.filterMap (rootPartOf q) =
      rws.map (fun kv => kv.1 ++ ":" ++ kv.2))
    (hflat : ∀ fk qfs, qfLookup q.flatFilters fk = some qfs → qfs ≠ [] ∧
      ∀ f ∈ qfs, f.operator ∈ opNames ∧ f.value.data ≠ [] ∧
        (∀ c ∈ f.value.data, c ≠ Char.ofNat 34) ∧ (∀ c ∈ f.value.data, c ≠ ','))
    (hsorted : ∀ fk qfs, qfLookup q.flatFilters fk = some qfs →
      qfs.Pairwise (fun a b => strLe a.value b.value)) :
    buildSearchQueryString (buildSearchQueryJSON (buildSearchQueryString (some q))) =
      buildSearchQueryString (some q) := by
  have hksnd : filterKeysList.Nodup := by decide
  have hkeyfacts : ∀ fk ∈ filterKeysList, fk.data ≠ [] ∧
      (∀ c ∈ fk.data, isBareChar c = true) ∧ fk ∉ rootKeysList := by decide
  have hparts : buildSearchQueryString (some q) =
      joinSpace ((rws.map (fun kv => kv.1 ++ ":" ++ kv.2)) ++ (filterKeysList.filterMap (fun fk => (qfLookup q.flatFilters fk).map (fun qfs => buildFilterString fk qfs)))) := by
    rw [bsqs_some q, hrp]
  have hmd1 : ((rws.map (fun kv => kv.1 ++ ":" ++ kv.2))).map String.data = ((rws.map (fun kv => [(kv.1 ++ ":" ++ kv.2).data]))).map interSpace := by
    rw [List.map_map, List.map_map]
    apply List.map_congr_left
    intro kv _
    rfl
  have hmd2 : ((filterKeysList.filterMap (fun fk => (qfLookup q.flatFilters fk).map (fun qfs => buildFilterString fk qfs)))).map String.data = (((filterKeysList.filterMap (fun k => (qfLookup q.flatFilters k).map (fun qfs => (k, qfs)))).map (fun b => [] :: wordsOfFilter b.1 b.2))).map interSpace := by
    rw [List.map_filterMap, List.map_map, List.map_filterMap]
    apply filterMap_congr_mem
    intro fk hfk
    cases hk : qfLookup q.flatFilters fk with
    | none => rfl
    | some qfs =>
      show some ((buildFilterString fk qfs).data) =
        some (interSpace ([] :: wordsOfFilter fk qfs))
      rw [part_data fk qfs, flatten_space_interSpace]
  have hblkne : ∀ wl ∈ ((rws.map (fun kv => [(kv.1 ++ ":" ++ kv.2).data])) ++ ((filterKeysList.filterMap (fun k => (qfLookup q.flatFilters k).map (fun qfs => (k, qfs)))).map (fun b => [] :: wordsOfFilter b.1 b.2))), wl ≠ [] := by
    intro wl hwl
    rcases List.mem_append.mp hwl with h1 | h2
    · rcases List.mem_map.mp h1 with ⟨kv, _, rfl⟩
      simp
    · rcases List.mem_map.mp h2 with ⟨b, _, rfl⟩
      simp
  have hrootword : ∀ kv ∈ rws, (kv.1 ++ ":" ++ kv.2).data ≠ [] ∧
      scanWord (kv.1 ++ ":" ++ kv.2).data false = some false := by
    intro kv hkv
    obtain ⟨_, hkne, hkb, hvne, hvrt⟩ := hrw kv hkv
    constructor
    · have hdata : (kv.1 ++ ":" ++ kv.2).data = kv.1.data ++ (':' :: kv.2.data) := by
        rw [String.data_append, String.data_append, List.append_assoc]
        rfl
      rw [hdata]
      intro h0
      rcases List.append_eq_nil.mp h0 with ⟨_, h2⟩
      cases h2
    · exact scanWord_root_word hkb hvrt
  have hscanflat : ∀ w ∈ ((rws.map (fun kv => [(kv.1 ++ ":" ++ kv.2).data])) ++ ((filterKeysList.filterMap (fun k => (qfLookup q.flatFilters k).map (fun qfs => (k, qfs)))).map (fun b => [] :: wordsOfFilter b.1 b.2))).flatten, scanWord w false = some false := by
    intro w hw
    rcases List.mem_flatten.mp hw with ⟨blk, hblk, hwm⟩
    rcases List.mem_append.mp hblk with h1 | h2
    · rcases List.mem_map.mp h1 with ⟨kv, hkv, rfl⟩
      rcases List.mem_singleton.mp hwm with rfl
      exact (hrootword kv hkv).2
    · rcases List.mem_map.mp h2 with ⟨b, hb, rfl⟩
      rcases List.mem_cons.mp hwm with rfl | hwm2
      · rfl
      · obtain ⟨hbk, hbl⟩ := blocks_mem hb
        obtain ⟨hne0, hkb, _⟩ := hkeyfacts b.1 hbk
        exact wordsOfFilter_scan hkb
          (fun f hf => ((hflat b.1 b.2 hbl).2 f hf).1)
          (fun f hf => ((hflat b.1 b.2 hbl).2 f hf).2.2.1) w hwm2
  have hde : dropEmpties (((rws.map (fun kv => [(kv.1 ++ ":" ++ kv.2).data])) ++ ((filterKeysList.filterMap (fun k => (qfLookup q.flatFilters k).map (fun qfs => (k, qfs)))).map (fun b => [] :: wordsOfFilter b.1 b.2))).flatten) = (rws.map (fun kv => (kv.1 ++ ":" ++ kv.2).data)) ++ (((filterKeysList.filterMap (fun k => (qfLookup q.flatFilters k).map (fun qfs => (k, qfs)))).map (fun b => wordsOfFilter b.1 b.2)).flatten) := by
    rw [dropEmpties_flatten, List.map_append, List.map_map, List.map_map,
      List.flatten_append]
    congr 1
    · have hmeq : rws.map (dropEmpties ∘ fun kv => [(kv.1 ++ ":" ++ kv.2).data]) =
          rws.map (fun kv => [(kv.1 ++ ":" ++ kv.2).data]) := by
        apply List.map_congr_left
        intro kv hkv
        show dropEmpties [(kv.1 ++ ":" ++ kv.2).data] = [(kv.1 ++ ":" ++ kv.2).data]
        exact dropEmpties_of_ne _ (by
          intro w hw
          rcases List.mem_singleton.mp hw with rfl
          exact (hrootword kv hkv).1)
      rw [hmeq, flatten_singletons (fun kv => (kv.1 ++ ":" ++ kv.2).data) rws]
    · have hmeq : (filterKeysList.filterMap (fun k => (qfLookup q.flatFilters k).map (fun qfs => (k, qfs)))).map (dropEmpties ∘ fun b => [] :: wordsOfFilter b.1 b.2) =
          (filterKeysList.filterMap (fun k => (qfLookup q.flatFilters k).map (fun qfs => (k, qfs)))).map (fun b => wordsOfFilter b.1 b.2) := by
        apply List.map_congr_left
        intro b hb
        show dropEmpties ([] :: wordsOfFilter b.1 b.2) = wordsOfFilter b.1 b.2
        rw [dropEmpties_cons, if_pos rfl]
        obtain ⟨hbk, hbl⟩ := blocks_mem hb
        obtain ⟨hne0, _, _⟩ := hkeyfacts b.1 hbk
        exact dropEmpties_of_ne _ (wordsOfFilter_ne_nil hne0
          (fun f hf => ((hflat b.1 b.2 hbl).2 f hf).2.1))
      rw [hmeq]
  have hsplit : splitWords (joinSpace ((rws.map (fun kv => kv.1 ++ ":" ++ kv.2)) ++ (filterKeysList.filterMap (fun fk => (qfLookup q.flatFilters fk).map (fun qfs => buildFilterString fk qfs))))).data =
      some ((rws.map (fun kv => (kv.1 ++ ":" ++ kv.2).data)) ++ (((filterKeysList.filterMap (fun k => (qfLookup q.flatFilters k).map (fun qfs => (k, qfs)))).map (fun b => wordsOfFilter b.1 b.2)).flatten)) := by
    rw [joinSpace_data, List.map_append, hmd1, hmd2, ← List.map_append]
    rw [interSpace_flatten _ hblkne]
    rw [splitWords_interSpace _ hscanflat]
    rw [hde]
  have hwfb : ∀ fk ∈ filterKeysList, ∀ qfs, qfLookup q.flatFilters fk = some qfs →
      (wordsOfFilter fk qfs).mapM parseWord = .ok (tokensOfFilter fk qfs) := by
    intro fk hfk qfs hq0
    obtain ⟨hne0, hkb, hknr⟩ := hkeyfacts fk hfk
    exact wordsOfFilter_mapM hfk hknr hne0 hkb
      (fun f hf => ((hflat fk qfs hq0).2 f hf).1)
      (fun f hf => ⟨((hflat fk qfs hq0).2 f hf).2.1,
        ((hflat fk qfs hq0).2 f hf).2.2.1, ((hflat fk qfs hq0).2 f hf).2.2.2⟩)
  have hmapm : ((rws.map (fun kv => (kv.1 ++ ":" ++ kv.2).data)) ++ (((filterKeysList.filterMap (fun k => (qfLookup q.flatFilters k).map (fun qfs => (k, qfs)))).map (fun b => wordsOfFilter b.1 b.2)).flatten)).mapM parseWord = .ok ((rws.map (fun kv => Token.root kv.1 kv.2)) ++ (((filterKeysList.filterMap (fun k => (qfLookup q.flatFilters k).map (fun qfs => (k, qfs)))).map (fun b => tokensOfFilter b.1 b.2)).flatten)) := by
    apply mapM_ok_append
    · apply mapM_ok_map
      intro kv hkv
      obtain ⟨hkm, hkne, hkb, hvne, hvrt⟩ := hrw kv hkv
      exact parseWord_root hkm hkne hkb hvne hvrt
    · exact mapM_blocks q.flatFilters filterKeysList hwfb
  have hftF : ∀ t ∈ (((filterKeysList.filterMap (fun k => (qfLookup q.flatFilters k).map (fun qfs => (k, qfs)))).map (fun b => tokensOfFilter b.1 b.2)).flatten), filtTokenB t = true := by
    intro t ht
    rcases List.mem_flatten.mp ht with ⟨ts0, hts0, htm⟩
    rcases List.mem_map.mp hts0 with ⟨b, hb, rfl⟩
    exact tokensOfFilter_filt t htm
  have hftK : ∀ t ∈ (((filterKeysList.filterMap (fun k => (qfLookup q.flatFilters k).map (fun qfs => (k, qfs)))).map (fun b => tokensOfFilter b.1 b.2)).flatten), keyOfTok t ∈ filterKeysList := by
    intro t ht
    rcases List.mem_flatten.mp ht with ⟨ts0, hts0, htm⟩
    rcases List.mem_map.mp hts0 with ⟨b, hb, rfl⟩
    rw [tokensOfFilter_key t htm]
    exact (blocks_mem hb).1
  have hftO : ∀ t ∈ (((filterKeysList.filterMap (fun k => (qfLookup q.flatFilters k).map (fun qfs => (k, qfs)))).map (fun b => tokensOfFilter b.1 b.2)).flatten), ∀ k o vs, t = .filt k o vs → o ≠ "" := by
    intro t ht
    rcases List.mem_flatten.mp ht with ⟨ts0, hts0, htm⟩
    rcases List.mem_map.mp hts0 with ⟨b, hb, rfl⟩
    exact tokensOfFilter_op
      (fun f hf => ((hflat b.1 b.2 (blocks_mem hb).2).2 f hf).1) t htm
  have hparse : searchParse (joinSpace ((rws.map (fun kv => kv.1 ++ ":" ++ kv.2)) ++ (filterKeysList.filterMap (fun fk => (qfLookup q.flatFilters fk).map (fun qfs => buildFilterString fk qfs))))) =
      Except.ok { r0 with filters := (((((filterKeysList.filterMap (fun k => (qfLookup q.flatFilters k).map (fun qfs => (k, qfs)))).map (fun b => tokensOfFilter b.1 b.2)).flatten).map nodeOf).foldl (fun c n => some (chainAST c n)) none) } := by
    unfold searchParse
    rw [hsplit]
    show ((match ((rws.map (fun kv => (kv.1 ++ ":" ++ kv.2).data)) ++ (((filterKeysList.filterMap (fun k => (qfLookup q.flatFilters k).map (fun qfs => (k, qfs)))).map (fun b => wordsOfFilter b.1 b.2)).flatten)).mapM parseWord with
          | Except.error e => Except.error e
          | Except.ok tokens => Except.ok (tokens.foldl applyToken defaultRawQuery)) :
        Except String RawQuery) = _
    rw [hmapm]
    show Except.ok (((rws.map (fun kv => Token.root kv.1 kv.2)) ++ (((filterKeysList.filterMap (fun k => (qfLookup q.flatFilters k).map (fun qfs => (k, qfs)))).map (fun b => tokensOfFilter b.1 b.2)).flatten)).foldl applyToken defaultRawQuery) = _
    rw [List.foldl_append, hfold, foldl_filt_tokens (((filterKeysList.filterMap (fun k => (qfLookup q.flatFilters k).map (fun qfs => (k, qfs)))).map (fun b => tokensOfFilter b.1 b.2)).flatten) r0 hftF, hr0f]
  have hgf : getFilters (((((filterKeysList.filterMap (fun k => (qfLookup q.flatFilters k).map (fun qfs => (k, qfs)))).map (fun b => tokensOfFilter b.1 b.2)).flatten).map nodeOf).foldl (fun c n => some (chainAST c n)) none) =
      (filterKeysList.filterMap (fun k => (qfLookup q.flatFilters k).map (fun qfs => (k, qfs)))).map (fun b => (b.1, (contribsOf b.1 b.2).flatten)) := by
    rw [getFilters_tokens (((filterKeysList.filterMap (fun k => (qfLookup q.flatFilters k).map (fun qfs => (k, qfs)))).map (fun b => tokensOfFilter b.1 b.2)).flatten) hftF hftK hftO]
    have hE2 : (((filterKeysList.filterMap (fun k => (qfLookup q.flatFilters k).map (fun qfs => (k, qfs)))).map (fun b => tokensOfFilter b.1 b.2)).flatten).map (fun t => (keyOfTok t, qfsOfTok t)) =
        (((filterKeysList.filterMap (fun k => (qfLookup q.flatFilters k).map (fun qfs => (k, qfs)))).map (fun b => (b.1, contribsOf b.1 b.2))).map
          (fun b => b.2.map (fun c => (b.1, c)))).flatten := by
      rw [List.map_map]
      exact map_pairs_blocks q.flatFilters filterKeysList
    rw [hE2]
    have hne2 : ∀ b ∈ (filterKeysList.filterMap (fun k => (qfLookup q.flatFilters k).map (fun qfs => (k, qfs)))).map (fun b => (b.1, contribsOf b.1 b.2)), b.2 ≠ [] := by
      intro b hb
      rcases List.mem_map.mp hb with ⟨b0, hb0, rfl⟩
      obtain ⟨hbk, hbl⟩ := blocks_mem hb0
      show contribsOf b0.1 b0.2 ≠ []
      unfold contribsOf
      intro h0
      exact tokensOfFilter_ne_nil (hflat b0.1 b0.2 hbl).1 (List.map_eq_nil_iff.mp h0)
    have hfresh2 : ∀ b ∈ (filterKeysList.filterMap (fun k => (qfLookup q.flatFilters k).map (fun qfs => (k, qfs)))).map (fun b => (b.1, contribsOf b.1 b.2)),
        ∀ p ∈ ([] : QueryFilters), p.1 ≠ b.1 := by
      intro b _ p hp
      cases hp
    have hnd2 : (((filterKeysList.filterMap (fun k => (qfLookup q.flatFilters k).map (fun qfs => (k, qfs)))).map (fun b => (b.1, contribsOf b.1 b.2))).map
        Prod.fst).Nodup := by
      rw [List.map_map]
      have hmeq : (filterKeysList.filterMap (fun k => (qfLookup q.flatFilters k).map (fun qfs => (k, qfs)))).map (Prod.fst ∘ fun b => (b.1, contribsOf b.1 b.2)) =
          (filterKeysList.filterMap (fun k => (qfLookup q.flatFilters k).map (fun qfs => (k, qfs)))).map Prod.fst := by
        apply List.map_congr_left
        intro b _
        rfl
      rw [hmeq]
      exact (blocks_keys_sublist q.flatFilters filterKeysList).nodup hksnd
    rw [foldPush_groups _ [] hne2 hfresh2 hnd2, List.nil_append, List.map_map]
    apply List.map_congr_left
    intro b _
    rfl
  have hfinal : ∀ Q2 : SearchQueryJSON, Q2.type = q.type → Q2.status = q.status →
      Q2.sortBy = q.sortBy → Q2.sortOrder = q.sortOrder → Q2.policyID = q.policyID →
      Q2.flatFilters = sortFlatFilters (getFilters (((((filterKeysList.filterMap (fun k => (qfLookup q.flatFilters k).map (fun qfs => (k, qfs)))).map (fun b => tokensOfFilter b.1 b.2)).flatten).map nodeOf).foldl (fun c n => some (chainAST c n)) none)) →
      buildSearchQueryString (some Q2) = joinSpace ((rws.map (fun kv => kv.1 ++ ":" ++ kv.2)) ++ (filterKeysList.filterMap (fun fk => (qfLookup q.flatFilters fk).map (fun qfs => buildFilterString fk qfs)))) := by
    intro Q2 h1 h2 h3 h4 h5 h6
    rw [bsqs_some Q2]
    have hrootsQ : rootKeysList.filterMap (rootPartOf Q2) =
        (rws.map (fun kv => kv.1 ++ ":" ++ kv.2)) := by
      rw [← hrp]
      apply filterMap_congr_mem
      intro key _
      unfold rootPartOf
      rw [rootValueOf_congr h1 h2 h3 h4 h5 key]
    have hfiltQ : filterKeysList.filterMap (fun fk =>
        (qfLookup Q2.flatFilters fk).map (fun qfs => buildFilterString fk qfs)) =
        (filterKeysList.filterMap (fun fk => (qfLookup q.flatFilters fk).map (fun qfs => buildFilterString fk qfs))) := by
      apply filterMap_congr_mem
      intro fk hfk
      have hlk : qfLookup Q2.flatFilters fk =
          (qfLookup q.flatFilters fk).map
            (fun qfs => sortFilterValues ((contribsOf fk qfs).flatten)) := by
        rw [h6, qfLookup_sortFlatFilters, hgf]
        rw [lookup_blocks q.flatFilters (fun fk qfs => (contribsOf fk qfs).flatten)
          filterKeysList hksnd fk hfk]
        rw [Option.map_map]
        rfl
      rw [hlk]
      cases hk : qfLookup q.flatFilters fk with
      | none => rfl
      | some qfs =>
        show some (buildFilterString fk
            (sortFilterValues ((contribsOf fk qfs).flatten))) =
          some (buildFilterString fk qfs)
        rw [contribs_flatten fk qfs]
        by_cases hfkk : fk = "keyword"
        · rw [if_pos hfkk]
          rw [sortFilterValues_of_sorted (eqify_sorted (hsorted fk qfs hk))]
          rw [hfkk, bfs_keyword_eqify]
        · rw [if_neg hfkk]
          rw [sortFilterValues_of_sorted (hsorted fk qfs hk)]
    rw [hrootsQ, hfiltQ]
  rw [hparts]
  show buildSearchQueryString
      (buildSearchQueryJSON (joinSpace ((rws.map (fun kv => kv.1 ++ ":" ++ kv.2)) ++ (filterKeysList.filterMap (fun fk => (qfLookup q.flatFilters fk).map (fun qfs => buildFilterString fk qfs)))))) = _
  unfold buildSearchQueryJSON
  rw [hparse]
  exact hfinal _ hr0t hr0s hr0b hr0o hr0p rfl

theorem filterMap_cons_some {α β : Type} {f : α → Option β} {a : α} {b : β}
    (h : f a = some b) (l : List α) :
    (a :: l).filterMap f = b :: l.filterMap f := by
  rw [List.filterMap_cons, h]

theorem filterMap_cons_none {α β : Type} {f : α → Option β} {a : α}
    (h : f a = none) (l : List α) : (a :: l).filterMap f = l.filterMap f := by
  rw [List.filterMap_cons, h]

/-- The flat filters `buildSearchQueryJSON` returns are value-sorted per key
(`getQueryHash` sorts them in place before hashing). -/
theorem buildJSON_sorted {s : String} {q : SearchQueryJSON}
    (hq : buildSearchQueryJSON s = some q) :
    ∀ fk qfs, qfLookup q.flatFilters fk = some qfs →
      qfs.Pairwise (fun a b => strLe a.value b.value) := by
  unfold buildSearchQueryJSON at hq
  cases hps : searchParse s with
  | error e => rw [hps] at hq; cases hq
  | ok r =>
    rw [hps] at hq
    injection hq with he
    have hff2 : q.flatFilters = sortFlatFilters (getFilters r.filters) :=
      (congrArg SearchQueryJSON.flatFilters he).symm
    intro fk qfs hlk
    rw [hff2, qfLookup_sortFlatFilters] at hlk
    rcases Option.map_eq_some'.mp hlk with ⟨l0, _, rfl⟩
    exact sortFilterValues_sorted l0

theorem str_ne_empty_of_data {v : String} (h : v.data ≠ []) : v ≠ "" := by
  intro he
  apply h
  rw [he]

/-- C2, amended: for every string the builder parses, one normalization pass
is a fixed point of serialization, **provided** the parsed query is
well-formed in the sense forced by the counterexample: the root values are
nonempty root-value characters, and every flat-filter constraint has a
recognised operator and a nonempty value containing no double quote and no
comma.  (A comma inside a value whose characters are all whitelisted is
re-printed bare and re-parsed as a two-element list, which the
counterexample exhibits.) -/
theorem c2_normalize_fixed_point_of_wf_values (s : String) (q : SearchQueryJSON)
    (hq : buildSearchQueryJSON s = some q)
    (htv : q.type.data ≠ [] ∧ ∀ c ∈ q.type.data, isRootValChar c = true)
    (hsv : q.status.data ≠ [] ∧ ∀ c ∈ q.status.data, isRootValChar c = true)
    (hbv : q.sortBy.data ≠ [] ∧ ∀ c ∈ q.sortBy.data, isRootValChar c = true)
    (hov : q.sortOrder.data ≠ [] ∧ ∀ c ∈ q.sortOrder.data, isRootValChar c = true)
    (hpv : ∀ p, q.policyID = some p → p.data ≠ [] ∧ ∀ c ∈ p.data, isRootValChar c = true)
    (hflat : ∀ fk qfs, qfLookup q.flatFilters fk = some qfs → qfs ≠ [] ∧
      ∀ f ∈ qfs, f.operator ∈ opNames ∧ f.value.data ≠ [] ∧
        (∀ c ∈ f.value.data, c ≠ Char.ofNat 34) ∧ (∀ c ∈ f.value.data, c ≠ ',')) :
    normalizeQuery (normalizeQuery s) = normalizeQuery s := by
  unfold normalizeQuery
  rw [hq]
  have hsorted := buildJSON_sorted hq
  have ht0 : q.type ≠ "" := str_ne_empty_of_data htv.1
  have hs0 : q.status ≠ "" := str_ne_empty_of_data hsv.1
  have hb0 : q.sortBy ≠ "" := str_ne_empty_of_data hbv.1
  have ho0 : q.sortOrder ≠ "" := str_ne_empty_of_data hov.1
  have hF1 : rootPartOf q "type" = some ("type" ++ ":" ++ q.type) := by
    show (if q.type ≠ "" then some ("type" ++ ":" ++ q.type) else none) = _
    rw [if_pos ht0]
  have hF2 : rootPartOf q "status" = some ("status" ++ ":" ++ q.status) := by
    show (if q.status ≠ "" then some ("status" ++ ":" ++ q.status) else none) = _
    rw [if_pos hs0]
  have hF4 : rootPartOf q "sortBy" = some ("sortBy" ++ ":" ++ q.sortBy) := by
    show (if q.sortBy ≠ "" then some ("sortBy" ++ ":" ++ q.sortBy) else none) = _
    rw [if_pos hb0]
  have hF5 : rootPartOf q "sortOrder" = some ("sortOrder" ++ ":" ++ q.sortOrder) := by
    show (if q.sortOrder ≠ "" then some ("sortOrder" ++ ":" ++ q.sortOrder) else none) = _
    rw [if_pos ho0]
  cases hpol : q.policyID with
  | none =>
    have hF3 : rootPartOf q "policyID" = none := by
      show (match (match q.policyID with
             | some v => some v
             | none => (buildSearchQueryJSON "").bind (fun d => rootValueOf d "policyID")) with
        | some v => if v ≠ "" then some ("policyID" ++ ":" ++ v) else none
        | none => none) = none
      rw [hpol]
      set_option maxRecDepth 8000 in decide
    refine printParse_main q
      [("type", q.type), ("status", q.status), ("sortBy", q.sortBy),
       ("sortOrder", q.sortOrder)]
      { type := q.type, status := q.status, sortBy := q.sortBy,
        sortOrder := q.sortOrder, policyID := none, filters := none }
      rfl ?_ rfl rfl rfl rfl rfl hpol.symm ?_ hflat hsorted
    · intro kv hkv
      simp only [List.mem_cons, List.not_mem_nil, or_false] at hkv
      rcases hkv with rfl | rfl | rfl | rfl
      · exact ⟨(by decide : ("type" : String) ∈ rootKeysList),
          (by decide : ("type" : String).data ≠ []),
          (by decide : ∀ c ∈ ("type" : String).data, isBareChar c = true),
          htv.1, htv.2⟩
      · exact ⟨(by decide : ("status" : String) ∈ rootKeysList),
          (by decide : ("status" : String).data ≠ []),
          (by decide : ∀ c ∈ ("status" : String).data, isBareChar c = true),
          hsv.1, hsv.2⟩
      · exact ⟨(by decide : ("sortBy" : String) ∈ rootKeysList),
          (by decide : ("sortBy" : String).data ≠ []),
          (by decide : ∀ c ∈ ("sortBy" : String).data, isBareChar c = true),
          hbv.1, hbv.2⟩
      · exact ⟨(by decide : ("sortOrder" : String) ∈ rootKeysList),
          (by decide : ("sortOrder" : String).data ≠ []),
          (by decide : ∀ c ∈ ("sortOrder" : String).data, isBareChar c = true),
          hov.1, hov.2⟩
    · show ("type" :: "status" :: "policyID" :: "sortBy" :: "sortOrder" ::
        []).filterMap (rootPartOf q) = _
      rw [filterMap_cons_some hF1, filterMap_cons_some hF2, filterMap_cons_none hF3,
        filterMap_cons_some hF4, filterMap_cons_some hF5]
      rfl
  | some p =>
    have hp0 : p ≠ "" := str_ne_empty_of_data (hpv p hpol).1
    have hF3 : rootPartOf q "policyID" = some ("policyID" ++ ":" ++ p) := by
      show (match (match q.policyID with
             | some v => some v
             | none => (buildSearchQueryJSON "").bind (fun d => rootValueOf d "policyID")) with
        | some v => if v ≠ "" then some ("policyID" ++ ":" ++ v) else none
        | none => none) = some ("policyID" ++ ":" ++ p)
      rw [hpol]
      show (if p ≠ "" then some ("policyID" ++ ":" ++ p) else none) = _
      rw [if_pos hp0]
    refine printParse_main q
      [("type", q.type), ("status", q.status), ("policyID", p), ("sortBy", q.sortBy),
       ("sortOrder", q.sortOrder)]
      { type := q.type, status := q.status, sortBy := q.sortBy,
        sortOrder := q.sortOrder, policyID := some p, filters := none }
      rfl ?_ rfl rfl rfl rfl rfl hpol.symm ?_ hflat hsorted
    · intro kv hkv
      simp only [List.mem_cons, List.not_mem_nil, or_false] at hkv
      rcases hkv with rfl | rfl | rfl | rfl | rfl
      · exact ⟨(by decide : ("type" : String) ∈ rootKeysList),
          (by decide : ("type" : String).data ≠ []),
          (by decide : ∀ c ∈ ("type" : String).data, isBareChar c = true),
          htv.1, htv.2⟩
      · exact ⟨(by decide : ("status" : String) ∈ rootKeysList),
          (by decide : ("status" : String).data ≠ []),
          (by decide : ∀ c ∈ ("status" : String).data, isBareChar c = true),
          hsv.1, hsv.2⟩
      · exact ⟨(by decide : ("policyID" : String) ∈ rootKeysList),
          (by decide : ("policyID" : String).data ≠ []),
          (by decide : ∀ c ∈ ("policyID" : String).data, isBareChar c = true),
          (hpv p hpol).1, (hpv p hpol).2⟩
      · exact ⟨(by decide : ("sortBy" : String) ∈ rootKeysList),
          (by decide : ("sortBy" : String).data ≠ []),
          (by decide : ∀ c ∈ ("sortBy" : String).data, isBareChar c = true),
          hbv.1, hbv.2⟩
      · exact ⟨(by decide : ("sortOrder" : String) ∈ rootKeysList),
          (by decide : ("sortOrder" : String).data ≠ []),
          (by decide : ∀ c ∈ ("sortOrder" : String).data, isBareChar c = true),
          hov.1, hov.2⟩
    · show ("type" :: "status" :: "policyID" :: "sortBy" :: "sortOrder" ::
        []).filterMap (rootPartOf q) = _
      rw [filterMap_cons_some hF1, filterMap_cons_some hF2, filterMap_cons_some hF3,
        filterMap_cons_some hF4, filterMap_cons_some hF5]
      rfl

/-- Witness for C2's amended theorem: the parseable query `category:a`
(well-formed: no commas or quotes in values) is a serialization fixed point
after one pass. -/
theorem c2_normalize_fixed_point_of_wf_values_witness :
    normalizeQuery (normalizeQuery "category:a") = normalizeQuery "category:a" :=
  c2_normalize_fixed_point_of_wf_values "category:a"
    { type := "expense", status := "all", sortBy := "date", sortOrder := "desc",
      policyID := none,
      filters := some (.node "eq" (.str "category") (.str "a")),
      flatFilters := [("category", [⟨"eq", "a"⟩])],
      inputQuery := "category:a", hash := 3370415244 }
    (by set_option maxRecDepth 16000 in decide)
    (by decide) (by decide) (by decide) (by decide)
    (fun p hp => nomatch hp)
    (by
      intro fk qfs hlk
      rcases qfLookup_eq_some_mem hlk with ⟨pp, hpp, hk1, hk2⟩
      rcases List.mem_singleton.mp hpp with rfl
      subst hk2
      exact ⟨by decide, by decide⟩)
